import Mathlib

/-!
# Interactive request input of `env/call.go`

A shallow embedding of `src/env/call.go`: the walker `inputFields` that asks
for one text per field of a request schema, the assembler `setInput` that
coerces the collected texts and stores them in a dynamic message, and the
orchestrator `Call`.

Conventions of the embedding

* Go strings are Lean strings; `strconv` looks at them byte by byte, and every
  byte of a non-ASCII character is rejected exactly like the character
  itself, so the parsers below walk over characters.
* Go machine integers are `Nat`/`Int` with explicit wrap-around.
* A Go function that can return an error, or stop with a run-time panic, has
  a result of type `Res`.
* The descriptors of the reflection library are finite trees
  (`MessageDescriptor`), the walker is given the nesting depth it may
  descend as `fuel`.
* Fields are singular: `call.go` never looks at the label of a field.
* The Prompt Source and the Choice Source are replayed from the sequence of
  their answers; what was asked is recorded in the `Console`, each question
  with the argument `ancestor` of the invocation of the walker that put it.
-/

namespace Evans

/-! ## Field kinds (`descriptor.FieldDescriptorProto_Type`) -/

/-- The declared wire kinds of protobuf fields, with the numbering of
`descriptor.proto`. -/
inductive FieldType where
  | TYPE_DOUBLE | TYPE_FLOAT | TYPE_INT64 | TYPE_UINT64 | TYPE_INT32
  | TYPE_FIXED64 | TYPE_FIXED32 | TYPE_BOOL | TYPE_STRING | TYPE_GROUP
  | TYPE_MESSAGE | TYPE_BYTES | TYPE_UINT32 | TYPE_ENUM | TYPE_SFIXED32
  | TYPE_SFIXED64 | TYPE_SINT32 | TYPE_SINT64
  deriving DecidableEq, Repr

/-- The number of a kind, what `%#v` prints for it. -/
def FieldType.number : FieldType → Nat
  | .TYPE_DOUBLE => 1 | .TYPE_FLOAT => 2 | .TYPE_INT64 => 3 | .TYPE_UINT64 => 4
  | .TYPE_INT32 => 5 | .TYPE_FIXED64 => 6 | .TYPE_FIXED32 => 7 | .TYPE_BOOL => 8
  | .TYPE_STRING => 9 | .TYPE_GROUP => 10 | .TYPE_MESSAGE => 11 | .TYPE_BYTES => 12
  | .TYPE_UINT32 => 13 | .TYPE_ENUM => 14 | .TYPE_SFIXED32 => 15
  | .TYPE_SFIXED64 => 16 | .TYPE_SINT32 => 17 | .TYPE_SINT64 => 18

/-- The method `String()` of a kind, used in the prompt label. -/
def FieldType.String : FieldType → String
  | .TYPE_DOUBLE => "TYPE_DOUBLE" | .TYPE_FLOAT => "TYPE_FLOAT"
  | .TYPE_INT64 => "TYPE_INT64" | .TYPE_UINT64 => "TYPE_UINT64"
  | .TYPE_INT32 => "TYPE_INT32" | .TYPE_FIXED64 => "TYPE_FIXED64"
  | .TYPE_FIXED32 => "TYPE_FIXED32" | .TYPE_BOOL => "TYPE_BOOL"
  | .TYPE_STRING => "TYPE_STRING" | .TYPE_GROUP => "TYPE_GROUP"
  | .TYPE_MESSAGE => "TYPE_MESSAGE" | .TYPE_BYTES => "TYPE_BYTES"
  | .TYPE_UINT32 => "TYPE_UINT32" | .TYPE_ENUM => "TYPE_ENUM"
  | .TYPE_SFIXED32 => "TYPE_SFIXED32" | .TYPE_SFIXED64 => "TYPE_SFIXED64"
  | .TYPE_SINT32 => "TYPE_SINT32" | .TYPE_SINT64 => "TYPE_SINT64"

/-- Source: `isMessageType`. -/
def isMessageType (typeName : FieldType) : Bool :=
  typeName == FieldType.TYPE_MESSAGE

/-! ## Errors -/

/-- The two causes of a `strconv.NumError`. -/
inductive NumErr where
  | ErrSyntax
  | ErrRange
  deriving DecidableEq, Repr

/-- The error values that travel through `call.go`.

* `EOF` is the sentinel `io.EOF`;
* `NumError` is `*strconv.NumError` with its three fields `Func`, `Num`, `Err`;
* `invalidType t` is `fmt.Errorf("invalid type: %#v", t)`;
* `typeError` is what `TrySetField` answers to a value of the wrong Go type;
* `Wrap inner msg` is `errors.Wrap(inner, msg)`;
* `other` is any other error of a collaborator. -/
inductive Error where
  | EOF
  | NumError (Func : String) (Num : String) (Err : NumErr)
  | invalidType (descType : FieldType)
  | typeError (field : String) (descType : FieldType)
  | Wrap (inner : Error) (msg : String)
  | other (msg : String)
  deriving DecidableEq, Repr

/-- The function `errors.Cause`: strips the wrappers of `errors.Wrap`. -/
def Error.Cause : Error → Error
  | .Wrap inner _ => inner.Cause
  | e => e

/-- The digit of `n mod 16` in the table `lowerhex` of `strconv`. -/
def lowerhex (n : Nat) : Char :=
  Char.ofNat (if n % 16 < 10 then 48 + n % 16 else 87 + n % 16)

/-- The function `appendEscapedRune` of `strconv` as `strconv.Quote` calls it
(double quote, neither ASCII-only nor graphic-only), for a valid rune `r`:

* the double quote (34) and the backslash (92) are backslashed;
* a printable rune is kept: in ASCII the runes 32 to 126, outside ASCII what
  the table `unicode.IsPrint` says, which is the parameter `isPrint`;
* the runes 7 to 13 are written `\a \b \t \n \v \f \r`;
* the other control runes below 32 and the rune 127 are written `\x` and two
  hexadecimal digits;
* every other rune is written `\u` and four digits below 65536, `\U` and
  eight digits from there on. -/
def appendEscapedRune (isPrint : Char → Bool) (r : Char) : List Char :=
  let n := r.toNat
  let bs := Char.ofNat 92
  if n = 34 ∨ n = 92 then [bs, r]
  else if (if n < 128 then decide (32 ≤ n ∧ n < 127) else isPrint r) then [r]
  else if n = 7 then [bs, 'a']
  else if n = 8 then [bs, 'b']
  else if n = 12 then [bs, 'f']
  else if n = 10 then [bs, 'n']
  else if n = 13 then [bs, 'r']
  else if n = 9 then [bs, 't']
  else if n = 11 then [bs, 'v']
  else if n < 32 ∨ n = 127 then [bs, 'x', lowerhex (n / 16), lowerhex n]
  else if n < 65536 then
    [bs, 'u', lowerhex (n / 4096), lowerhex (n / 256), lowerhex (n / 16), lowerhex n]
  else
    [bs, 'U', lowerhex (n / 268435456), lowerhex (n / 16777216), lowerhex (n / 1048576),
      lowerhex (n / 65536), lowerhex (n / 4096), lowerhex (n / 256), lowerhex (n / 16),
      lowerhex n]

/-- The function `strconv.Quote`: the text between double quotes, each rune
escaped by `appendEscapedRune`. -/
def Quote (isPrint : Char → Bool) (s : String) : String :=
  ⟨Char.ofNat 34 :: s.data.flatMap (appendEscapedRune isPrint) ++ [Char.ofNat 34]⟩

/-- The text of `Error()` of the two causes of `strconv`. -/
def NumErr.text : NumErr → String
  | .ErrSyntax => "invalid syntax"
  | .ErrRange => "value out of range"

/-- The text of `Error()`: that of `strconv` (`"strconv." + Func + ": parsing "
+ Quote(Num) + ": " + Err.Error()`), of `fmt.Errorf` and of `errors.Wrap` for
the errors built in `call.go`, an indicative one for a type error of the
dynamic message. `isPrint` is the table `unicode.IsPrint` outside ASCII. -/
def Error.text (isPrint : Char → Bool) : Error → String
  | .EOF => "EOF"
  | .NumError f n c => "strconv." ++ f ++ ": parsing " ++ Quote isPrint n ++ ": " ++ c.text
  | .invalidType t => "invalid type: " ++ toString t.number
  | .typeError f t => "type error: " ++ f ++ " " ++ t.String
  | .Wrap inner msg => msg ++ ": " ++ Error.text isPrint inner
  | .other msg => msg

/-- The result of a Go call: a value, a returned error, or a run-time panic. -/
inductive Res (α : Type) where
  | ok (a : α)
  | err (e : Error)
  | panic
  deriving DecidableEq, Repr

/-! ## `strconv` -/

/-- Two's complement reading of the low 64 bits: the conversion `int64(x)`. -/
def toInt64 (x : Int) : Int := (x + 2 ^ 63) % 2 ^ 64 - 2 ^ 63

/-- Two's complement reading of the low 32 bits: the conversion `int32(x)`. -/
def toInt32 (x : Int) : Int := (x + 2 ^ 31) % 2 ^ 32 - 2 ^ 31

/-- The conversion `uint32(x)` of a `uint64`. -/
def toUint32 (x : Nat) : Nat := x % 2 ^ 32

/-- The constant `cutoff` of `ParseUint` in base 10: `maxUint64/10 + 1`. -/
def cutoff10 : Nat := (2 ^ 64 - 1) / 10 + 1

/-- The digit loop of `strconv.ParseUint` in base 10, `n` being the `uint64`
accumulated so far. A letter is a digit of value at least 10, hence no digit
of base 10. -/
def parseUintLoop (maxVal : Nat) : List Char → Nat → Nat × Option NumErr
  | [], n => (n, none)
  | c :: cs, n =>
    if '0' ≤ c ∧ c ≤ '9' then
      if n ≥ cutoff10 then (maxVal, some .ErrRange)
      else
        let n10 := (n * 10) % 2 ^ 64
        let n1 := (n10 + (c.toNat - '0'.toNat)) % 2 ^ 64
        if n1 < n10 ∨ n1 > maxVal then (maxVal, some .ErrRange)
        else parseUintLoop maxVal cs n1
    else (0, some .ErrSyntax)

/-- The function `strconv.ParseUint(s, 10, bitSize)`: the value and the cause
of the error, if any. -/
def parseUintCore (s : List Char) (bitSize : Nat) : Nat × Option NumErr :=
  match s with
  | [] => (0, some .ErrSyntax)
  | _ => parseUintLoop (2 ^ bitSize - 1) s 0

/-- The function `strconv.ParseUint(s, 10, bitSize)`. -/
def ParseUint (s : String) (bitSize : Nat) : Nat × Option Error :=
  match parseUintCore s.data bitSize with
  | (n, none) => (n, none)
  | (n, some k) => (n, some (.NumError "ParseUint" s k))

/-- The function `strconv.ParseInt(s, 10, bitSize)`. -/
def ParseInt (s : String) (bitSize : Nat) : Int × Option Error :=
  match s.data with
  | [] => (0, some (.NumError "ParseInt" s .ErrSyntax))
  | c :: cs =>
    let neg := c == '-'
    let digits := if c == '+' then cs else if c == '-' then cs else c :: cs
    match parseUintCore digits bitSize with
    | (_, some .ErrSyntax) => (0, some (.NumError "ParseInt" s .ErrSyntax))
    | (un, _) =>
      let cutoff : Nat := 2 ^ (bitSize - 1)
      if !neg && un ≥ cutoff then
        (toInt64 (cutoff - 1 : Nat), some (.NumError "ParseInt" s .ErrRange))
      else if neg && un > cutoff then
        (toInt64 (-(cutoff : Int)), some (.NumError "ParseInt" s .ErrRange))
      else
        let n := toInt64 un
        (if neg then toInt64 (-n) else n, none)

/-- The function `strconv.ParseBool`. -/
def ParseBool (s : String) : Bool × Option Error :=
  if s = "1" ∨ s = "t" ∨ s = "T" ∨ s = "TRUE" ∨ s = "true" ∨ s = "True" then (true, none)
  else if s = "0" ∨ s = "f" ∨ s = "F" ∨ s = "FALSE" ∨ s = "false" ∨ s = "False" then
    (false, none)
  else (false, some (.NumError "ParseBool" s .ErrSyntax))

/-- The floating-point part of the Go library, left abstract: a `float64` or
`float32` is represented by its bit pattern. `ParseFloat s bitSize` always
has a `float64` as its first result. -/
structure FloatLib where
  ParseFloat : String → Nat → Nat × Option Error
  toFloat32 : Nat → Nat

/-! ## Descriptors (`desc.FieldDescriptor`, `desc.MessageDescriptor`) -/

/-- One named value of an enumeration (`desc.EnumValueDescriptor`). -/
structure EnumValueDescriptor where
  name : String
  fqn : String
  number : Int
  deriving DecidableEq, Repr

/-- An enumeration type (`desc.EnumDescriptor`). -/
structure EnumDescriptor where
  name : String
  fqn : String
  values : List EnumValueDescriptor
  deriving DecidableEq, Repr

mutual
/-- A field of a message type. `oneOf` is the name of the oneof the field is
declared in, `enumType` what `GetEnumType` returns and `messageType` what
`GetMessageType` returns (`none` for Go's `nil`). -/
inductive FieldDescriptor where
  | mk (name : String) (type : FieldType) (oneOf : Option String)
      (enumType : Option EnumDescriptor) (messageType : Option MessageDescriptor)
/-- A message type: its fully qualified name and its fields in declared
order. -/
inductive MessageDescriptor where
  | mk (fqn : String) (fields : List FieldDescriptor)
end

/-- The getter `GetName`. -/
def FieldDescriptor.GetName : FieldDescriptor → String
  | .mk n _ _ _ _ => n

/-- The getter `GetType`. -/
def FieldDescriptor.GetType : FieldDescriptor → FieldType
  | .mk _ t _ _ _ => t

/-- The name of the oneof of the field, if it is in one. -/
def FieldDescriptor.oneOfName : FieldDescriptor → Option String
  | .mk _ _ o _ _ => o

/-- The getter `GetEnumType`. -/
def FieldDescriptor.GetEnumType : FieldDescriptor → Option EnumDescriptor
  | .mk _ _ _ e _ => e

/-- The getter `GetMessageType`. -/
def FieldDescriptor.GetMessageType : FieldDescriptor → Option MessageDescriptor
  | .mk _ _ _ _ m => m

/-- The getter `GetFullyQualifiedName` of a message type. -/
def MessageDescriptor.GetFullyQualifiedName : MessageDescriptor → String
  | .mk q _ => q

/-- The getter `GetFields`. -/
def MessageDescriptor.GetFields : MessageDescriptor → List FieldDescriptor
  | .mk _ fs => fs

/-- A oneof of a message type (`desc.OneOfDescriptor`): its name, its fully
qualified name and its choices. -/
structure OneOfDescriptor where
  name : String
  fqn : String
  choices : List FieldDescriptor

/-- The getter `GetOneOf` of a field of message type `msg`: the oneof of that
name, whose choices are the fields of `msg` declared in it, in declared
order. -/
def GetOneOf (msg : MessageDescriptor) (f : FieldDescriptor) : Option OneOfDescriptor :=
  match f.oneOfName with
  | none => none
  | some o =>
    some { name := o
           fqn := msg.GetFullyQualifiedName ++ "." ++ o
           choices := msg.GetFields.filter (fun c => c.oneOfName == some o) }

mutual
/-- Nesting depth of the message type of a field (0 when it has none). -/
def FieldDescriptor.depth : FieldDescriptor → Nat
  | .mk _ _ _ _ none => 0
  | .mk _ _ _ _ (some m) => m.depth
/-- Nesting depth of a message type: 1 for a message without message fields. -/
def MessageDescriptor.depth : MessageDescriptor → Nat
  | .mk _ fs => 1 + depthList fs
/-- The largest depth among the fields of a list. -/
def depthList : List FieldDescriptor → Nat
  | [] => 0
  | f :: fs => max f.depth (depthList fs)
end

/-! ## Go values and dynamic messages -/

mutual
/-- What the variable `v interface{}` of `setInput` can hold, and what a
field of a dynamic message can hold. Floats are bit patterns. -/
inductive GoValue where
  | float64 (bits : Nat)
  | float32 (bits : Nat)
  | int64 (i : Int)
  | int32 (i : Int)
  | uint64 (n : Nat)
  | uint32 (n : Nat)
  | bool (b : Bool)
  | string (s : String)
  | bytes (b : List Nat)
  | message (m : Message)
/-- Modelled from the spec: the dynamic message of the reflection library
(`dynamic.Message`), which is not part of the source. It is the message type
together with the values set so far, keyed by field name, in the order in
which the fields were first set. -/
inductive Message where
  | mk (md : MessageDescriptor) (values : List (String × GoValue))
end

/-- The message type of a dynamic message. -/
def Message.md : Message → MessageDescriptor
  | .mk d _ => d

/-- The values set in a dynamic message. -/
def Message.values : Message → List (String × GoValue)
  | .mk _ vs => vs

/-- The constructor `dynamic.NewMessage`. -/
def NewMessage (md : MessageDescriptor) : Message := .mk md []

/-- The type assertion `v.(int64)`. -/
def GoValue.assertInt64 : GoValue → Option Int
  | .int64 i => some i
  | _ => none

/-- The type assertion `v.(uint64)`. -/
def GoValue.assertUint64 : GoValue → Option Nat
  | .uint64 n => some n
  | _ => none

/-- The type assertion `v.(float64)`. -/
def GoValue.assertFloat64 : GoValue → Option Nat
  | .float64 b => some b
  | _ => none

/-- Modelled from the spec: the check of the reflection library that a value
has the Go type of the declared kind ("every leaf converted to its
properly-typed representation"). -/
def validFieldValue : FieldType → GoValue → Bool
  | .TYPE_SFIXED32, .int32 _ | .TYPE_INT32, .int32 _ | .TYPE_SINT32, .int32 _
  | .TYPE_ENUM, .int32 _ => true
  | .TYPE_SFIXED64, .int64 _ | .TYPE_INT64, .int64 _ | .TYPE_SINT64, .int64 _ => true
  | .TYPE_SFIXED64, .int32 _ | .TYPE_INT64, .int32 _ | .TYPE_SINT64, .int32 _ => true
  | .TYPE_FIXED32, .uint32 _ | .TYPE_UINT32, .uint32 _ => true
  | .TYPE_FIXED64, .uint64 _ | .TYPE_UINT64, .uint64 _ => true
  | .TYPE_FIXED64, .uint32 _ | .TYPE_UINT64, .uint32 _ => true
  | .TYPE_FLOAT, .float32 _ => true
  | .TYPE_DOUBLE, .float64 _ | .TYPE_DOUBLE, .float32 _ => true
  | .TYPE_BOOL, .bool _ => true
  | .TYPE_BYTES, .bytes _ => true
  | .TYPE_STRING, .string _ => true
  | .TYPE_MESSAGE, .message _ | .TYPE_GROUP, .message _ => true
  | _, _ => false

/-- Stores `v` under the name `key`: in place when the name already has a
value, at the end otherwise. -/
def storeValue (key : String) (v : GoValue) : List (String × GoValue) → List (String × GoValue)
  | [] => [(key, v)]
  | (k, w) :: rest => if k = key then (key, v) :: rest else (k, w) :: storeValue key v rest

/-- Modelled from the spec: the store of the dynamic message behind
`TrySetField` and `SetField`. The value is stored under the identity of the
field, and the other members of the oneof of the field are cleared ("at most
one of which may be set in a message instance"). -/
def Message.internalSetField (m : Message) (fd : FieldDescriptor) (v : GoValue) : Message :=
  let others : List String :=
    match GetOneOf m.md fd with
    | none => []
    | some o => (o.choices.map FieldDescriptor.GetName).filter (fun n => n != fd.GetName)
  .mk m.md (storeValue fd.GetName v (m.values.filter (fun kv => !others.contains kv.1)))

/-- Modelled from the spec: `TrySetField` of the dynamic message: a type
error when the value has not the Go type of the kind of the field, the store
otherwise. -/
def Message.TrySetField (m : Message) (fd : FieldDescriptor) (v : GoValue) :
    Message × Option Error :=
  if validFieldValue fd.GetType v then (m.internalSetField fd v, none)
  else (m, some (.typeError fd.GetName fd.GetType))

/-- Modelled from the spec: `SetField` of the dynamic message, which is
`TrySetField` with a panic in place of the error. -/
def Message.SetField (m : Message) (fd : FieldDescriptor) (v : GoValue) : Message × Res Unit :=
  match m.TrySetField fd v with
  | (m1, none) => (m1, .ok ())
  | (m1, some _) => (m1, .panic)

/-- The value of the field of that name, if it is set. -/
def Message.lookup (m : Message) (key : String) : Option GoValue :=
  (m.values.find? (fun kv => kv.1 == key)).map Prod.snd

/-! ## Collected fields and the assembler `setInput` -/

/-- Source: `baseField`. -/
structure baseField where
  name : String
  descType : FieldType
  desc : FieldDescriptor

/-- Source: the implementations `primitiveField`, `messageField` and
`oneOfField` of the interface `fieldable`. -/
inductive fieldable where
  | primitiveField (base : baseField) (val : String)
  | messageField (base : baseField) (val : List fieldable)
  | oneOfField (base : baseField)

/-- The conversion `[]byte(pv)`: the UTF-8 bytes of the text. -/
def goBytes (pv : String) : List Nat :=
  pv.data.flatMap (fun c => (String.utf8EncodeChar c).map UInt8.toNat)

/-- Source: the first statement of each case of the `switch f.descType` of
`setInput` (lines 108-163): the pair `v, err` left by the call of `strconv`
(or `v` alone for string and bytes), and the returned error of the `default`
branch. -/
def parseText (fl : FloatLib) (descType : FieldType) (pv : String) :
    Res (GoValue × Option Error) :=
  match descType with
  | .TYPE_DOUBLE => let r := fl.ParseFloat pv 64; .ok (.float64 r.1, r.2)
  | .TYPE_FLOAT => let r := fl.ParseFloat pv 32; .ok (.float64 r.1, r.2)
  | .TYPE_INT64 => let r := ParseInt pv 64; .ok (.int64 r.1, r.2)
  | .TYPE_UINT64 => let r := ParseUint pv 64; .ok (.uint64 r.1, r.2)
  | .TYPE_INT32 => let r := ParseInt pv 32; .ok (.int64 r.1, r.2)
  | .TYPE_UINT32 => let r := ParseUint pv 32; .ok (.uint64 r.1, r.2)
  | .TYPE_FIXED64 => let r := ParseUint pv 64; .ok (.uint64 r.1, r.2)
  | .TYPE_FIXED32 => let r := ParseUint pv 32; .ok (.uint64 r.1, r.2)
  | .TYPE_BOOL => let r := ParseBool pv; .ok (.bool r.1, r.2)
  | .TYPE_STRING => .ok (.string pv, none)
  | .TYPE_BYTES => .ok (.bytes (goBytes pv), none)
  | .TYPE_SFIXED64 => let r := ParseUint pv 64; .ok (.uint64 r.1, r.2)
  | .TYPE_SFIXED32 => let r := ParseUint pv 32; .ok (.uint64 r.1, r.2)
  | .TYPE_SINT64 => let r := ParseInt pv 64; .ok (.int64 r.1, r.2)
  | .TYPE_SINT32 => let r := ParseInt pv 32; .ok (.int64 r.1, r.2)
  | t => .err (.invalidType t)

/-- Source: the second statement of the cases of the `switch f.descType` that
have one, `v = T(v.(U))`: `none` when the type assertion `v.(U)` does not
hold, which is a run-time panic.

* `TYPE_FLOAT`: `v = float32(v.(float64))`;
* `TYPE_INT32`, `TYPE_SINT32`, `TYPE_SFIXED32`: `v = int32(v.(int64))`;
* `TYPE_UINT32`, `TYPE_FIXED32`: `v = uint32(v.(uint64))`. -/
def narrowValue (fl : FloatLib) : FieldType → GoValue → Option GoValue
  | .TYPE_FLOAT, v => v.assertFloat64.map (fun x => .float32 (fl.toFloat32 x))
  | .TYPE_INT32, v => v.assertInt64.map (fun x => .int32 (toInt32 x))
  | .TYPE_SINT32, v => v.assertInt64.map (fun x => .int32 (toInt32 x))
  | .TYPE_SFIXED32, v => v.assertInt64.map (fun x => .int32 (toInt32 x))
  | .TYPE_UINT32, v => v.assertUint64.map (fun x => .uint32 (toUint32 x))
  | .TYPE_FIXED32, v => v.assertUint64.map (fun x => .uint32 (toUint32 x))
  | _, v => some v

/-- Source: the whole `switch f.descType` of `setInput` (lines 108-163). The
result is the pair `v, err` the switch leaves behind, the returned error of
the `default` branch, or a panic. -/
def coerce (fl : FloatLib) (descType : FieldType) (pv : String) : Res (GoValue × Option Error) :=
  match parseText fl descType pv with
  | .ok (v, err) =>
    match narrowValue fl descType v with
    | some v1 => .ok (v1, err)
    | none => .panic
  | .err e => .err e
  | .panic => .panic

mutual
/-- Source: `setInput`. The first component is the target message `req`
after the call (Go mutates it in place), the second the returned error
(`ok ()` for `nil`) or a panic. -/
def setInput (fl : FloatLib) : Message → List fieldable → Message × Res Unit
  | req, [] => (req, .ok ())
  | req, field :: fields =>
    match setInputField fl req field with
    | (req1, .ok ()) => setInput fl req1 fields
    | (req1, r) => (req1, r)
/-- Source: the body of the loop of `setInput`, for one collected field. A
Composite whose descriptor has no message type does not come from a schema;
it is taken as the panic that `SetField` ends with for it. A `oneOfField` has
no case in the type switch and is passed over. -/
def setInputField (fl : FloatLib) : Message → fieldable → Message × Res Unit
  | req, .primitiveField f pv =>
    match coerce fl f.descType pv with
    | .panic => (req, .panic)
    | .err e => (req, .err e)
    | .ok (_, some e) => (req, .err e)
    | .ok (v, none) =>
      match req.TrySetField f.desc v with
      | (req1, some e) => (req1, .err e)
      | (req1, none) => (req1, .ok ())
  | req, .messageField f val =>
    match f.desc.GetMessageType with
    | none => (req, .panic)
    | some md =>
      match setInput fl (NewMessage md) val with
      | (_, .panic) => (req, .panic)
      | (_, .err e) => (req, .err e)
      | (msg, .ok ()) => req.SetField f.desc (.message msg)
  | req, .oneOfField _ => (req, .ok ())
end

/-! ## The environment: configuration and collaborators -/

/-- Source: the part of `e.config` read by `call.go`. -/
structure Config where
  Host : String
  Port : String
  InputPromptFormat : String
  AncestorDelimiter : String

/-- What `GetRPC` returns, as far as `Call` reads it. -/
structure RPC where
  RequestType : MessageDescriptor
  ResponseType : MessageDescriptor

/-- The receiver `e *Env` with the collaborators of `call.go`.

* `Input k` is the text the Prompt Source (`prompt.Input`) returns at its
  `k`-th request, `AskOne k` what the Choice Source (`survey.AskOne`) answers
  at its `k`-th question: a chosen label or an error;
* `GetRPC`, `Dial`, `Invoke` and `MarshalToString` are the schema provider,
  the transport and the formatter. -/
structure Env where
  config : Config
  currentPackage : String
  currentService : String
  floatLib : FloatLib
  Input : Nat → String
  AskOne : Nat → Except Error String
  GetRPC : String → Except Error RPC
  Dial : String → Option Error
  Invoke : String → Message → Message → Except Error Message
  MarshalToString : Message → Except Error String

/-- What a question to the Choice Source is about: the oneof or the
enumeration of that fully qualified name. -/
inductive Subject where
  | oneOf (fqn : String)
  | enum (fqn : String)
  deriving DecidableEq, Repr

/-- A question put to the Choice Source: the `survey.Select` with its title
`Message` and its `Options`, together with what it is about and with the
invocation that put it: `level` is the argument `ancestor` of the call of
`inputFields` that asked. -/
structure Select where
  subject : Subject
  level : List String
  Message : String
  Options : List String
  deriving DecidableEq, Repr

/-- The requests made to the Prompt Source (label and colour) and the
questions put to the Choice Source, oldest first. -/
structure Console where
  inputs : List (String × Nat)
  selects : List Select
  deriving DecidableEq, Repr

/-- The colour `prompt.DarkGreen` of the prompt library. -/
def DarkGreen : Nat := 3

/-! ## Prompt labels -/

/-- The function `strings.Replace(s, old, new, -1)` for a non-empty `old`, on
character lists; `skip` counts the characters of a match still to drop. -/
def replaceFrom (old new : List Char) : Nat → List Char → List Char
  | _, [] => []
  | skip + 1, _ :: cs => replaceFrom old new skip cs
  | 0, c :: cs =>
    if old.isPrefixOf (c :: cs) then new ++ replaceFrom old new (old.length - 1) cs
    else c :: replaceFrom old new 0 cs

/-- The function `strings.Replace(s, old, new, -1)` for a non-empty `old`. -/
def stringsReplace (s old new : String) : String :=
  ⟨replaceFrom old.data new.data 0 s.data⟩

/-- The call `fmt.Sprintf("%" + strconv.Itoa(width) + "s", s)`: `s` padded on
the left with blanks to `width` characters. -/
def sprintfPad (width : Nat) (s : String) : String :=
  ⟨List.replicate (width - s.length) ' ' ++ s.data⟩

/-- Source: `maxLen`. The rendered `prompt` is computed and not used: the
length taken is that of `format`. -/
def maxLen (fields : List FieldDescriptor) (format : String) : Nat :=
  fields.foldl
    (fun max f =>
      if isMessageType f.GetType then max
      else
        let _prompt :=
          stringsReplace (stringsReplace format "{name}" f.GetName) "{type}" f.GetType.String
        let l := format.utf8ByteSize
        if l > max then l else max)
    0

/-! ## The walker `inputFields` -/

/-- The local variables of the loop of `inputFields`, with the console. -/
structure LoopState where
  input : List fieldable
  promptFormat : String
  encounteredOneOf : List String
  encounteredEnum : List String
  color : Nat
  console : Console

/-- The map lookup `optMap[choice]`: the last choice of that name. -/
def optMapLookup (choices : List FieldDescriptor) (choice : String) : Option FieldDescriptor :=
  choices.reverse.find? (fun c => c.GetName == choice)

/-- What the first part of the loop body (lines 193-243) does with a field. -/
inductive Resolved where
  | skip
  | fail (e : Error) (st : LoopState)
  | nilField (st : LoopState)
  | go (f : FieldDescriptor) (st : LoopState)

/-- Source: lines 198-211 of `inputFields`: the oneof is marked as
encountered and the question about it is put to the Choice Source. -/
def afterOneOf (ancestor : List String) (st : LoopState) (oneOf : OneOfDescriptor) :
    LoopState :=
  { st with
    encounteredOneOf := oneOf.fqn :: st.encounteredOneOf
    console :=
      { st.console with
        selects := st.console.selects ++
          [{ subject := .oneOf oneOf.fqn, level := ancestor, Message := oneOf.name
             Options := oneOf.choices.map FieldDescriptor.GetName }] } }

/-- Source: lines 222-235 of `inputFields`: the enumeration is marked as
encountered and the question about it is put to the Choice Source. -/
def afterEnum (ancestor : List String) (st : LoopState) (enum : EnumDescriptor) :
    LoopState :=
  { st with
    encounteredEnum := enum.fqn :: st.encounteredEnum
    console :=
      { st.console with
        selects := st.console.selects ++
          [{ subject := .enum enum.fqn, level := ancestor, Message := enum.name
             Options := enum.values.map EnumValueDescriptor.name }] } }

/-- Source: lines 193-243 of `inputFields`: the resolution of the oneof or of
the enumeration of the field `f` of `msg`. `skip` is `continue`, `fail` the
return of the error of the Choice Source, `nilField` the case of
`optMap[choice]` being `nil`, and `go f1 st1` the fall through to line 245
with the field `f1`. The call `pp.Println(choice)` only writes to the
standard output, which the state does not record. -/
def resolveField (e : Env) (ancestor : List String) (msg : MessageDescriptor)
    (f : FieldDescriptor) (st : LoopState) : Resolved :=
  match GetOneOf msg f with
  | some oneOf =>
    if st.encounteredOneOf.contains oneOf.fqn then .skip
    else
      match e.AskOne st.console.selects.length with
      | .error err => .fail err (afterOneOf ancestor st oneOf)
      | .ok choice =>
        match optMapLookup oneOf.choices choice with
        | none => .nilField (afterOneOf ancestor st oneOf)
        | some f1 => .go f1 (afterOneOf ancestor st oneOf)
  | none =>
    match f.GetEnumType with
    | some enum =>
      if st.encounteredEnum.contains enum.fqn then .skip
      else
        match e.AskOne st.console.selects.length with
        | .error err => .fail err (afterEnum ancestor st enum)
        | .ok _ => .go f (afterEnum ancestor st enum)
    | none => .go f st

/-- Source: lines 246-250 of `inputFields`, the `baseField` of a field. -/
def baseOf (f : FieldDescriptor) : baseField :=
  { name := f.GetName, desc := f, descType := f.GetType }

/-- The result of a walk: the collected fields, an error or a panic, with the
console after it; `none` when the fuel does not cover the nesting depth. -/
abbrev Walk := Option (Res (List fieldable) × Console)

/-- What one turn of the loop of `inputFields` ends with: the next turn, or
the return of the function. -/
inductive Step where
  | next (st : LoopState)
  | stop (w : Walk)

/-- Source: lines 264-270 of `inputFields`: the prompt format after the three
replacements for the field `f`. -/
def renderPrompt (e : Env) (ancestor : List String) (promptFormat : String)
    (f : FieldDescriptor) : String :=
  let joined := String.intercalate e.config.AncestorDelimiter ancestor
  let anc := if joined != "" then "@" ++ joined else joined
  let pf1 := stringsReplace promptFormat "{ancestor}" anc
  let pf2 := stringsReplace pf1 "{name}" f.GetName
  stringsReplace pf2 "{type}" f.GetType.String

/-- Source: lines 258-262 of `inputFields`: the Composite of the message
field `f` is appended and the colour rotated; `c` is the console after the
nested walk. -/
def afterMessage (st1 : LoopState) (f : FieldDescriptor) (fields : List fieldable)
    (c : Console) : LoopState :=
  { st1 with
    input := st1.input ++ [.messageField (baseOf f) fields]
    color := DarkGreen + (st1.color + 1) % 16
    console := c }

/-- Source: lines 264-281 of `inputFields`: the prompt format is rewritten,
the text is requested from the Prompt Source with it, and the Scalar of the
field `f` is appended. -/
def afterScalar (e : Env) (ancestor : List String) (st1 : LoopState) (f : FieldDescriptor) :
    LoopState :=
  let promptFormat := renderPrompt e ancestor st1.promptFormat f
  let l := e.Input st1.console.inputs.length
  { st1 with
    input := st1.input ++ [.primitiveField (baseOf f) l]
    promptFormat := promptFormat
    console :=
      { st1.console with inputs := st1.console.inputs ++ [(promptFormat, st1.color)] } }

/-- Source: the body of the loop of `inputFields` for the field `f0`;
`recur` is `e.inputFields` itself, for the nested message types. -/
def inputFieldsStep (e : Env)
    (recur : List String → MessageDescriptor → Nat → Console → Walk)
    (ancestor : List String) (msg : MessageDescriptor) (f0 : FieldDescriptor)
    (st : LoopState) : Step :=
  match resolveField e ancestor msg f0 st with
  | .skip => .next st
  | .fail err st1 => .stop (some (.err err, st1.console))
  | .nilField st1 => .stop (some (.panic, st1.console))
  | .go f st1 =>
    if isMessageType f.GetType then
      match f.GetMessageType with
      | none => .stop (some (.panic, st1.console))
      | some nested =>
        match recur (ancestor ++ [f.GetName]) nested st1.color st1.console with
        | none => .stop none
        | some (.panic, c) => .stop (some (.panic, c))
        | some (.err err, c) => .stop (some (.err (.Wrap err "failed to read inputs"), c))
        | some (.ok fields, c) => .next (afterMessage st1 f fields c)
    else .next (afterScalar e ancestor st1 f)

/-- Source: the loop of `inputFields` over the fields still to visit. -/
def inputFieldsLoop (e : Env)
    (recur : List String → MessageDescriptor → Nat → Console → Walk)
    (ancestor : List String) (msg : MessageDescriptor) :
    List FieldDescriptor → LoopState → Walk
  | [], st => some (.ok st.input, st.console)
  | f0 :: rest, st =>
    match inputFieldsStep e recur ancestor msg f0 st with
    | .next st1 => inputFieldsLoop e recur ancestor msg rest st1
    | .stop w => w

/-- Source: `inputFields`, with the console threaded through. `fuel` bounds
the nesting depth that can be walked. -/
def inputFields (e : Env) : Nat → List String → MessageDescriptor → Nat → Console → Walk
  | 0, _, _, _, _ => none
  | fuel + 1, ancestor, msg, color, console =>
    let fields := msg.GetFields
    let max := maxLen fields e.config.InputPromptFormat
    let promptFormat := sprintfPad max e.config.InputPromptFormat
    inputFieldsLoop e (inputFields e fuel) ancestor msg fields
      { input := []
        promptFormat := promptFormat
        encounteredOneOf := []
        encounteredEnum := []
        color := color
        console := console }

/-! ## The orchestrator `Call` -/

/-- The calls `fmt.Sprintf(format, args...)` of `call.go` whose verbs are all
a plain `%s`: each verb is replaced by the next argument. -/
def sprintfLoop : List Char → List String → List Char
  | [], _ => []
  | [c], _ => [c]
  | c :: d :: cs, args =>
    if c = '%' ∧ d = 's' then
      match args with
      | a :: args1 => a.data ++ sprintfLoop cs args1
      | [] => "%!s(MISSING)".data ++ sprintfLoop cs []
    else c :: sprintfLoop (d :: cs) args

/-- The call `fmt.Sprintf(format, args...)` for plain `%s` verbs. -/
def Sprintf (format : String) (args : List String) : String :=
  ⟨sprintfLoop format.data args⟩

/-- Source: `genEndpoint`. -/
def genEndpoint (e : Env) (rpcName : String) : String :=
  let ep := Sprintf "/%s.%s/%s" [e.currentPackage, e.currentService, rpcName]
  ep

/-- What `Call` does with the transport. -/
inductive NetEvent where
  | dial (target : String)
  | invoke (endpoint : String) (req : Message)
  | close

/-- How a call of `Call` ends: with its two results, with a panic, or not at
all within the fuel. -/
inductive Returned where
  | values (out : String) (err : Option Error)
  | panic
  | outOfFuel
  deriving DecidableEq, Repr

/-- A run of `Call`: how it ended, the console after it, the request message
if one was created, and the use made of the transport. -/
structure CallRun where
  ret : Returned
  console : Console
  request : Option Message
  net : List NetEvent

/-- Source: `Call`. -/
def Call (e : Env) (fuel : Nat) (name : String) : CallRun :=
  let console0 : Console := { inputs := [], selects := [] }
  match e.GetRPC name with
  | .error err => { ret := .values "" (some err), console := console0, request := none, net := [] }
  | .ok rpc =>
    match inputFields e fuel [] rpc.RequestType DarkGreen console0 with
    | none => { ret := .outOfFuel, console := console0, request := none, net := [] }
    | some (.panic, c) => { ret := .panic, console := c, request := none, net := [] }
    | some (.err err, c) =>
      if err.Cause = Error.EOF then
        { ret := .values "" none, console := c, request := none, net := [] }
      else { ret := .values "" (some err), console := c, request := none, net := [] }
    | some (.ok input, c) =>
      match setInput e.floatLib (NewMessage rpc.RequestType) input with
      | (req, .panic) => { ret := .panic, console := c, request := some req, net := [] }
      | (req, .err err) =>
        { ret := .values "" (some err), console := c, request := some req, net := [] }
      | (req, .ok ()) =>
        let res := NewMessage rpc.ResponseType
        let target := Sprintf "%s:%s" [e.config.Host, e.config.Port]
        match e.Dial target with
        | some err =>
          { ret := .values "" (some err), console := c, request := some req
            net := [.dial target] }
        | none =>
          let ep := genEndpoint e name
          match e.Invoke ep req res with
          | .error err =>
            { ret := .values "" (some err), console := c, request := some req
              net := [.dial target, .invoke ep req, .close] }
          | .ok res1 =>
            match e.MarshalToString res1 with
            | .error err =>
              { ret := .values "" (some err), console := c, request := some req
                net := [.dial target, .invoke ep req, .close] }
            | .ok json =>
              { ret := .values (json ++ "\n") none, console := c, request := some req
                net := [.dial target, .invoke ep req, .close] }

/-! # Definitions used to state the properties -/

/-! ## Decimal texts -/

/-- The canonical base-10 rendering of an integer: its digits without leading
zeros, after a minus sign when it is negative. -/
def canonicalBase10 : Int → String
  | .ofNat m => ⟨Nat.toDigits 10 m⟩
  | .negSucc m => ⟨'-' :: Nat.toDigits 10 (m + 1)⟩

/-- A decimal digit. -/
def isDecDigit (c : Char) : Prop := '0' ≤ c ∧ c ≤ '9'

instance (c : Char) : Decidable (isDecDigit c) := by unfold isDecDigit; infer_instance

/-- The number read from decimal digits, continuing from `acc`. -/
def decValue (acc : Nat) (cs : List Char) : Nat :=
  cs.foldl (fun a c => a * 10 + (c.toNat - '0'.toNat)) acc


/-! ## Integer kinds -/

/-- The integer kinds that are parsed at their own signedness and width. -/
def integerKinds : List FieldType :=
  [.TYPE_INT32, .TYPE_SINT32, .TYPE_INT64, .TYPE_SINT64,
   .TYPE_UINT32, .TYPE_FIXED32, .TYPE_UINT64, .TYPE_FIXED64]

/-- The range of an integer kind: signed 32 or 64 bits, unsigned 32 or 64
bits. -/
def inKindRange : FieldType → Int → Prop
  | .TYPE_INT32, n | .TYPE_SINT32, n => -2 ^ 31 ≤ n ∧ n < 2 ^ 31
  | .TYPE_INT64, n | .TYPE_SINT64, n => -2 ^ 63 ≤ n ∧ n < 2 ^ 63
  | .TYPE_UINT32, n | .TYPE_FIXED32, n => 0 ≤ n ∧ n < 2 ^ 32
  | .TYPE_UINT64, n | .TYPE_FIXED64, n => 0 ≤ n ∧ n < 2 ^ 64
  | _, _ => False

/-- The integer `n` as a Go value of the width of an integer kind. -/
def typedInteger : FieldType → Int → Option GoValue
  | .TYPE_INT32, n | .TYPE_SINT32, n => some (.int32 n)
  | .TYPE_INT64, n | .TYPE_SINT64, n => some (.int64 n)
  | .TYPE_UINT32, n | .TYPE_FIXED32, n => some (.uint32 n.toNat)
  | .TYPE_UINT64, n | .TYPE_FIXED64, n => some (.uint64 n.toNat)
  | _, _ => none


/-! ## Recognised kinds -/

/-- The 15 scalar kinds that the `switch` of `setInput` has a case for. -/
def scalarKinds : List FieldType :=
  [.TYPE_DOUBLE, .TYPE_FLOAT, .TYPE_INT64, .TYPE_UINT64, .TYPE_INT32, .TYPE_FIXED64,
   .TYPE_FIXED32, .TYPE_BOOL, .TYPE_STRING, .TYPE_BYTES, .TYPE_SFIXED64, .TYPE_SFIXED32,
   .TYPE_SINT64, .TYPE_SINT32, .TYPE_UINT32]

/-- A Scalar of a kind that the `switch` of `setInput` has no case for. -/
def isUnsupportedScalar : fieldable → Bool
  | .primitiveField f _ => !scalarKinds.contains f.descType
  | _ => false

/-! ## Questions about an enumeration -/

/-- The number of questions put to the Choice Source about the enumeration
of fully qualified name `q`. -/
def enumQuestions (q : String) (c : Console) : Nat :=
  c.selects.countP (fun s => decide (s.subject = .enum q))

/-- The field is constrained by the enumeration of fully qualified name `q`. -/
def FieldDescriptor.refersToEnum (q : String) (f : FieldDescriptor) : Bool :=
  match f.GetEnumType with
  | some en => en.fqn == q
  | none => false

/-- The field is outside every oneof and constrained by the enumeration of
fully qualified name `q`. -/
def FieldDescriptor.asksEnum (q : String) (f : FieldDescriptor) : Bool :=
  f.oneOfName.isNone && f.refersToEnum q

/-- The schema level of a message type has a field outside a oneof that is
constrained by the enumeration `q`: 1 if so, 0 if not. -/
def levelAsks (q : String) (msg : MessageDescriptor) : Nat :=
  if msg.GetFields.any (FieldDescriptor.asksEnum q) then 1 else 0

mutual
/-- The number of schema levels visited below a Collected Field that have a
field outside a oneof constrained by the enumeration `q`: for a Composite,
the level of its message type and the levels below its Collected Fields. -/
def fieldable.enumLevels (q : String) : fieldable → Nat
  | .primitiveField _ _ => 0
  | .messageField b val =>
    (match b.desc.GetMessageType with
      | some m => levelAsks q m
      | none => 0) + enumLevelsOf q val
  | .oneOfField _ => 0
/-- The levels visited below the Collected Fields of a list. -/
def enumLevelsOf (q : String) : List fieldable → Nat
  | [] => 0
  | y :: ys => y.enumLevels q + enumLevelsOf q ys
end

/-- The number of schema levels visited by the walk of `msg` that has
returned `fields` which have a field outside a oneof constrained by the
enumeration `q`: the level of `msg` itself and the levels below `fields`. -/
def visitedEnumLevels (q : String) (msg : MessageDescriptor) (fields : List fieldable) : Nat :=
  levelAsks q msg + enumLevelsOf q fields

/-- The part of the count that the fields still to visit add at their own
level. -/
def pendingQuestion (q : String) (st : LoopState) (fs : List FieldDescriptor) : Nat :=
  if st.encounteredEnum.contains q then 0
  else if fs.any (FieldDescriptor.asksEnum q) then 1 else 0

/-! ## Collected fields and assembled messages -/

/-- The schema reference of a Collected Field. -/
def descOf : fieldable → FieldDescriptor
  | .primitiveField b _ => b.desc
  | .messageField b _ => b.desc
  | .oneOfField b => b.desc

/-- The field of a message is populated. -/
def Message.populated (m : Message) (key : String) : Bool :=
  (m.lookup key).isSome

/-- The names that the store of a value for the field `fd` clears in a
message of type `md`: the other members of the oneof of `fd`. -/
def clearedBy (md : MessageDescriptor) (fd : FieldDescriptor) : List String :=
  match GetOneOf md fd with
  | none => []
  | some o => (o.choices.map FieldDescriptor.GetName).filter (fun n => n != fd.GetName)

/-- The Collected Field is the Scalar of the field `f`. -/
def isScalarOf (f : FieldDescriptor) (y : fieldable) : Prop :=
  ∃ v, y = .primitiveField (baseOf f) v

/-- The Collected Field is the Composite of the field `f`. -/
def isCompositeOf (f : FieldDescriptor) (y : fieldable) : Prop :=
  ∃ v, y = .messageField (baseOf f) v

/-- The candidates of the oneof `g` of a message type: its fields declared in
`g`, in declared order. -/
def groupChoices (msg : MessageDescriptor) (g : String) : List FieldDescriptor :=
  msg.GetFields.filter (fun c => c.oneOfName == some g)

/-- The fully qualified name of the oneof `g` of a message type. -/
def groupKey (msg : MessageDescriptor) (g : String) : String :=
  msg.GetFullyQualifiedName ++ "." ++ g

/-- The Collected Field belongs to a member of the oneof `g`. -/
def inGroup (g : String) (y : fieldable) : Bool :=
  (descOf y).oneOfName == some g

/-- The question about the oneof `g` of a message type, put by the invocation
of the walker with the argument `ancestor`. -/
def groupQuestion (ancestor : List String) (msg : MessageDescriptor) (g : String) : Select :=
  { subject := .oneOf (groupKey msg g), level := ancestor, Message := g
    Options := (groupChoices msg g).map FieldDescriptor.GetName }

/-- The invariant of the loop of the walker, called with the argument
`ancestor`, about the oneof `g` of `msg`; `gs` are the fields still to visit
and `base` is the number of questions asked before the invocation.

* every Collected Field so far is the Scalar or the Composite of a field of
  `msg`;
* once the oneof is resolved, exactly one Collected Field belongs to it, and
  the name of its field is the label that the Choice Source answered to the
  question about the oneof, which this invocation asked;
* before that, no Collected Field belongs to it;
* every member of the oneof is still to visit, or the oneof is resolved;
* the questions asked before the invocation are kept. -/
structure GroupInv (e : Env) (ancestor : List String) (msg : MessageDescriptor) (g : String)
    (base : Nat) (gs : List FieldDescriptor) (st : LoopState) : Prop where
  collected : ∀ y ∈ st.input, ∃ f ∈ msg.GetFields, isScalarOf f y ∨ isCompositeOf f y
  resolved : groupKey msg g ∈ st.encounteredOneOf →
    ∃ x i, st.input.filter (inGroup g) = [x] ∧ base ≤ i ∧
      st.console.selects[i]? = some (groupQuestion ancestor msg g) ∧
      e.AskOne i = .ok (descOf x).GetName
  unresolved : groupKey msg g ∉ st.encounteredOneOf → st.input.filter (inGroup g) = []
  ahead : ∀ f ∈ gs, f ∈ msg.GetFields
  pending : ∀ f ∈ msg.GetFields, f.oneOfName = some g →
    f ∈ gs ∨ groupKey msg g ∈ st.encounteredOneOf
  grown : base ≤ st.console.selects.length

/-! ## Schemas without oneof and enumeration, and their leaves -/

/-- The scalar kinds of the end-to-end property: string and the integer
kinds parsed at their own signedness and width. -/
def plainKinds : List FieldType := .TYPE_STRING :: integerKinds

mutual
/-- A message type without oneof and enumeration fields, whose scalar fields
are of a kind in `plainKinds`, whose message fields have a message type of
the same sort, and whose field names are unique in every message type. -/
def MessageDescriptor.plain : MessageDescriptor → Bool
  | .mk _ fs => plainList fs && decide ((fs.map FieldDescriptor.GetName).Nodup)
/-- All fields of the list are `plain`. -/
def plainList : List FieldDescriptor → Bool
  | [] => true
  | f :: fs => f.plain && plainList fs
/-- A field in no oneof, constrained by no enumeration, that is either of
kind message with a `plain` message type or of a kind in `plainKinds`. -/
def FieldDescriptor.plain : FieldDescriptor → Bool
  | .mk _ t o en (some m) =>
    o.isNone && en.isNone && ((isMessageType t && m.plain) || plainKinds.contains t)
  | .mk _ t o en none => o.isNone && en.isNone && plainKinds.contains t
end

mutual
/-- The scalar leaves of a message type, depth first in declared order: the
path of field names from the root, and the kind. -/
def MessageDescriptor.leaves : MessageDescriptor → List (List String × FieldType)
  | .mk _ fs => leavesList fs
/-- The leaves of the fields of a list. -/
def leavesList : List FieldDescriptor → List (List String × FieldType)
  | [] => []
  | f :: fs => f.leaves ++ leavesList fs
/-- The leaves of a field: itself when it is a scalar, those of its message
type, below its name, when it is of kind message. -/
def FieldDescriptor.leaves : FieldDescriptor → List (List String × FieldType)
  | .mk n t _ _ (some m) =>
    if isMessageType t then m.leaves.map (fun p => (n :: p.1, p.2)) else [([n], t)]
  | .mk n t _ _ none => if isMessageType t then [] else [([n], t)]
end

/-- The value at a path of field names in a message. -/
def Message.leafAt : Message → List String → Option GoValue
  | _, [] => none
  | m, [k] => m.lookup k
  | m, k :: k2 :: rest =>
    match m.lookup k with
    | some (.message m1) => m1.leafAt (k2 :: rest)
    | _ => none

mutual
/-- The Collected Input Tree that mirrors a message type, the texts being the
answers of the Prompt Source from the `k`-th on, depth first. -/
def MessageDescriptor.mirror (answers : Nat → String) : MessageDescriptor → Nat → List fieldable
  | .mk _ fs, k => mirrorList answers fs k
/-- The Collected Fields that mirror the fields of a list. -/
def mirrorList (answers : Nat → String) : List FieldDescriptor → Nat → List fieldable
  | [], _ => []
  | f :: fs, k => f.mirror answers k :: mirrorList answers fs (k + f.leaves.length)
/-- The Collected Field that mirrors a field: a Composite for a message
field, a Scalar with the `k`-th answer otherwise. -/
def FieldDescriptor.mirror (answers : Nat → String) : FieldDescriptor → Nat → fieldable
  | .mk n t o en (some m), k =>
    if isMessageType t then .messageField (baseOf (.mk n t o en (some m))) (m.mirror answers k)
    else .primitiveField (baseOf (.mk n t o en (some m))) (answers k)
  | .mk n t o en none, k => .primitiveField (baseOf (.mk n t o en none)) (answers k)
end

/-- The value of a text at a kind, when the coercion yields one. -/
def coercedValue (fl : FloatLib) (t : FieldType) (pv : String) : GoValue :=
  match coerce fl t pv with
  | .ok (v, _) => v
  | _ => .string ""

mutual
/-- The message that mirrors a message type, every scalar leaf holding the
coerced value of its answer. -/
def MessageDescriptor.filled (fl : FloatLib) (answers : Nat → String) :
    MessageDescriptor → Nat → Message
  | .mk q fs, k => .mk (.mk q fs) (filledList fl answers fs k)
/-- The values of the fields of a list. -/
def filledList (fl : FloatLib) (answers : Nat → String) :
    List FieldDescriptor → Nat → List (String × GoValue)
  | [], _ => []
  | f :: fs, k => (f.GetName, f.filled fl answers k) :: filledList fl answers fs (k + f.leaves.length)
/-- The value of a field. -/
def FieldDescriptor.filled (fl : FloatLib) (answers : Nat → String) :
    FieldDescriptor → Nat → GoValue
  | .mk _ t _ _ (some m), k =>
    if isMessageType t then .message (m.filled fl answers k) else coercedValue fl t (answers k)
  | .mk _ t _ _ none, k => coercedValue fl t (answers k)
end

/-- Every leaf of the list has an answer, counted from the `k`-th, that the
coercion of its kind accepts. -/
def Coercible (fl : FloatLib) (answers : Nat → String) (ls : List (List String × FieldType))
    (k : Nat) : Prop :=
  ∀ i p t, ls[i]? = some (p, t) → ∃ v, coerce fl t (answers (k + i)) = .ok (v, none)

/-! ## Wrapped errors -/

/-- The error `e` under `d` wrappers of `errors.Wrap(·, "failed to read
inputs")`. -/
def wrapN : Nat → Error → Error
  | 0, e => e
  | d + 1, e => .Wrap (wrapN d e) "failed to read inputs"

/-- The error is the result of `errors.Wrap`. -/
def Error.isWrap : Error → Bool
  | .Wrap _ _ => true
  | _ => false

/-- The error `r` under wrappers of `errors.Wrap` with the messages `ms`, the
outermost first. -/
def wrapAll : List String → Error → Error
  | [], r => r
  | m :: ms, r => .Wrap (wrapAll ms r) m

/-! ## Parse errors -/

/-- The name of the function of `strconv` that the `switch` of `setInput`
calls for a kind: the field `Func` of the errors of that function. -/
def parseFunc : FieldType → String
  | .TYPE_DOUBLE | .TYPE_FLOAT => "ParseFloat"
  | .TYPE_INT64 | .TYPE_INT32 | .TYPE_SINT64 | .TYPE_SINT32 => "ParseInt"
  | .TYPE_BOOL => "ParseBool"
  | _ => "ParseUint"

/-! ## Prompt labels -/

/-- The label that a scalar field `f` of the message type `msg` should be
asked with: the configured template, padded on the left to the computed
width, with `{ancestor}`, `{name}` and `{type}` replaced by the ancestor path
and by the own name and kind of `f`. -/
def ownLabel (e : Env) (ancestor : List String) (msg : MessageDescriptor)
    (f : FieldDescriptor) : String :=
  renderPrompt e ancestor
    (sprintfPad (maxLen msg.GetFields e.config.InputPromptFormat) e.config.InputPromptFormat) f

/-! ## Schemas without oneof and enumeration fields -/

mutual
/-- A message type none of whose fields, at any depth, is in a oneof or
constrained by an enumeration, and whose fields of kind message have a
message type. -/
def MessageDescriptor.simple : MessageDescriptor → Bool
  | .mk _ fs => simpleList fs
/-- All fields of the list are `simple`. -/
def simpleList : List FieldDescriptor → Bool
  | [] => true
  | f :: fs => f.simple && simpleList fs
/-- A field in no oneof and constrained by no enumeration; when it is of kind
message, it has a message type, which is `simple`. -/
def FieldDescriptor.simple : FieldDescriptor → Bool
  | .mk _ t o en (some m) => o.isNone && en.isNone && (!isMessageType t || m.simple)
  | .mk _ t o en none => o.isNone && en.isNone && !isMessageType t
end

/-! ## The questions of one schema level -/

/-- What the walker asks the Choice Source about for a field of `msg`: its
oneof when it is in one, else its enumeration when it has one. -/
def subjectOf (msg : MessageDescriptor) (f : FieldDescriptor) : Option Subject :=
  match GetOneOf msg f with
  | some o => some (.oneOf o.fqn)
  | none => f.GetEnumType.map (fun en => .enum en.fqn)

/-- The distinct elements of a list, in the order of their first
occurrence. -/
def firstOccurrences : List Subject → List Subject
  | [] => []
  | s :: l => s :: (firstOccurrences l).filter (fun x => x != s)

/-- The distinct oneofs and enumerations of the fields of a schema level, in
the order of their first occurrence. -/
def levelSubjects (msg : MessageDescriptor) : List Subject :=
  firstOccurrences (msg.GetFields.filterMap (subjectOf msg))

/-- The oneofs and enumerations that the loop has marked as encountered. -/
def seenSubjects (st : LoopState) : List Subject :=
  st.encounteredOneOf.map Subject.oneOf ++ st.encounteredEnum.map Subject.enum

/-- The distinct elements of `l` that are not in `seen`, in the order of
their first occurrence. -/
def pendingSubjects (seen l : List Subject) : List Subject :=
  (firstOccurrences l).filter (fun x => !seen.contains x)

/-! ## The order of assembly -/

/-- Two dynamic messages are the same message: they have the same type and
the same value for every field. The dynamic message is a map from the
identity of a field to its value; the order of the association list of the
model carries no information. -/
def Message.sameFields (m1 m2 : Message) : Prop :=
  m1.md = m2.md ∧ ∀ k, m1.lookup k = m2.lookup k

/-- The store of a value for the field `fd`, or no store. -/
def Message.storeIf (m : Message) (fd : FieldDescriptor) : Option GoValue → Message
  | none => m
  | some v => m.internalSetField fd v

/-- The assembly of the Collected Field succeeds, on every message: it is
the store of a value that depends on the Collected Field alone (no store for
a `oneOfField`). -/
def Stores (fl : FloatLib) (y : fieldable) : Prop :=
  ∃ ov, ∀ req, setInputField fl req y = (req.storeIf (descOf y) ov, .ok ())

/-- Two Collected Fields are members of the same oneof. -/
def sameOneOf (y1 y2 : fieldable) : Bool :=
  (descOf y1).oneOfName.isSome && (descOf y1).oneOfName == (descOf y2).oneOfName

/-- Two Collected Fields have distinct field identities and the store of the
one does not clear the other, in a message of type `md`. -/
def independent (md : MessageDescriptor) (y1 y2 : fieldable) : Prop :=
  (descOf y1).GetName ≠ (descOf y2).GetName ∧
  (clearedBy md (descOf y1)).contains (descOf y2).GetName = false ∧
  (clearedBy md (descOf y2)).contains (descOf y1).GetName = false

/-! ## Walks that return -/

mutual
/-- Every field of kind message of the message type, at every depth, has a
message type. -/
def MessageDescriptor.wellTyped : MessageDescriptor → Bool
  | .mk _ fs => wellTypedList fs
/-- All fields of the list are `wellTyped`. -/
def wellTypedList : List FieldDescriptor → Bool
  | [] => true
  | f :: fs => f.wellTyped && wellTypedList fs
/-- A field of kind message has a message type, which is `wellTyped`. -/
def FieldDescriptor.wellTyped : FieldDescriptor → Bool
  | .mk _ t _ _ (some m) => !isMessageType t || m.wellTyped
  | .mk _ t _ _ none => !isMessageType t
end

/-- The Choice Source answers the question of index `i` of the console with
one of the labels that the question offers. -/
def answered (e : Env) (c : Console) (i : Nat) : Bool :=
  match e.AskOne i, c.selects[i]? with
  | .ok label, some q => q.Options.contains label
  | _, _ => false

/-- The Choice Source answers every question of the console `c1` that is not
in the console `c` with one of the offered labels. -/
def wellAnswered (e : Env) (c c1 : Console) : Prop :=
  ∀ i, c.selects.length ≤ i → i < c1.selects.length → answered e c1 i = true

/-- The questions that the invocation of the walker with the argument
`ancestor` has itself put to the Choice Source between the console `c` and
the console `c1`: the questions of its nested invocations are left out. -/
def ownQuestions (ancestor : List String) (c c1 : Console) : List Select :=
  (c1.selects.drop c.selects.length).filter (fun q => q.level == ancestor)

/-! ## Example schemas and environments -/

/-- A floating-point library that reads every text as zero. -/
def exFloatLib : FloatLib :=
  { ParseFloat := fun _ _ => (0, none)
    toFloat32 := fun x => x }

/-- The field `int32 n`. -/
def exFieldN : FieldDescriptor := .mk "n" .TYPE_INT32 none none none

/-- The field `uint32 u`. -/
def exFieldU : FieldDescriptor := .mk "u" .TYPE_UINT32 none none none

/-- The field `string s`. -/
def exFieldS : FieldDescriptor := .mk "s" .TYPE_STRING none none none

/-- The field `int64 a`. -/
def exFieldA : FieldDescriptor := .mk "a" .TYPE_INT64 none none none

/-- The field `sint64 b`. -/
def exFieldB : FieldDescriptor := .mk "b" .TYPE_SINT64 none none none

/-- A field `c` of an enumeration kind. -/
def exFieldC : FieldDescriptor :=
  .mk "c" .TYPE_ENUM none
    (some { name := "Color", fqn := "pkg.Color"
            values := [{ name := "RED", fqn := "pkg.RED", number := 0 },
                       { name := "BLUE", fqn := "pkg.BLUE", number := 1 }] }) none

/-- The message type `{string s; int64 a; sint64 b; Color c}`. -/
def exFlat : MessageDescriptor := .mk "pkg.Flat" [exFieldS, exFieldA, exFieldB, exFieldC]

/-- The message type `{int64 a}`. -/
def exOnlyA : MessageDescriptor := .mk "pkg.OnlyA" [exFieldA]

/-- The message type `{Color c}`. -/
def exOnlyC : MessageDescriptor := .mk "pkg.OnlyC" [exFieldC]

/-- The request type `{message m {Color c}}`. -/
def exNestedC : MessageDescriptor :=
  .mk "pkg.NestedC" [.mk "m" .TYPE_MESSAGE none none (some exOnlyC)]

/-- The request type `{Color c; message m {Color c}}`. -/
def exColorTwice : MessageDescriptor :=
  .mk "pkg.Twice" [exFieldC, .mk "m" .TYPE_MESSAGE none none (some exOnlyC)]

/-- The request type `{oneof id {string email; int64 phone}; string note}`. -/
def exContact : MessageDescriptor :=
  .mk "pkg.Contact"
    [.mk "email" .TYPE_STRING (some "id") none none,
     .mk "phone" .TYPE_INT64 (some "id") none none,
     .mk "note" .TYPE_STRING none none none]

/-- The request type `{Color c; Color d}`. -/
def exColorPair : MessageDescriptor :=
  .mk "pkg.Pair" [exFieldC, .mk "d" .TYPE_ENUM none exFieldC.GetEnumType none]

/-- The request type `{string s; int64 a}`. -/
def exTwoScalars : MessageDescriptor := .mk "pkg.Two" [exFieldS, exFieldA]

/-- The field `sfixed32 x`. -/
def exFieldX : FieldDescriptor := .mk "x" .TYPE_SFIXED32 none none none

/-- The message type `{sfixed32 x}`. -/
def exSfixed : MessageDescriptor := .mk "pkg.Sfixed" [exFieldX]

/-- The field `fixed32 y`. -/
def exFieldY : FieldDescriptor := .mk "y" .TYPE_FIXED32 none none none

/-- The message type `{fixed32 y}`. -/
def exFixed : MessageDescriptor := .mk "pkg.Fixed" [exFieldY]

/-- The nested message type `{int32 n}`. -/
def exInner : MessageDescriptor := .mk "pkg.Inner" [exFieldN]

/-- The request type `{string s; message m {int32 n}}`. -/
def exRequest : MessageDescriptor :=
  .mk "pkg.Request"
    [.mk "s" .TYPE_STRING none none none, .mk "m" .TYPE_MESSAGE none none (some exInner)]

/-- An environment whose Prompt Source answers with the texts of `answers`
in turn and whose Choice Source answers with `choices` in turn (end of input
once they are used up). -/
def exEnv (answers : List String) (choices : List (Except Error String))
    (request : MessageDescriptor) : Env :=
  { config :=
      { Host := "localhost", Port := "50051"
        InputPromptFormat := "{ancestor}{name} ({type}) => ", AncestorDelimiter := "." }
    currentPackage := "pkg"
    currentService := "Svc"
    floatLib := exFloatLib
    Input := fun k => answers.getD k ""
    AskOne := fun k => choices.getD k (.error .EOF)
    GetRPC := fun _ => .ok { RequestType := request, ResponseType := exInner }
    Dial := fun _ => none
    Invoke := fun _ _ res => .ok res
    MarshalToString := fun _ => .ok "{}" }

/-- The console before the first request. -/
def emptyConsole : Console := { inputs := [], selects := [] }

/-- The console after one question about the enumeration `Color`, put by the
invocation of the walker with the argument `level`, and no prompt. -/
def exAskedColor (level : List String) : Console :=
  { inputs := []
    selects :=
      [{ subject := .enum "pkg.Color", level := level, Message := "Color"
         Options := ["RED", "BLUE"] }] }

/-- The environment of the end-to-end example: the request `{string s;
message m {int32 n}}` and the answers "hello" and "7". -/
def exHelloEnv : Env := exEnv ["hello", "7"] [] exRequest

/-- The request type `{oneof id {string email; int64 phone}; Color c; Color d}`. -/
def exSurvey : MessageDescriptor :=
  .mk "pkg.Survey"
    [.mk "email" .TYPE_STRING (some "id") none none,
     .mk "phone" .TYPE_INT64 (some "id") none none,
     exFieldC, .mk "d" .TYPE_ENUM none exFieldC.GetEnumType none]

/-- The request type `{oneof id {string email; int64 phone}; Color c;
message m {Color c}; Color d}`. -/
def exSurveyNested : MessageDescriptor :=
  .mk "pkg.SurveyNested"
    [.mk "email" .TYPE_STRING (some "id") none none,
     .mk "phone" .TYPE_INT64 (some "id") none none,
     exFieldC, .mk "m" .TYPE_MESSAGE none none (some exOnlyC),
     .mk "d" .TYPE_ENUM none exFieldC.GetEnumType none]

/-- The request type `{oneof id {Color x; string y}}`. -/
def exOneofColor : MessageDescriptor :=
  .mk "pkg.OneofColor"
    [.mk "x" .TYPE_ENUM (some "id") exFieldC.GetEnumType none,
     .mk "y" .TYPE_STRING (some "id") none none]

/-! # Properties

## Decimal texts and `strconv` -/

theorem decValue_ge (cs : List Char) : ∀ acc, acc ≤ decValue acc cs := by
  induction cs with
  | nil => intro acc; simp [decValue]
  | cons c cs ih =>
    intro acc
    have h := ih (acc * 10 + (c.toNat - '0'.toNat))
    simp only [decValue, List.foldl_cons] at h ⊢
    omega

theorem parseUintLoop_digits (maxVal : Nat) (hmax : maxVal < 2 ^ 64) (cs : List Char)
    (hcs : ∀ c ∈ cs, isDecDigit c) :
    ∀ n, n ≤ maxVal →
      parseUintLoop maxVal cs n =
        if decValue n cs ≤ maxVal then (decValue n cs, none) else (maxVal, some .ErrRange) := by
  induction cs with
  | nil => intro n hn; simp [parseUintLoop, decValue, hn]
  | cons c cs ih =>
    intro n hn
    have hc : isDecDigit c := hcs c (List.mem_cons_self _ _)
    have hcs1 : ∀ d ∈ cs, isDecDigit d := fun d hd => hcs d (List.mem_cons_of_mem _ hd)
    have hd9 : c.toNat - '0'.toNat ≤ 9 := by
      have h2 : c.toNat ≤ '9'.toNat := Char.le_def.mp hc.2
      have : '9'.toNat = 57 := by decide
      have : '0'.toNat = 48 := by decide
      omega
    have hge := decValue_ge cs (n * 10 + (c.toNat - '0'.toNat))
    have hstep : decValue n (c :: cs) = decValue (n * 10 + (c.toNat - '0'.toNat)) cs := by
      simp [decValue]
    rw [hstep]
    unfold isDecDigit at hc
    rw [parseUintLoop, if_pos hc]
    by_cases hcut : n ≥ cutoff10
    · rw [if_pos hcut]
      have : cutoff10 = 1844674407370955162 := by decide
      have hgt : ¬ decValue (n * 10 + (c.toNat - '0'.toNat)) cs ≤ maxVal := by
        have : (2:Nat) ^ 64 = 18446744073709551616 := by norm_num
        omega
      rw [if_neg hgt]
    · rw [if_neg hcut]
      have hc10 : cutoff10 = 1844674407370955162 := by decide
      have h64 : (2:Nat) ^ 64 = 18446744073709551616 := by norm_num
      have hn10 : (n * 10) % 2 ^ 64 = n * 10 := Nat.mod_eq_of_lt (by omega)
      simp only [hn10]
      by_cases hov : n * 10 + (c.toNat - '0'.toNat) < 2 ^ 64
      · have hn1 : (n * 10 + (c.toNat - '0'.toNat)) % 2 ^ 64 = n * 10 + (c.toNat - '0'.toNat) :=
          Nat.mod_eq_of_lt hov
        simp only [hn1]
        by_cases hle : n * 10 + (c.toNat - '0'.toNat) ≤ maxVal
        · have : ¬ (n * 10 + (c.toNat - '0'.toNat) < n * 10 ∨
              n * 10 + (c.toNat - '0'.toNat) > maxVal) := by omega
          rw [if_neg this]
          exact ih hcs1 _ hle
        · have : (n * 10 + (c.toNat - '0'.toNat) < n * 10 ∨
              n * 10 + (c.toNat - '0'.toNat) > maxVal) := by omega
          rw [if_pos this]
          have hgt : ¬ decValue (n * 10 + (c.toNat - '0'.toNat)) cs ≤ maxVal := by omega
          rw [if_neg hgt]
      · have hwrap : (n * 10 + (c.toNat - '0'.toNat)) % 2 ^ 64 < n * 10 := by
          have : (n * 10 + (c.toNat - '0'.toNat)) % 2 ^ 64 =
              n * 10 + (c.toNat - '0'.toNat) - 2 ^ 64 := by
            rw [Nat.mod_eq_sub_mod (by omega)]
            exact Nat.mod_eq_of_lt (by omega)
          omega
        rw [if_pos (Or.inl hwrap)]
        have hgt : ¬ decValue (n * 10 + (c.toNat - '0'.toNat)) cs ≤ maxVal := by omega
        rw [if_neg hgt]

theorem digitChar_isDecDigit (k : Nat) (hk : k < 10) :
    isDecDigit (Nat.digitChar k) ∧ (Nat.digitChar k).toNat - '0'.toNat = k := by
  interval_cases k <;> decide

theorem toDigitsCore_digits (f : Nat) : ∀ (n : Nat) (ds : List Char), n < f →
    (∀ c ∈ ds, isDecDigit c) →
    (∀ c ∈ Nat.toDigitsCore 10 f n ds, isDecDigit c) ∧
      Nat.toDigitsCore 10 f n ds ≠ [] ∧
      decValue 0 (Nat.toDigitsCore 10 f n ds) = decValue n ds := by
  induction f with
  | zero => intro n ds h; omega
  | succ f ih =>
    intro n ds hn hds
    have hd := digitChar_isDecDigit (n % 10) (Nat.mod_lt _ (by norm_num))
    have hds1 : ∀ c ∈ Nat.digitChar (n % 10) :: ds, isDecDigit c := by
      intro c hc
      rcases List.mem_cons.mp hc with h | h
      · rw [h]; exact hd.1
      · exact hds c h
    simp only [Nat.toDigitsCore]
    by_cases h0 : n / 10 = 0
    · simp only [h0, if_true]
      refine ⟨hds1, by simp, ?_⟩
      have hmod : n % 10 = n := Nat.mod_eq_of_lt (by omega)
      have hd2 := hd.2
      rw [hmod] at hd2 ⊢
      simp only [decValue, List.foldl_cons, hd2]
      simp
    · simp only [h0, if_false]
      obtain ⟨h1, h2, h3⟩ := ih (n / 10) (Nat.digitChar (n % 10) :: ds) (by omega) hds1
      refine ⟨h1, h2, ?_⟩
      rw [h3]
      simp only [decValue, List.foldl_cons, hd.2]
      congr 1
      omega

theorem toDigits_spec (n : Nat) :
    (∀ c ∈ Nat.toDigits 10 n, isDecDigit c) ∧ Nat.toDigits 10 n ≠ [] ∧
      decValue 0 (Nat.toDigits 10 n) = n := by
  have h := toDigitsCore_digits (n + 1) n [] (by omega) (by simp)
  simpa [Nat.toDigits, decValue] using h

/-- `ParseUint` on the digits of `n`. -/
theorem parseUintCore_toDigits (n bitSize : Nat) (hb : bitSize ≤ 64) :
    parseUintCore (Nat.toDigits 10 n) bitSize =
      if n ≤ 2 ^ bitSize - 1 then (n, none) else (2 ^ bitSize - 1, some .ErrRange) := by
  obtain ⟨h1, h2, h3⟩ := toDigits_spec n
  have hmax : 2 ^ bitSize - 1 < 2 ^ 64 := by
    have : 2 ^ bitSize ≤ 2 ^ 64 := Nat.pow_le_pow_right (by norm_num) hb
    have : 0 < 2 ^ bitSize := Nat.two_pow_pos bitSize
    omega
  have := parseUintLoop_digits (2 ^ bitSize - 1) hmax _ h1 0 (Nat.zero_le _)
  rw [h3] at this
  unfold parseUintCore
  split
  · next h => exact absurd h h2
  · exact this

theorem toInt64_of_range (x : Int) (h1 : -2 ^ 63 ≤ x) (h2 : x < 2 ^ 63) : toInt64 x = x := by
  unfold toInt64
  have : (x + 2 ^ 63) % 2 ^ 64 = x + 2 ^ 63 := Int.emod_eq_of_lt (by omega) (by omega)
  omega

theorem toInt32_of_range (x : Int) (h1 : -2 ^ 31 ≤ x) (h2 : x < 2 ^ 31) : toInt32 x = x := by
  unfold toInt32
  have : (x + 2 ^ 31) % 2 ^ 32 = x + 2 ^ 31 := Int.emod_eq_of_lt (by omega) (by omega)
  omega

theorem ParseUint_canonical_nonneg (m b : Nat) (hb : b ≤ 64) :
    ParseUint (canonicalBase10 (Int.ofNat m)) b =
      if m ≤ 2 ^ b - 1 then (m, none)
      else (2 ^ b - 1, some (.NumError "ParseUint" (canonicalBase10 (Int.ofNat m)) .ErrRange)) := by
  unfold ParseUint
  have h := parseUintCore_toDigits m b hb
  simp only [canonicalBase10]
  rw [h]
  by_cases hm : m ≤ 2 ^ b - 1
  · simp [hm]
  · simp [hm]

theorem ParseUint_canonical_neg (m b : Nat) :
    ParseUint (canonicalBase10 (Int.negSucc m)) b =
      (0, some (.NumError "ParseUint" (canonicalBase10 (Int.negSucc m)) .ErrSyntax)) := by
  unfold ParseUint
  simp only [canonicalBase10, parseUintCore, parseUintLoop]
  have : ¬ ('0' ≤ '-' ∧ '-' ≤ '9') := by decide
  simp [this]

theorem ParseInt_canonical_ok (n : Int) (b : Nat) (hb : b = 32 ∨ b = 64)
    (h1 : -2 ^ (b - 1) ≤ n) (h2 : n < 2 ^ (b - 1)) :
    ParseInt (canonicalBase10 n) b = (n, none) := by
  have hb64 : b ≤ 64 := by omega
  cases n with
  | ofNat m =>
    obtain ⟨hd, hne, _⟩ := toDigits_spec m
    have hcore := parseUintCore_toDigits m b hb64
    simp only [ParseInt, canonicalBase10]
    cases hdig : Nat.toDigits 10 m with
    | nil => exact absurd hdig hne
    | cons c cs =>
      have hc : isDecDigit c := hd c (by rw [hdig]; exact List.mem_cons_self _ _)
      have hplus : (c == '+') = false := by
        rcases hc with ⟨h0, _⟩
        have : c ≠ '+' := by rintro rfl; exact absurd h0 (by decide)
        simpa using this
      have hminus : (c == '-') = false := by
        rcases hc with ⟨h0, _⟩
        have : c ≠ '-' := by rintro rfl; exact absurd h0 (by decide)
        simpa using this
      rw [hdig] at hcore
      simp only [hplus, hminus, Bool.false_eq_true, if_false, hcore]
      have hm : (m : Int) < 2 ^ (b - 1) := by simpa using h2
      have hm' : m < 2 ^ (b - 1) := by exact_mod_cast hm
      have hle : m ≤ 2 ^ b - 1 := by
        rcases hb with rfl | rfl <;> norm_num at hm' ⊢ <;> omega
      simp only [hle, if_true]
      have hnge : ¬ (m ≥ 2 ^ (b - 1)) := by omega
      simp only [Bool.not_false, Bool.true_and, decide_eq_true_eq, hnge, if_false,
        Bool.false_and, Bool.false_eq_true]
      have : toInt64 (m : Int) = m := by
        apply toInt64_of_range
        · have : (0 : Int) ≤ m := Int.ofNat_nonneg m
          omega
        · rcases hb with rfl | rfl <;> norm_num at hm ⊢ <;> omega
      simp [this]
  | negSucc m =>
    have hcore := parseUintCore_toDigits (m + 1) b hb64
    simp only [ParseInt, canonicalBase10]
    have hplus : ('-' == '+') = false := by decide
    have hminus : ('-' == '-') = true := by decide
    simp only [hplus, hminus, Bool.false_eq_true, if_false, if_true, hcore]
    have hm : -(2 : Int) ^ (b - 1) ≤ Int.negSucc m := h1
    have hm' : m + 1 ≤ 2 ^ (b - 1) := by
      have : Int.negSucc m = -((m : Int) + 1) := Int.negSucc_eq m
      rw [this] at hm
      have : ((m + 1 : Nat) : Int) ≤ ((2 ^ (b - 1) : Nat) : Int) := by push_cast; omega
      exact_mod_cast this
    have hle : m + 1 ≤ 2 ^ b - 1 := by
      rcases hb with rfl | rfl <;> norm_num at hm' ⊢ <;> omega
    simp only [hle, if_true]
    have hngt : ¬ (m + 1 > 2 ^ (b - 1)) := by omega
    simp only [Bool.not_true, Bool.false_and, Bool.false_eq_true, if_false, Bool.true_and,
      decide_eq_true_eq, hngt]
    have hval : toInt64 (-toInt64 ((m + 1 : Nat) : Int)) = Int.negSucc m := by
      have hns : Int.negSucc m = -((m : Int) + 1) := Int.negSucc_eq m
      have hm64 : (m : Int) + 1 ≤ 2 ^ 63 := by
        have : ((m + 1 : Nat) : Int) ≤ ((2 ^ (b - 1) : Nat) : Int) := by exact_mod_cast hm'
        rcases hb with rfl | rfl <;> norm_num at this ⊢ <;> omega
      rw [hns]
      unfold toInt64
      push_cast
      omega
    simpa using hval

theorem ParseInt_canonical_range (n : Int) (b : Nat) (hb : b = 32 ∨ b = 64)
    (h : ¬ (-2 ^ (b - 1) ≤ n ∧ n < 2 ^ (b - 1))) :
    (ParseInt (canonicalBase10 n) b).2 =
      some (.NumError "ParseInt" (canonicalBase10 n) .ErrRange) := by
  have hb64 : b ≤ 64 := by omega
  have hpow : 2 ^ (b - 1) ≤ 2 ^ b - 1 := by
    rcases hb with rfl | rfl <;> norm_num
  cases n with
  | ofNat m =>
    obtain ⟨hd, hne, _⟩ := toDigits_spec m
    have hcore := parseUintCore_toDigits m b hb64
    simp only [ParseInt, canonicalBase10]
    cases hdig : Nat.toDigits 10 m with
    | nil => exact absurd hdig hne
    | cons c cs =>
      have hc : isDecDigit c := hd c (by rw [hdig]; exact List.mem_cons_self _ _)
      have hplus : (c == '+') = false := by
        rcases hc with ⟨h0, _⟩
        have : c ≠ '+' := by rintro rfl; exact absurd h0 (by decide)
        simpa using this
      have hminus : (c == '-') = false := by
        rcases hc with ⟨h0, _⟩
        have : c ≠ '-' := by rintro rfl; exact absurd h0 (by decide)
        simpa using this
      rw [hdig] at hcore
      simp only [hplus, hminus, Bool.false_eq_true, if_false, hcore]
      have hm : 2 ^ (b - 1) ≤ m := by
        have h0 : (0 : Int) ≤ m := Int.ofNat_nonneg m
        have hpos : (0 : Int) < 2 ^ (b - 1) := by positivity
        have : ¬ ((m : Int) < 2 ^ (b - 1)) := by
          intro hlt
          apply h
          constructor
          · show -2 ^ (b - 1) ≤ (m : Int)
            omega
          · exact hlt
        have : ((2 ^ (b - 1) : Nat) : Int) ≤ (m : Int) := by push_cast; omega
        exact_mod_cast this
      by_cases hle : m ≤ 2 ^ b - 1
      · simp [hle, hm]
      · simp [hle, hpow]
  | negSucc m =>
    have hcore := parseUintCore_toDigits (m + 1) b hb64
    simp only [ParseInt, canonicalBase10]
    have hplus : ('-' == '+') = false := by decide
    have hminus : ('-' == '-') = true := by decide
    simp only [hplus, hminus, Bool.false_eq_true, if_false, if_true, hcore]
    have hm : 2 ^ (b - 1) < m + 1 := by
      have hns : Int.negSucc m = -((m : Int) + 1) := Int.negSucc_eq m
      have hpos : (0 : Int) < 2 ^ (b - 1) := by positivity
      have : ¬ (-(2 : Int) ^ (b - 1) ≤ Int.negSucc m) := by
        intro hle
        apply h
        refine ⟨hle, ?_⟩
        rw [hns]
        have h0 : (0 : Int) ≤ m := Int.ofNat_nonneg m
        omega
      rw [hns] at this
      have : ((2 ^ (b - 1) : Nat) : Int) < ((m + 1 : Nat) : Int) := by push_cast; omega
      exact_mod_cast this
    by_cases hle : m + 1 ≤ 2 ^ b - 1
    · simp [hle, hm]
    · have : 2 ^ (b - 1) < 2 ^ b - 1 := by
        rcases hb with rfl | rfl <;> norm_num
      simp [hle, this]

/-! ## Coercion of the integer kinds -/

theorem find_storeValue (key : String) (v : GoValue) (l : List (String × GoValue)) :
    (storeValue key v l).find? (fun kv => kv.1 == key) = some (key, v) := by
  induction l with
  | nil => simp [storeValue]
  | cons kw rest ih =>
    obtain ⟨k, w⟩ := kw
    by_cases hk : k = key
    · simp [storeValue, hk]
    · simp [storeValue, hk, List.find?_cons, ih]

theorem lookup_internalSetField (m : Message) (fd : FieldDescriptor) (v : GoValue) :
    (m.internalSetField fd v).lookup fd.GetName = some v := by
  simp [Message.internalSetField, Message.lookup, Message.values, find_storeValue]

theorem coerce_signed (fl : FloatLib) (K : FieldType) (b : Nat) (n : Int)
    (hK : (K = .TYPE_INT32 ∨ K = .TYPE_SINT32) ∧ b = 32 ∨
      (K = .TYPE_INT64 ∨ K = .TYPE_SINT64) ∧ b = 64) :
    (-2 ^ (b - 1) ≤ n ∧ n < 2 ^ (b - 1) →
      coerce fl K (canonicalBase10 n) =
        .ok ((if b = 32 then GoValue.int32 n else GoValue.int64 n), none)) ∧
    (¬ (-2 ^ (b - 1) ≤ n ∧ n < 2 ^ (b - 1)) →
      ∃ v, coerce fl K (canonicalBase10 n) =
        .ok (v, some (.NumError "ParseInt" (canonicalBase10 n) .ErrRange))) := by
  have hb : b = 32 ∨ b = 64 := by rcases hK with ⟨_, h⟩ | ⟨_, h⟩ <;> simp [h]
  constructor
  · intro hr
    have hp := ParseInt_canonical_ok n b hb hr.1 hr.2
    rcases hK with ⟨hK | hK, rfl⟩ | ⟨hK | hK, rfl⟩ <;> subst hK <;>
      simp only [coerce, parseText, narrowValue, hp, GoValue.assertInt64, Option.map] <;> norm_num
    · exact toInt32_of_range n (by simpa using hr.1) (by simpa using hr.2)
    · exact toInt32_of_range n (by simpa using hr.1) (by simpa using hr.2)
  · intro hr
    have hp := ParseInt_canonical_range n b hb hr
    rcases hK with ⟨hK | hK, rfl⟩ | ⟨hK | hK, rfl⟩ <;> subst hK <;>
      simp only [coerce, parseText, narrowValue, hp, GoValue.assertInt64, Option.map] <;> exact ⟨_, rfl⟩

theorem coerce_unsigned (fl : FloatLib) (K : FieldType) (b : Nat) (n : Int)
    (hK : (K = .TYPE_UINT32 ∨ K = .TYPE_FIXED32) ∧ b = 32 ∨
      (K = .TYPE_UINT64 ∨ K = .TYPE_FIXED64) ∧ b = 64) :
    (0 ≤ n ∧ n < 2 ^ b →
      coerce fl K (canonicalBase10 n) =
        .ok ((if b = 32 then GoValue.uint32 n.toNat else GoValue.uint64 n.toNat), none)) ∧
    (¬ (0 ≤ n ∧ n < 2 ^ b) →
      ∃ v cause, coerce fl K (canonicalBase10 n) =
        .ok (v, some (.NumError "ParseUint" (canonicalBase10 n) cause))) := by
  have hb : b ≤ 64 := by rcases hK with ⟨_, h⟩ | ⟨_, h⟩ <;> omega
  cases n with
  | ofNat m =>
    have hp := ParseUint_canonical_nonneg m b hb
    have hpos : 0 < 2 ^ b := Nat.two_pow_pos b
    constructor
    · intro hr
      have hm : m < 2 ^ b := by
        have : ((m : Nat) : Int) < ((2 ^ b : Nat) : Int) := by push_cast; exact hr.2
        exact_mod_cast this
      have hle : m ≤ 2 ^ b - 1 := by omega
      rw [if_pos hle] at hp
      rcases hK with ⟨hK | hK, rfl⟩ | ⟨hK | hK, rfl⟩ <;> subst hK <;>
        simp only [coerce, parseText, narrowValue, hp, GoValue.assertUint64, Option.map] <;> norm_num
      · exact Nat.mod_eq_of_lt (by simpa using hm)
      · exact Nat.mod_eq_of_lt (by simpa using hm)
    · intro hr
      have hm : ¬ m ≤ 2 ^ b - 1 := by
        intro hle
        apply hr
        refine ⟨Int.ofNat_nonneg m, ?_⟩
        have : ((m : Nat) : Int) < ((2 ^ b : Nat) : Int) := by exact_mod_cast (by omega : m < 2 ^ b)
        simpa using this
      rw [if_neg hm] at hp
      rcases hK with ⟨hK | hK, rfl⟩ | ⟨hK | hK, rfl⟩ <;> subst hK <;>
        simp only [coerce, parseText, narrowValue, hp, GoValue.assertUint64, Option.map] <;> exact ⟨_, _, rfl⟩
  | negSucc m =>
    have hp := ParseUint_canonical_neg m b
    constructor
    · intro hr
      exact absurd hr.1 (by simp [Int.negSucc_not_nonneg])
    · intro _
      rcases hK with ⟨hK | hK, rfl⟩ | ⟨hK | hK, rfl⟩ <;> subst hK <;>
        simp only [coerce, parseText, narrowValue, hp, GoValue.assertUint64, Option.map] <;> exact ⟨_, _, rfl⟩

/-! ## C2: integer texts -/

theorem setInput_primitive (fl : FloatLib) (req : Message) (f : baseField) (pv : String) :
    setInput fl req [.primitiveField f pv] =
      match coerce fl f.descType pv with
      | .panic => (req, .panic)
      | .err e => (req, .err e)
      | .ok (_, some e) => (req, .err e)
      | .ok (v, none) =>
        match req.TrySetField f.desc v with
        | (req1, some e) => (req1, .err e)
        | (req1, none) => (req1, .ok ()) := by
  simp only [setInput, setInputField]
  cases coerce fl f.descType pv with
  | panic => rfl
  | err e => rfl
  | ok p =>
    obtain ⟨v, oe⟩ := p
    cases oe with
    | some e => rfl
    | none =>
      simp only
      cases hT : req.TrySetField f.desc v with
      | mk r oe2 => cases oe2 <;> rfl

/-- C2: for each of the kinds int32, sint32, int64, sint64, uint32, fixed32,
uint64, fixed64 and every integer `n`, `setInput` on one Scalar of that kind
whose text is the canonical base-10 rendering of `n` succeeds exactly when
`n` is in the range of the kind; on success the field holds `n` at the width
of the kind, and outside the range the call returns the parse error of
`strconv` for that text and leaves the message as it was. -/
theorem setInput_integer_text (fl : FloatLib) (K : FieldType) (hK : K ∈ integerKinds)
    (n : Int) (req : Message) (f : baseField) (hf : f.descType = K)
    (hd : f.desc.GetType = K) :
    (inKindRange K n →
      ∃ v, typedInteger K n = some v ∧
        setInput fl req [.primitiveField f (canonicalBase10 n)] =
          (req.internalSetField f.desc v, .ok ()) ∧
        (req.internalSetField f.desc v).lookup f.desc.GetName = some v) ∧
    (¬ inKindRange K n →
      ∃ fn cause, setInput fl req [.primitiveField f (canonicalBase10 n)] =
        (req, .err (.NumError fn (canonicalBase10 n) cause))) ∧
    ((setInput fl req [.primitiveField f (canonicalBase10 n)]).2 = .ok () ↔
      inKindRange K n) := by
  have key : (inKindRange K n →
      ∃ v, typedInteger K n = some v ∧
        setInput fl req [.primitiveField f (canonicalBase10 n)] =
          (req.internalSetField f.desc v, .ok ())) ∧
    (¬ inKindRange K n →
      ∃ fn cause, setInput fl req [.primitiveField f (canonicalBase10 n)] =
        (req, .err (.NumError fn (canonicalBase10 n) cause))) := by
    rw [setInput_primitive, hf]
    simp only [integerKinds, List.mem_cons, List.mem_singleton, List.not_mem_nil, or_false] at hK
    rcases hK with h | h | h | h | h | h | h | h
    · have hc := coerce_signed fl K 32 n (Or.inl ⟨Or.inl h, rfl⟩)
      subst h
      constructor
      · intro hr
        have := hc.1 (by simpa [inKindRange] using hr)
        exact ⟨_, rfl, by simp [this, Message.TrySetField, hd, validFieldValue]⟩
      · intro hr
        obtain ⟨v, hv⟩ := hc.2 (by simpa [inKindRange] using hr)
        exact ⟨_, _, by rw [hv]⟩
    · have hc := coerce_signed fl K 32 n (Or.inl ⟨Or.inr h, rfl⟩)
      subst h
      constructor
      · intro hr
        have := hc.1 (by simpa [inKindRange] using hr)
        exact ⟨_, rfl, by simp [this, Message.TrySetField, hd, validFieldValue]⟩
      · intro hr
        obtain ⟨v, hv⟩ := hc.2 (by simpa [inKindRange] using hr)
        exact ⟨_, _, by rw [hv]⟩
    · have hc := coerce_signed fl K 64 n (Or.inr ⟨Or.inl h, rfl⟩)
      subst h
      constructor
      · intro hr
        have := hc.1 (by simpa [inKindRange] using hr)
        exact ⟨_, rfl, by simp [this, Message.TrySetField, hd, validFieldValue]⟩
      · intro hr
        obtain ⟨v, hv⟩ := hc.2 (by simpa [inKindRange] using hr)
        exact ⟨_, _, by rw [hv]⟩
    · have hc := coerce_signed fl K 64 n (Or.inr ⟨Or.inr h, rfl⟩)
      subst h
      constructor
      · intro hr
        have := hc.1 (by simpa [inKindRange] using hr)
        exact ⟨_, rfl, by simp [this, Message.TrySetField, hd, validFieldValue]⟩
      · intro hr
        obtain ⟨v, hv⟩ := hc.2 (by simpa [inKindRange] using hr)
        exact ⟨_, _, by rw [hv]⟩
    · have hc := coerce_unsigned fl K 32 n (Or.inl ⟨Or.inl h, rfl⟩)
      subst h
      constructor
      · intro hr
        have := hc.1 (by simpa [inKindRange] using hr)
        exact ⟨_, rfl, by simp [this, Message.TrySetField, hd, validFieldValue]⟩
      · intro hr
        obtain ⟨v, c, hv⟩ := hc.2 (by simpa [inKindRange] using hr)
        exact ⟨_, _, by rw [hv]⟩
    · have hc := coerce_unsigned fl K 32 n (Or.inl ⟨Or.inr h, rfl⟩)
      subst h
      constructor
      · intro hr
        have := hc.1 (by simpa [inKindRange] using hr)
        exact ⟨_, rfl, by simp [this, Message.TrySetField, hd, validFieldValue]⟩
      · intro hr
        obtain ⟨v, c, hv⟩ := hc.2 (by simpa [inKindRange] using hr)
        exact ⟨_, _, by rw [hv]⟩
    · have hc := coerce_unsigned fl K 64 n (Or.inr ⟨Or.inl h, rfl⟩)
      subst h
      constructor
      · intro hr
        have := hc.1 (by simpa [inKindRange] using hr)
        exact ⟨_, rfl, by simp [this, Message.TrySetField, hd, validFieldValue]⟩
      · intro hr
        obtain ⟨v, c, hv⟩ := hc.2 (by simpa [inKindRange] using hr)
        exact ⟨_, _, by rw [hv]⟩
    · have hc := coerce_unsigned fl K 64 n (Or.inr ⟨Or.inr h, rfl⟩)
      subst h
      constructor
      · intro hr
        have := hc.1 (by simpa [inKindRange] using hr)
        exact ⟨_, rfl, by simp [this, Message.TrySetField, hd, validFieldValue]⟩
      · intro hr
        obtain ⟨v, c, hv⟩ := hc.2 (by simpa [inKindRange] using hr)
        exact ⟨_, _, by rw [hv]⟩
  refine ⟨?_, key.2, ?_⟩
  · intro hr
    obtain ⟨v, h1, h2⟩ := key.1 hr
    exact ⟨v, h1, h2, lookup_internalSetField req f.desc v⟩
  · constructor
    · intro hok
      by_contra hr
      obtain ⟨fn, c, h⟩ := key.2 hr
      rw [h] at hok
      exact absurd hok (by simp)
    · intro hr
      obtain ⟨v, _, h2⟩ := key.1 hr
      rw [h2]

/-- Witness of C2: "42" at int32 sets the field to the `int32` 42, while
"2147483648" at int32 and "-1" at uint32 are parse failures that leave the
message untouched. -/
theorem setInput_integer_text_witness :
    (FieldType.TYPE_INT32 ∈ integerKinds ∧ inKindRange .TYPE_INT32 42 ∧
      ¬ inKindRange .TYPE_INT32 2147483648 ∧ ¬ inKindRange .TYPE_UINT32 (-1)) ∧
    (canonicalBase10 42 = "42" ∧ canonicalBase10 2147483648 = "2147483648" ∧
      canonicalBase10 (-1) = "-1") ∧
    (∃ v, typedInteger .TYPE_INT32 42 = some v ∧
      setInput exFloatLib (NewMessage exInner)
          [.primitiveField (baseOf exFieldN) (canonicalBase10 42)] =
        ((NewMessage exInner).internalSetField (baseOf exFieldN).desc v, .ok ()) ∧
      ((NewMessage exInner).internalSetField (baseOf exFieldN).desc v).lookup
          (baseOf exFieldN).desc.GetName = some v) ∧
    (∃ fn cause,
      setInput exFloatLib (NewMessage exInner)
          [.primitiveField (baseOf exFieldN) (canonicalBase10 2147483648)] =
        (NewMessage exInner, .err (.NumError fn (canonicalBase10 2147483648) cause))) ∧
    (∃ fn cause,
      setInput exFloatLib (NewMessage exInner)
          [.primitiveField (baseOf exFieldU) (canonicalBase10 (-1))] =
        (NewMessage exInner, .err (.NumError fn (canonicalBase10 (-1)) cause))) :=
  ⟨⟨by decide, by norm_num [inKindRange], by norm_num [inKindRange],
      by norm_num [inKindRange]⟩,
    ⟨by decide, by decide, by decide⟩,
    (setInput_integer_text exFloatLib .TYPE_INT32 (by decide) 42 (NewMessage exInner)
      (baseOf exFieldN) rfl rfl).1 (by norm_num [inKindRange]),
    (setInput_integer_text exFloatLib .TYPE_INT32 (by decide) 2147483648 (NewMessage exInner)
      (baseOf exFieldN) rfl rfl).2.1 (by norm_num [inKindRange]),
    (setInput_integer_text exFloatLib .TYPE_UINT32 (by decide) (-1) (NewMessage exInner)
      (baseOf exFieldU) rfl rfl).2.1 (by norm_num [inKindRange])⟩

/-! ## C5, C6: the type assertions of the coercion -/

/-- C5: the coercion step of `setInput` stops with a panic exactly for the
kind sfixed32, whatever the text: the assertion `v.(int64)` of that branch is
applied to the `uint64` of `ParseUint`. For every other kind it yields a
value or an error. At the Scalar `sfixed32 x` with the text "7" `setInput`
panics and leaves the message empty. -/
theorem coerce_panic_iff_sfixed32 :
    (∀ (fl : FloatLib) (t : FieldType) (pv : String),
      coerce fl t pv = .panic ↔ t = .TYPE_SFIXED32) ∧
    setInput exFloatLib (NewMessage exSfixed) [.primitiveField (baseOf exFieldX) "7"] =
      (NewMessage exSfixed, .panic) := by
  constructor
  · intro fl t pv
    cases t <;>
      simp [coerce, parseText, narrowValue, GoValue.assertInt64, GoValue.assertUint64,
        GoValue.assertFloat64]
  · rfl

/-- C6: a Scalar of kind sfixed32 is never set, whatever its text and
whatever follows it in the list: `setInput` panics at it and leaves the
message as it was. So the text "7" does not give the `int32` 7, while at the
sibling kind fixed32, whose branch makes the same `ParseUint` call and then
asserts `uint64`, the text "7" gives the `uint32` 7. -/
theorem setInput_sfixed32_sets_nothing :
    (∀ (fl : FloatLib) (req : Message) (name : String) (desc : FieldDescriptor) (pv : String)
        (post : List fieldable),
      setInput fl req
          (.primitiveField { name := name, descType := .TYPE_SFIXED32, desc := desc } pv ::
            post) =
        (req, .panic)) ∧
    canonicalBase10 7 = "7" ∧
    setInput exFloatLib (NewMessage exSfixed) [.primitiveField (baseOf exFieldX) "7"] =
      (NewMessage exSfixed, .panic) ∧
    (NewMessage exSfixed).lookup "x" = none ∧
    setInput exFloatLib (NewMessage exFixed) [.primitiveField (baseOf exFieldY) "7"] =
      (.mk exFixed [("y", .uint32 7)], .ok ()) := by
  refine ⟨?_, by decide, rfl, rfl, rfl⟩
  intro fl req name desc pv post
  have hc : coerce fl .TYPE_SFIXED32 pv = .panic := by
    simp [coerce, parseText, narrowValue, GoValue.assertInt64]
  have hf : setInputField fl req
      (.primitiveField { name := name, descType := .TYPE_SFIXED32, desc := desc } pv) =
      (req, .panic) := by
    simp only [setInputField, hc]
  rw [setInput, hf]

/-! ## The assembler, field by field -/

theorem setInput_nil (fl : FloatLib) (req : Message) : setInput fl req [] = (req, .ok ()) := by
  simp [setInput]

theorem setInput_cons (fl : FloatLib) (req : Message) (f : fieldable) (fs : List fieldable) :
    setInput fl req (f :: fs) =
      match setInputField fl req f with
      | (req1, .ok ()) => setInput fl req1 fs
      | (req1, r) => (req1, r) := by
  rw [setInput]

theorem setInput_cons_ok (fl : FloatLib) (req req1 : Message) (f : fieldable)
    (fs : List fieldable) (h : setInputField fl req f = (req1, .ok ())) :
    setInput fl req (f :: fs) = setInput fl req1 fs := by
  rw [setInput_cons, h]

theorem setInput_cons_err (fl : FloatLib) (req req1 : Message) (f : fieldable)
    (fs : List fieldable) (e : Error) (h : setInputField fl req f = (req1, .err e)) :
    setInput fl req (f :: fs) = (req1, .err e) := by
  rw [setInput_cons, h]

theorem setInput_cons_panic (fl : FloatLib) (req req1 : Message) (f : fieldable)
    (fs : List fieldable) (h : setInputField fl req f = (req1, .panic)) :
    setInput fl req (f :: fs) = (req1, .panic) := by
  rw [setInput_cons, h]

/-- The three ways a single field can end. -/
theorem setInputField_cases (fl : FloatLib) (req : Message) (f : fieldable) :
    (∃ r, setInputField fl req f = (r, .ok ())) ∨
      (∃ r e, setInputField fl req f = (r, .err e)) ∨
      (∃ r, setInputField fl req f = (r, .panic)) := by
  rcases h : setInputField fl req f with ⟨r, o⟩
  cases o with
  | ok u => cases u; exact Or.inl ⟨r, rfl⟩
  | err e => exact Or.inr (Or.inl ⟨r, e, rfl⟩)
  | panic => exact Or.inr (Or.inr ⟨r, rfl⟩)

/-- Assembling `xs ++ ys` is assembling `xs` and, when that succeeds,
assembling `ys` into the message so far. -/
theorem setInput_append (fl : FloatLib) (xs ys : List fieldable) :
    ∀ req : Message, setInput fl req (xs ++ ys) =
      match setInput fl req xs with
      | (req1, .ok ()) => setInput fl req1 ys
      | (req1, r) => (req1, r) := by
  induction xs with
  | nil => intro req; simp [setInput_nil]
  | cons x xs ih =>
    intro req
    rw [List.cons_append]
    rcases setInputField_cases fl req x with ⟨r, h⟩ | ⟨r, e, h⟩ | ⟨r, h⟩
    · rw [setInput_cons_ok fl req r x _ h, setInput_cons_ok fl req r x _ h, ih]
    · rw [setInput_cons_err fl req r x _ e h, setInput_cons_err fl req r x _ e h]
    · rw [setInput_cons_panic fl req r x _ h, setInput_cons_panic fl req r x _ h]

theorem setInput_append_ok (fl : FloatLib) (xs ys : List fieldable) (req req1 : Message)
    (h : setInput fl req xs = (req1, .ok ())) :
    setInput fl req (xs ++ ys) = setInput fl req1 ys := by
  rw [setInput_append, h]

/-- A field that does not succeed leaves the message as it was. -/
theorem setInputField_not_ok_unchanged (fl : FloatLib) (req req1 : Message) (f : fieldable)
    (r : Res Unit) (hr : r ≠ .ok ()) (h : setInputField fl req f = (req1, r)) : req1 = req := by
  cases f with
  | primitiveField b pv =>
    simp only [setInputField] at h
    cases hc : coerce fl b.descType pv with
    | panic => rw [hc] at h; simp at h; exact h.1.symm
    | err e => rw [hc] at h; simp at h; exact h.1.symm
    | ok p =>
      obtain ⟨v, oe⟩ := p
      rw [hc] at h
      cases oe with
      | some e => simp at h; exact h.1.symm
      | none =>
        simp only [Message.TrySetField] at h
        by_cases hv : validFieldValue b.desc.GetType v = true
        · simp [hv] at h
          exact absurd h.2.symm hr
        · simp [hv] at h
          exact h.1.symm
  | messageField b val =>
    simp only [setInputField] at h
    cases hm : b.desc.GetMessageType with
    | none => rw [hm] at h; simp at h; exact h.1.symm
    | some md =>
      rw [hm] at h
      simp only at h
      rcases hs : setInput fl (NewMessage md) val with ⟨m, o⟩
      rw [hs] at h
      cases o with
      | panic => simp at h; exact h.1.symm
      | err e => simp at h; exact h.1.symm
      | ok u =>
        cases u
        simp only [Message.SetField, Message.TrySetField] at h
        by_cases hv : validFieldValue b.desc.GetType (.message m) = true
        · simp [hv] at h
          exact absurd h.2.symm hr
        · simp [hv] at h
          exact h.1.symm
  | oneOfField b =>
    simp [setInputField] at h
    exact absurd h.2.symm hr

/-- A call that does not succeed stops at a first field: the fields before it
have been assembled, and the field itself changes nothing. -/
theorem setInput_not_ok_split (fl : FloatLib) (fields : List fieldable) :
    ∀ (req req1 : Message) (r : Res Unit), r ≠ .ok () →
      setInput fl req fields = (req1, r) →
      ∃ pre f post, fields = pre ++ f :: post ∧ setInput fl req pre = (req1, .ok ()) ∧
        setInputField fl req1 f = (req1, r) := by
  induction fields with
  | nil =>
    intro req req1 r hr h
    rw [setInput_nil] at h
    simp only [Prod.mk.injEq] at h
    exact absurd h.2.symm hr
  | cons x xs ih =>
    intro req req1 r hr h
    rcases setInputField_cases fl req x with ⟨m, hx⟩ | ⟨m, e, hx⟩ | ⟨m, hx⟩
    · rw [setInput_cons_ok fl req m x _ hx] at h
      obtain ⟨pre, f, post, h1, h2, h3⟩ := ih m req1 r hr h
      refine ⟨x :: pre, f, post, by rw [h1]; rfl, ?_, h3⟩
      rw [setInput_cons_ok fl req m x _ hx]
      exact h2
    · have hm := setInputField_not_ok_unchanged fl req m x _ (by simp) hx
      subst hm
      rw [setInput_cons_err fl _ _ x _ e hx] at h
      simp only [Prod.mk.injEq] at h
      obtain ⟨h1, h2⟩ := h
      subst h1 h2
      exact ⟨[], x, xs, rfl, setInput_nil fl _, hx⟩
    · have hm := setInputField_not_ok_unchanged fl req m x _ (by simp) hx
      subst hm
      rw [setInput_cons_panic fl _ _ x _ hx] at h
      simp only [Prod.mk.injEq] at h
      obtain ⟨h1, h2⟩ := h
      subst h1 h2
      exact ⟨[], x, xs, rfl, setInput_nil fl _, hx⟩

/-! ## C7: unsupported kinds -/

theorem setInputField_unsupported (fl : FloatLib) (req : Message) (f : baseField)
    (pv : String) (hk : f.descType ∉ scalarKinds) :
    setInputField fl req (.primitiveField f pv) = (req, .err (.invalidType f.descType)) := by
  simp only [setInputField]
  have : coerce fl f.descType pv = .err (.invalidType f.descType) := by
    cases ht : f.descType <;> rw [ht] at hk <;>
      first
        | exact absurd (by decide) hk
        | simp [coerce, parseText]
  rw [this]

/-- C7, counterexample: in the list `[int64 a = "abc", Color c = "x"]` the
second Scalar has the unrecognised kind enum, and `setInput` returns the
parse error of the first field, not the unsupported-kind error. -/
theorem setInput_reports_earlier_parse_error :
    isUnsupportedScalar (.primitiveField (baseOf exFieldC) "x") = true ∧
    setInput exFloatLib (NewMessage exFlat)
        [.primitiveField (baseOf exFieldA) "abc", .primitiveField (baseOf exFieldC) "x"] =
      (NewMessage exFlat, .err (.NumError "ParseInt" "abc" .ErrSyntax)) ∧
    Error.NumError "ParseInt" "abc" .ErrSyntax ≠ .invalidType .TYPE_ENUM := by
  refine ⟨by decide, rfl, by decide⟩

/-- C7, amended: a list of Collected Fields that contains a Scalar of
unrecognised kind is never assembled with success, whatever the position and
the other texts; and when the fields before that Scalar assemble without
error, `setInput` stops at it with the unsupported-kind error that names its
kind, the message holding what the fields before it have set. -/
theorem setInput_unsupported_kind (fl : FloatLib) (req req1 : Message)
    (pre post : List fieldable) (f : baseField) (pv : String)
    (hk : f.descType ∉ scalarKinds) :
    (setInput fl req (pre ++ .primitiveField f pv :: post)).2 ≠ .ok () ∧
    (setInput fl req pre = (req1, .ok ()) →
      setInput fl req (pre ++ .primitiveField f pv :: post) =
        (req1, .err (.invalidType f.descType))) := by
  have hstop : ∀ m, setInput fl req pre = (m, .ok ()) →
      setInput fl req (pre ++ .primitiveField f pv :: post) =
        (m, .err (.invalidType f.descType)) := by
    intro m hpre
    rw [setInput_append_ok fl pre _ req m hpre]
    exact setInput_cons_err fl m m _ post _ (setInputField_unsupported fl m f pv hk)
  refine ⟨?_, hstop req1⟩
  rcases hp : setInput fl req pre with ⟨m, o⟩
  cases o with
  | ok u =>
    cases u
    rw [hstop m hp]
    simp
  | err e =>
    rw [setInput_append, hp]
    simp
  | panic =>
    rw [setInput_append, hp]
    simp

/-- Witness of the amended C7: after `string s = "hello"`, the Scalar
`Color c` of kind enum stops the assembly with `invalid type: 14`. -/
theorem setInput_unsupported_kind_witness :
    (FieldType.TYPE_ENUM ∉ scalarKinds ∧
      setInput exFloatLib (NewMessage exFlat) [.primitiveField (baseOf exFieldS) "hello"] =
        (.mk exFlat [("s", .string "hello")], .ok ())) ∧
    setInput exFloatLib (NewMessage exFlat)
        ([.primitiveField (baseOf exFieldS) "hello"] ++
          .primitiveField (baseOf exFieldC) "x" :: [.primitiveField (baseOf exFieldA) "abc"]) =
      (.mk exFlat [("s", .string "hello")], .err (.invalidType .TYPE_ENUM)) ∧
    (∀ isPrint, (Error.invalidType .TYPE_ENUM).text isPrint = "invalid type: 14") :=
  ⟨⟨by decide, rfl⟩,
    (setInput_unsupported_kind exFloatLib (NewMessage exFlat)
      (.mk exFlat [("s", .string "hello")])
      [.primitiveField (baseOf exFieldS) "hello"] [.primitiveField (baseOf exFieldA) "abc"]
      (baseOf exFieldC) "x" (by decide)).2 rfl,
    fun _ => rfl⟩

/-! ## C8: what a parse error carries -/

theorem ParseUint_error (s : String) (b : Nat) (e : Error) (h : (ParseUint s b).2 = some e) :
    ∃ cause, e = .NumError "ParseUint" s cause := by
  unfold ParseUint at h
  rcases hc : parseUintCore s.data b with ⟨n, o⟩
  rw [hc] at h
  cases o with
  | none => simp at h
  | some k => simp at h; exact ⟨k, h.symm⟩

theorem ParseInt_error (s : String) (b : Nat) (e : Error) (h : (ParseInt s b).2 = some e) :
    ∃ cause, e = .NumError "ParseInt" s cause := by
  unfold ParseInt at h
  split at h
  · simp at h; exact ⟨_, h.symm⟩
  · simp only at h
    split at h
    · simp at h; exact ⟨_, h.symm⟩
    · split_ifs at h <;> simp at h <;> exact ⟨_, h.symm⟩

theorem ParseBool_error (s : String) (e : Error) (h : (ParseBool s).2 = some e) :
    ∃ cause, e = .NumError "ParseBool" s cause := by
  unfold ParseBool at h
  split_ifs at h
  simp at h
  exact ⟨_, h.symm⟩

/-- C8, counterexample: the text "abc" at the field `a` of kind int64 and at
the field `b` of kind sint64 gives the same error
`strconv.ParseInt: parsing "abc": invalid syntax`, from `setInput` and from
`Call`: the error carries neither the name nor the kind of the field. -/
theorem parse_error_without_field :
    setInput exFloatLib (NewMessage exFlat) [.primitiveField (baseOf exFieldA) "abc"] =
      (NewMessage exFlat, .err (.NumError "ParseInt" "abc" .ErrSyntax)) ∧
    setInput exFloatLib (NewMessage exFlat) [.primitiveField (baseOf exFieldB) "abc"] =
      (NewMessage exFlat, .err (.NumError "ParseInt" "abc" .ErrSyntax)) ∧
    (baseOf exFieldA).name ≠ (baseOf exFieldB).name ∧
    (baseOf exFieldA).descType ≠ (baseOf exFieldB).descType ∧
    (∀ isPrint, (Error.NumError "ParseInt" "abc" .ErrSyntax).text isPrint =
      "strconv.ParseInt: parsing \"abc\": invalid syntax") ∧
    (Call (exEnv ["abc"] [] exOnlyA) 1 "Rpc").ret =
      .values "" (some (.NumError "ParseInt" "abc" .ErrSyntax)) := by
  refine ⟨rfl, rfl, by decide, by decide, fun _ => rfl, rfl⟩

/-- The error left by the parse of a text at a kind other than the
floating-point ones is the error of `strconv` made of the name of the parsing
function of the kind, the text and a cause. -/
theorem parseText_error (fl : FloatLib) (K : FieldType) (pv : String) (v : GoValue)
    (e : Error) (h : parseText fl K pv = .ok (v, some e))
    (hK : K ≠ .TYPE_DOUBLE ∧ K ≠ .TYPE_FLOAT) :
    ∃ cause, e = .NumError (parseFunc K) pv cause := by
  obtain ⟨hd, hf⟩ := hK
  cases K <;>
    simp [parseText] at h <;>
    first
      | exact absurd rfl hd
      | exact absurd rfl hf
      | exact ParseInt_error _ _ _ h.2
      | exact ParseUint_error _ _ _ h.2
      | exact ParseBool_error _ _ h.2

/-- A Scalar whose text does not parse at its kind, other than sfixed32,
stops the assembly with the error of the parse, whatever the message and
whatever the name and the descriptor of the field. -/
theorem setInputField_parse_error (fl : FloatLib) (req : Message) (f : baseField)
    (pv : String) (v : GoValue) (e : Error) (hK : f.descType ≠ .TYPE_SFIXED32)
    (h : parseText fl f.descType pv = .ok (v, some e)) :
    setInputField fl req (.primitiveField f pv) = (req, .err e) := by
  have hc : ∃ v1, coerce fl f.descType pv = .ok (v1, some e) := by
    cases ht : f.descType <;> rw [ht] at h hK <;>
      simp [parseText] at h <;>
      first
        | exact absurd rfl hK
        | (obtain ⟨h1, h2⟩ := h
           subst h1
           simp [coerce, parseText, narrowValue, GoValue.assertInt64, GoValue.assertUint64,
             GoValue.assertFloat64, h2])
  obtain ⟨v1, hv1⟩ := hc
  simp only [setInputField, hv1]

/-- C8, amended: when the text of a Scalar cannot be parsed at its declared
kind (any kind but sfixed32) and the Collected Fields before it assemble,
`setInput` returns the error of the parser as it is, whatever follows in the
list, and so does `Call` when these are the fields it has collected, without
using the transport. For the integer and boolean kinds the error is the
`strconv` error made of the name of the parsing function of the kind, the raw
text and the cause; the same error is returned for every other name and
descriptor of the field, so neither occurs in it. -/
theorem setInput_parse_error (fl : FloatLib) (req req1 : Message)
    (pre post : List fieldable) (f : baseField) (pv : String) (v : GoValue) (e : Error)
    (hK : f.descType ≠ .TYPE_SFIXED32)
    (h : parseText fl f.descType pv = .ok (v, some e))
    (hpre : setInput fl req pre = (req1, .ok ())) :
    setInput fl req (pre ++ .primitiveField f pv :: post) = (req1, .err e) ∧
    (∀ (env : Env) (fuel : Nat) (name : String) (rpc : RPC) (c : Console),
      env.floatLib = fl → env.GetRPC name = .ok rpc → req = NewMessage rpc.RequestType →
      inputFields env fuel [] rpc.RequestType DarkGreen { inputs := [], selects := [] } =
        some (.ok (pre ++ .primitiveField f pv :: post), c) →
      (Call env fuel name).ret = .values "" (some e) ∧ (Call env fuel name).net = []) ∧
    (f.descType ≠ .TYPE_DOUBLE ∧ f.descType ≠ .TYPE_FLOAT →
      ∃ cause, e = .NumError (parseFunc f.descType) pv cause) ∧
    (∀ (name : String) (desc : FieldDescriptor) (r : Message) (others : List fieldable),
      setInput fl r
          (.primitiveField { name := name, descType := f.descType, desc := desc } pv ::
            others) =
        (r, .err e)) := by
  have hset : setInput fl req (pre ++ .primitiveField f pv :: post) = (req1, .err e) := by
    rw [setInput_append_ok fl pre _ req req1 hpre]
    exact setInput_cons_err fl req1 req1 _ post e
      (setInputField_parse_error fl req1 f pv v e hK h)
  refine ⟨hset, ?_, parseText_error fl f.descType pv v e h, ?_⟩
  · intro env fuel name rpc c hfl hrpc hreq hw
    rw [hreq, ← hfl] at hset
    simp [Call, hrpc, hw, hset]
  · intro name desc r others
    exact setInput_cons_err fl r r _ others e
      (setInputField_parse_error fl r { name := name, descType := f.descType, desc := desc }
        pv v e hK h)

/-- Witness of the amended C8: the request `{string s; int64 a}` with the
answers "x" and "abc". -/
theorem setInput_parse_error_witness :
    ((baseOf exFieldA).descType ≠ .TYPE_SFIXED32 ∧
      parseText exFloatLib (baseOf exFieldA).descType "abc" =
        .ok (.int64 0, some (.NumError "ParseInt" "abc" .ErrSyntax)) ∧
      setInput exFloatLib (NewMessage exTwoScalars) [.primitiveField (baseOf exFieldS) "x"] =
        (.mk exTwoScalars [("s", .string "x")], .ok ()) ∧
      inputFields (exEnv ["x", "abc"] [] exTwoScalars) 1 [] exTwoScalars DarkGreen
          { inputs := [], selects := [] } =
        some (.ok ([.primitiveField (baseOf exFieldS) "x"] ++
            .primitiveField (baseOf exFieldA) "abc" :: []),
          { inputs := [("s (TYPE_STRING) => ", 3), ("s (TYPE_STRING) => ", 3)]
            selects := [] }) ∧
      parseFunc (baseOf exFieldA).descType = "ParseInt") ∧
    setInput exFloatLib (NewMessage exTwoScalars)
        ([.primitiveField (baseOf exFieldS) "x"] ++
          .primitiveField (baseOf exFieldA) "abc" :: []) =
      (.mk exTwoScalars [("s", .string "x")], .err (.NumError "ParseInt" "abc" .ErrSyntax)) ∧
    ((Call (exEnv ["x", "abc"] [] exTwoScalars) 1 "Rpc").ret =
        .values "" (some (.NumError "ParseInt" "abc" .ErrSyntax)) ∧
      (Call (exEnv ["x", "abc"] [] exTwoScalars) 1 "Rpc").net = []) ∧
    ∃ cause, Error.NumError "ParseInt" "abc" .ErrSyntax =
      .NumError (parseFunc (baseOf exFieldA).descType) "abc" cause :=
  ⟨⟨by decide, rfl, rfl, rfl, rfl⟩,
    (setInput_parse_error exFloatLib (NewMessage exTwoScalars)
      (.mk exTwoScalars [("s", .string "x")]) [.primitiveField (baseOf exFieldS) "x"] []
      (baseOf exFieldA) "abc" (.int64 0) (.NumError "ParseInt" "abc" .ErrSyntax) (by decide)
      rfl rfl).1,
    (setInput_parse_error exFloatLib (NewMessage exTwoScalars)
      (.mk exTwoScalars [("s", .string "x")]) [.primitiveField (baseOf exFieldS) "x"] []
      (baseOf exFieldA) "abc" (.int64 0) (.NumError "ParseInt" "abc" .ErrSyntax) (by decide)
      rfl rfl).2.1 (exEnv ["x", "abc"] [] exTwoScalars) 1 "Rpc"
        { RequestType := exTwoScalars, ResponseType := exInner }
        { inputs := [("s (TYPE_STRING) => ", 3), ("s (TYPE_STRING) => ", 3)], selects := [] }
        rfl rfl rfl rfl,
    (setInput_parse_error exFloatLib (NewMessage exTwoScalars)
      (.mk exTwoScalars [("s", .string "x")]) [.primitiveField (baseOf exFieldS) "x"] []
      (baseOf exFieldA) "abc" (.int64 0) (.NumError "ParseInt" "abc" .ErrSyntax) (by decide)
      rfl rfl).2.2.1 ⟨by decide, by decide⟩⟩

/-! ## C9: what a failed assembly leaves behind -/

/-- C9, counterexample: in the list `[string s = "hello", int64 a = "abc"]`
the second text is malformed and `setInput` returns its parse error, but the
field `s`, unset before the call, is set in the message after it. -/
theorem setInput_failure_keeps_earlier_fields :
    setInput exFloatLib (NewMessage exFlat)
        [.primitiveField (baseOf exFieldS) "hello", .primitiveField (baseOf exFieldA) "abc"] =
      (.mk exFlat [("s", .string "hello")], .err (.NumError "ParseInt" "abc" .ErrSyntax)) ∧
    (NewMessage exFlat).lookup "s" = none ∧
    (Message.mk exFlat [("s", .string "hello")]).lookup "s" = some (.string "hello") := by
  refine ⟨rfl, rfl, rfl⟩

/-- C9, amended: if `setInput` returns an error for a list of Collected
Fields, the list splits at a first failing field; the target message is
exactly what the successful assembly of the fields before it has made of it,
and the failing field and the fields after it have set nothing. In
particular the message is as it was before the call when the first field
fails. -/
theorem setInput_error_keeps_prefix (fl : FloatLib) (req req1 : Message)
    (fields : List fieldable) (e : Error) (h : setInput fl req fields = (req1, .err e)) :
    ∃ pre f post, fields = pre ++ f :: post ∧
      setInput fl req pre = (req1, .ok ()) ∧
      setInputField fl req1 f = (req1, .err e) ∧
      (pre = [] → req1 = req) := by
  obtain ⟨pre, f, post, h1, h2, h3⟩ := setInput_not_ok_split fl fields req req1 (.err e) (by simp) h
  refine ⟨pre, f, post, h1, h2, h3, ?_⟩
  intro hp
  rw [hp, setInput_nil] at h2
  simp only [Prod.mk.injEq] at h2
  exact h2.1.symm

/-- Witness of the amended C9: the list `[string s = "hello", int64 a =
"abc"]` into an empty message. -/
theorem setInput_error_keeps_prefix_witness :
    setInput exFloatLib (NewMessage exFlat)
        [.primitiveField (baseOf exFieldS) "hello", .primitiveField (baseOf exFieldA) "abc"] =
      (.mk exFlat [("s", .string "hello")], .err (.NumError "ParseInt" "abc" .ErrSyntax)) ∧
    ∃ pre f post,
      [fieldable.primitiveField (baseOf exFieldS) "hello",
          .primitiveField (baseOf exFieldA) "abc"] = pre ++ f :: post ∧
      setInput exFloatLib (NewMessage exFlat) pre =
        (.mk exFlat [("s", .string "hello")], .ok ()) ∧
      setInputField exFloatLib (.mk exFlat [("s", .string "hello")]) f =
        (.mk exFlat [("s", .string "hello")], .err (.NumError "ParseInt" "abc" .ErrSyntax)) ∧
      (pre = [] → Message.mk exFlat [("s", .string "hello")] = NewMessage exFlat) :=
  ⟨rfl,
    setInput_error_keeps_prefix exFloatLib (NewMessage exFlat)
      (.mk exFlat [("s", .string "hello")])
      [.primitiveField (baseOf exFieldS) "hello", .primitiveField (baseOf exFieldA) "abc"]
      (.NumError "ParseInt" "abc" .ErrSyntax) rfl⟩

/-! ## The walker, turn by turn -/

theorem inputFieldsLoop_nil (e : Env)
    (recur : List String → MessageDescriptor → Nat → Console → Walk)
    (ancestor : List String) (msg : MessageDescriptor) (st : LoopState) :
    inputFieldsLoop e recur ancestor msg [] st = some (.ok st.input, st.console) := by
  rw [inputFieldsLoop]

theorem inputFieldsLoop_cons_next (e : Env)
    (recur : List String → MessageDescriptor → Nat → Console → Walk)
    (ancestor : List String) (msg : MessageDescriptor) (f0 : FieldDescriptor)
    (rest : List FieldDescriptor) (st st1 : LoopState)
    (h : inputFieldsStep e recur ancestor msg f0 st = .next st1) :
    inputFieldsLoop e recur ancestor msg (f0 :: rest) st =
      inputFieldsLoop e recur ancestor msg rest st1 := by
  rw [inputFieldsLoop, h]

theorem inputFieldsLoop_cons_stop (e : Env)
    (recur : List String → MessageDescriptor → Nat → Console → Walk)
    (ancestor : List String) (msg : MessageDescriptor) (f0 : FieldDescriptor)
    (rest : List FieldDescriptor) (st : LoopState) (w : Walk)
    (h : inputFieldsStep e recur ancestor msg f0 st = .stop w) :
    inputFieldsLoop e recur ancestor msg (f0 :: rest) st = w := by
  rw [inputFieldsLoop, h]

theorem resolveField_fail (e : Env) (ancestor : List String) (msg : MessageDescriptor)
    (f : FieldDescriptor)
    (st st1 : LoopState) (err : Error) (h : resolveField e ancestor msg f st = .fail err st1) :
    e.AskOne st.console.selects.length = .error err := by
  unfold resolveField at h
  split at h
  · split at h
    · simp at h
    · split at h
      · next err2 heq =>
        simp only [Resolved.fail.injEq] at h
        rw [← h.1]; exact heq
      · split at h <;> simp at h
  · split at h
    · split at h
      · simp at h
      · split at h
        · next err2 heq =>
          simp only [Resolved.fail.injEq] at h
          rw [← h.1]; exact heq
        · simp at h
    · simp at h

/-- The ways the resolution lets a field through. -/
theorem resolveField_go (e : Env) (ancestor : List String) (msg : MessageDescriptor)
    (f0 f : FieldDescriptor)
    (st st1 : LoopState) (h : resolveField e ancestor msg f0 st = .go f st1) :
    (∃ o choice, GetOneOf msg f0 = some o ∧ st.encounteredOneOf.contains o.fqn = false ∧
        e.AskOne st.console.selects.length = .ok choice ∧
        optMapLookup o.choices choice = some f ∧ st1 = afterOneOf ancestor st o) ∨
    (∃ en choice, GetOneOf msg f0 = none ∧ f0.GetEnumType = some en ∧
        st.encounteredEnum.contains en.fqn = false ∧
        e.AskOne st.console.selects.length = .ok choice ∧ f = f0 ∧ st1 = afterEnum ancestor st en) ∨
    (GetOneOf msg f0 = none ∧ f0.GetEnumType = none ∧ f = f0 ∧ st1 = st) := by
  unfold resolveField at h
  split at h
  · next o ho =>
    split at h
    · simp at h
    · next hc =>
      split at h
      · simp at h
      · next choice hch =>
        split at h
        · simp at h
        · next f1 hf1 =>
          simp only [Resolved.go.injEq] at h
          refine Or.inl ⟨o, choice, ho, by simpa using hc, hch, ?_, h.2.symm⟩
          rw [← h.1]; exact hf1
  · next ho =>
    split at h
    · next en hen =>
      split at h
      · simp at h
      · next hc =>
        split at h
        · simp at h
        · next choice hch =>
          simp only [Resolved.go.injEq] at h
          exact Or.inr (Or.inl ⟨en, choice, ho, hen, by simpa using hc, hch, h.1.symm, h.2.symm⟩)
    · next hen =>
      simp only [Resolved.go.injEq] at h
      exact Or.inr (Or.inr ⟨ho, hen, h.1.symm, h.2.symm⟩)

/-- The ways the resolution skips a field. -/
theorem resolveField_skip (e : Env) (ancestor : List String) (msg : MessageDescriptor)
    (f0 : FieldDescriptor)
    (st : LoopState) (h : resolveField e ancestor msg f0 st = .skip) :
    (∃ o, GetOneOf msg f0 = some o ∧ st.encounteredOneOf.contains o.fqn = true) ∨
    (∃ en, GetOneOf msg f0 = none ∧ f0.GetEnumType = some en ∧
        st.encounteredEnum.contains en.fqn = true) := by
  unfold resolveField at h
  split at h
  · next o ho =>
    split at h
    · next hc => exact Or.inl ⟨o, ho, hc⟩
    · split at h
      · simp at h
      · split at h <;> simp at h
  · next ho =>
    split at h
    · next en hen =>
      split at h
      · next hc => exact Or.inr ⟨en, ho, hen, hc⟩
      · split at h <;> simp at h
    · simp at h

/-- The ways a turn of the loop leads to the next turn. -/
theorem inputFieldsStep_next (e : Env)
    (recur : List String → MessageDescriptor → Nat → Console → Walk)
    (ancestor : List String) (msg : MessageDescriptor) (f0 : FieldDescriptor)
    (st st2 : LoopState) (h : inputFieldsStep e recur ancestor msg f0 st = .next st2) :
    (resolveField e ancestor msg f0 st = .skip ∧ st2 = st) ∨
    (∃ f st1, resolveField e ancestor msg f0 st = .go f st1 ∧ isMessageType f.GetType = false ∧
        st2 = afterScalar e ancestor st1 f) ∨
    (∃ f st1 nested fields c, resolveField e ancestor msg f0 st = .go f st1 ∧
        isMessageType f.GetType = true ∧ f.GetMessageType = some nested ∧
        recur (ancestor ++ [f.GetName]) nested st1.color st1.console = some (.ok fields, c) ∧
        st2 = afterMessage st1 f fields c) := by
  unfold inputFieldsStep at h
  split at h
  · next hr =>
    simp only [Step.next.injEq] at h
    exact Or.inl ⟨hr, h.symm⟩
  · simp at h
  · simp at h
  · next f st1 hr =>
    split at h
    · next hm =>
      split at h
      · simp at h
      · next nested hn =>
        split at h
        · simp at h
        · simp at h
        · simp at h
        · next fields c hrec =>
          simp only [Step.next.injEq] at h
          exact Or.inr (Or.inr ⟨f, st1, nested, fields, c, hr, hm, hn, hrec, h.symm⟩)
    · next hm =>
      simp only [Step.next.injEq] at h
      exact Or.inr (Or.inl ⟨f, st1, hr, by simpa using hm, h.symm⟩)

/-- The ways a turn of the loop returns an error. -/
theorem inputFieldsStep_stop_err (e : Env)
    (recur : List String → MessageDescriptor → Nat → Console → Walk)
    (ancestor : List String) (msg : MessageDescriptor) (f0 : FieldDescriptor)
    (st : LoopState) (err : Error) (c : Console)
    (h : inputFieldsStep e recur ancestor msg f0 st = .stop (some (.err err, c))) :
    (∃ st1, resolveField e ancestor msg f0 st = .fail err st1 ∧ c = st1.console) ∨
    (∃ f st1 nested err0, resolveField e ancestor msg f0 st = .go f st1 ∧
        recur (ancestor ++ [f.GetName]) nested st1.color st1.console = some (.err err0, c) ∧
        err = .Wrap err0 "failed to read inputs") := by
  unfold inputFieldsStep at h
  split at h
  · simp at h
  · next err1 st1 hr =>
    simp only [Step.stop.injEq, Option.some.injEq, Prod.mk.injEq, Res.err.injEq] at h
    rw [← h.1]
    exact Or.inl ⟨st1, hr, h.2.symm⟩
  · simp at h
  · next f st1 hr =>
    split at h
    · split at h
      · simp at h
      · next nested hn =>
        split at h
        · simp at h
        · simp at h
        · next err0 c0 hrec =>
          simp only [Step.stop.injEq, Option.some.injEq, Prod.mk.injEq, Res.err.injEq] at h
          rw [← h.2] 
          exact Or.inr ⟨f, st1, nested, err0, hr, hrec, h.1.symm⟩
        · simp at h
    · simp at h

/-- An invariant of the turns of the loop holds at the end of a loop that
returns collected fields. -/
theorem inputFieldsLoop_ok_invariant (e : Env)
    (recur : List String → MessageDescriptor → Nat → Console → Walk)
    (ancestor : List String) (msg : MessageDescriptor)
    (I : List FieldDescriptor → LoopState → Prop)
    (hstep : ∀ f0 rest st st2, I (f0 :: rest) st →
      inputFieldsStep e recur ancestor msg f0 st = .next st2 → I rest st2)
    (fs : List FieldDescriptor) :
    ∀ (st : LoopState) (fields : List fieldable) (c : Console), I fs st →
      inputFieldsLoop e recur ancestor msg fs st = some (.ok fields, c) →
      ∃ stf, I [] stf ∧ stf.input = fields ∧ stf.console = c := by
  induction fs with
  | nil =>
    intro st fields c hI h
    rw [inputFieldsLoop_nil] at h
    simp only [Option.some.injEq, Prod.mk.injEq, Res.ok.injEq] at h
    exact ⟨st, hI, h.1, h.2⟩
  | cons f0 rest ih =>
    intro st fields c hI h
    cases hs : inputFieldsStep e recur ancestor msg f0 st with
    | next st2 =>
      rw [inputFieldsLoop_cons_next e recur ancestor msg f0 rest st st2 hs] at h
      exact ih st2 fields c (hstep f0 rest st st2 hI hs) h
    | stop w =>
      rw [inputFieldsLoop_cons_stop e recur ancestor msg f0 rest st w hs] at h
      subst h
      unfold inputFieldsStep at hs
      split at hs
      · simp at hs
      · simp at hs
      · simp at hs
      · split at hs
        · split at hs
          · simp at hs
          · split at hs <;> simp at hs
        · simp at hs

/-! ## Fields outside a oneof -/

theorem GetOneOf_none (msg : MessageDescriptor) (f : FieldDescriptor)
    (h : f.oneOfName = none) : GetOneOf msg f = none := by
  simp [GetOneOf, h]


/-! ## The store of the dynamic message -/

theorem find_storeValue_ne (key k : String) (v : GoValue) (hk : k ≠ key)
    (l : List (String × GoValue)) :
    (storeValue key v l).find? (fun kv => kv.1 == k) = l.find? (fun kv => kv.1 == k) := by
  have hkey : (key == k) = false := by simpa using fun h => hk h.symm
  induction l with
  | nil => simp [storeValue, hkey]
  | cons kw rest ih =>
    obtain ⟨k1, w⟩ := kw
    by_cases h1 : k1 = key
    · subst h1
      simp [storeValue, List.find?_cons, hkey]
    · by_cases h2 : k1 = k
      · subst h2
        simp [storeValue, h1, List.find?_cons]
      · have : (k1 == k) = false := by simpa using h2
        simp [storeValue, h1, List.find?_cons, this, ih]

theorem find_filter_keys (others : List String) (k : String)
    (l : List (String × GoValue)) :
    (l.filter (fun kv => !others.contains kv.1)).find? (fun kv => kv.1 == k) =
      if others.contains k then none else l.find? (fun kv => kv.1 == k) := by
  induction l with
  | nil => simp
  | cons kw rest ih =>
    obtain ⟨k1, w⟩ := kw
    by_cases ho : others.contains k1 = true
    · have hf : ((k1, w) :: rest).filter (fun kv => !others.contains kv.1) =
          rest.filter (fun kv => !others.contains kv.1) := by
        rw [List.filter_cons]
        simp only [ho, Bool.not_true, Bool.false_eq_true, if_false]
      rw [hf, ih]
      by_cases hok : others.contains k = true
      · rw [if_pos hok, if_pos hok]
      · rw [if_neg hok, if_neg hok]
        have hne : (k1 == k) = false := by
          simp only [beq_eq_false_iff_ne, ne_eq]
          intro hc
          rw [hc] at ho
          exact hok ho
        rw [List.find?_cons]
        simp only [hne]
    · have ho2 : others.contains k1 = false := by simpa using ho
      have hf : ((k1, w) :: rest).filter (fun kv => !others.contains kv.1) =
          (k1, w) :: rest.filter (fun kv => !others.contains kv.1) := by
        rw [List.filter_cons]
        simp only [ho2, Bool.not_false, if_true]
      rw [hf, List.find?_cons, List.find?_cons]
      by_cases hk : (k1 == k) = true
      · have hkk : k1 = k := by simpa using hk
        have hok : ¬ others.contains k = true := by rw [← hkk]; exact ho
        simp only [hk]
        rw [if_neg hok]
      · have hk2 : (k1 == k) = false := by simpa using hk
        simp only [hk2]
        exact ih

theorem internalSetField_md (m : Message) (fd : FieldDescriptor) (v : GoValue) :
    (m.internalSetField fd v).md = m.md := by
  simp [Message.internalSetField, Message.md]

/-- The value of a field after a store: the stored value for the field
itself, nothing for the other members of its oneof, the value before for
every other field. -/
theorem lookup_internalSetField_other (m : Message) (fd : FieldDescriptor) (v : GoValue)
    (k : String) (hk : k ≠ fd.GetName) :
    (m.internalSetField fd v).lookup k =
      if (clearedBy m.md fd).contains k then none else m.lookup k := by
  simp only [Message.internalSetField, Message.lookup, Message.values]
  rw [find_storeValue_ne _ _ _ hk, find_filter_keys]
  show Option.map Prod.snd (if (clearedBy m.md fd).contains k = true then none else _) = _
  by_cases hc : (clearedBy m.md fd).contains k = true
  · rw [if_pos hc, if_pos hc]; rfl
  · rw [if_neg hc, if_neg hc]

/-- A successful assembly of one field is a store of some value for it. -/
theorem setInputField_ok_store (fl : FloatLib) (req req1 : Message) (y : fieldable)
    (h : setInputField fl req y = (req1, .ok ())) :
    (∃ v, req1 = req.internalSetField (descOf y) v) ∨ ((∃ b, y = .oneOfField b) ∧ req1 = req) := by
  cases y with
  | primitiveField b pv =>
    left
    simp only [setInputField] at h
    split at h
    · simp at h
    · simp at h
    · simp at h
    · next v hc =>
      simp only [Message.TrySetField] at h
      by_cases hv : validFieldValue b.desc.GetType v = true
      · simp only [hv, if_true, Prod.mk.injEq, and_true] at h
        exact ⟨v, h.symm⟩
      · simp [hv] at h
  | messageField b val =>
    left
    simp only [setInputField] at h
    split at h
    · simp at h
    · split at h
      · simp at h
      · simp at h
      · next msg1 hs =>
        simp only [Message.SetField, Message.TrySetField] at h
        by_cases hv : validFieldValue b.desc.GetType (.message msg1) = true
        · simp only [hv, if_true, Prod.mk.injEq, and_true] at h
          exact ⟨_, h.symm⟩
        · simp [hv] at h
  | oneOfField b =>
    right
    simp only [setInputField, Prod.mk.injEq, and_true] at h
    exact ⟨⟨b, rfl⟩, h.symm⟩

/-- A successful assembly keeps the message type, and populates only fields
that were populated before or are among the assembled ones. -/
theorem setInput_ok_keys (fl : FloatLib) (ys : List fieldable) :
    ∀ (req m : Message), setInput fl req ys = (m, .ok ()) →
      m.md = req.md ∧
      ∀ k, m.populated k = true →
        req.populated k = true ∨ ∃ y ∈ ys, (descOf y).GetName = k := by
  induction ys with
  | nil =>
    intro req m h
    rw [setInput_nil] at h
    simp only [Prod.mk.injEq, and_true] at h
    subst h
    exact ⟨rfl, fun k hk => Or.inl hk⟩
  | cons y ys ih =>
    intro req m h
    rcases setInputField_cases fl req y with ⟨r, hy⟩ | ⟨r, e, hy⟩ | ⟨r, hy⟩
    · rw [setInput_cons_ok fl req r y ys hy] at h
      obtain ⟨hmd, hkeys⟩ := ih r m h
      rcases setInputField_ok_store fl req r y hy with ⟨v, hr⟩ | ⟨_, hr⟩
      · refine ⟨by rw [hmd, hr, internalSetField_md], ?_⟩
        intro k hk
        rcases hkeys k hk with h1 | ⟨y1, hy1, hn⟩
        · by_cases hkn : k = (descOf y).GetName
          · exact Or.inr ⟨y, List.mem_cons_self _ _, hkn.symm⟩
          · left
            rw [hr] at h1
            simp only [Message.populated] at h1 ⊢
            rw [lookup_internalSetField_other _ _ _ _ hkn] at h1
            split at h1
            · simp at h1
            · exact h1
        · exact Or.inr ⟨y1, List.mem_cons_of_mem _ hy1, hn⟩
      · subst hr
        refine ⟨hmd, ?_⟩
        intro k hk
        rcases hkeys k hk with h1 | ⟨y1, hy1, hn⟩
        · exact Or.inl h1
        · exact Or.inr ⟨y1, List.mem_cons_of_mem _ hy1, hn⟩
    · rw [setInput_cons_err fl req r y ys e hy] at h
      simp at h
    · rw [setInput_cons_panic fl req r y ys hy] at h
      simp at h

/-- A successful assembly keeps a populated field populated, when none of the
assembled fields clears it. -/
theorem setInput_ok_keeps (fl : FloatLib) (k : String) (ys : List fieldable) :
    ∀ (req m : Message), setInput fl req ys = (m, .ok ()) →
      req.populated k = true →
      (∀ y ∈ ys, (clearedBy req.md (descOf y)).contains k = false) →
      m.populated k = true := by
  induction ys with
  | nil =>
    intro req m h hk _
    rw [setInput_nil] at h
    simp only [Prod.mk.injEq, and_true] at h
    subst h
    exact hk
  | cons y ys ih =>
    intro req m h hk hcl
    rcases setInputField_cases fl req y with ⟨r, hy⟩ | ⟨r, e, hy⟩ | ⟨r, hy⟩
    · rw [setInput_cons_ok fl req r y ys hy] at h
      rcases setInputField_ok_store fl req r y hy with ⟨v, hr⟩ | ⟨_, hr⟩
      · have hmd : r.md = req.md := by rw [hr, internalSetField_md]
        apply ih r m h
        · by_cases hkn : k = (descOf y).GetName
          · rw [hr, hkn]
            simp [Message.populated, lookup_internalSetField]
          · rw [hr]
            simp only [Message.populated] at hk ⊢
            rw [lookup_internalSetField_other _ _ _ _ hkn,
              hcl y (List.mem_cons_self _ _)]
            simpa using hk
        · intro y1 hy1
          rw [hmd]
          exact hcl y1 (List.mem_cons_of_mem _ hy1)
      · subst hr
        exact ih r m h hk (fun y1 hy1 => hcl y1 (List.mem_cons_of_mem _ hy1))
    · rw [setInput_cons_err fl req r y ys e hy] at h
      simp at h
    · rw [setInput_cons_panic fl req r y ys hy] at h
      simp at h

/-! ## C3: the members of a oneof -/

theorem GetOneOf_some (msg : MessageDescriptor) (f : FieldDescriptor) (o : OneOfDescriptor)
    (h : GetOneOf msg f = some o) :
    ∃ g, f.oneOfName = some g ∧ o.fqn = groupKey msg g ∧ o.name = g ∧
      o.choices = groupChoices msg g := by
  unfold GetOneOf at h
  split at h
  · simp at h
  · next g hg =>
    simp only [Option.some.injEq] at h
    subst h
    exact ⟨g, hg, rfl, rfl, rfl⟩

theorem groupKey_injective (msg : MessageDescriptor) (g g1 : String)
    (h : groupKey msg g = groupKey msg g1) : g = g1 := by
  unfold groupKey at h
  have h1 := congrArg String.data h
  simp only [String.data_append] at h1
  have h2 := List.append_cancel_left h1
  exact String.ext h2

theorem optMapLookup_some (choices : List FieldDescriptor) (choice : String)
    (f : FieldDescriptor) (h : optMapLookup choices choice = some f) :
    f ∈ choices ∧ f.GetName = choice := by
  unfold optMapLookup at h
  have h1 := List.mem_of_find?_eq_some h
  have h2 := List.find?_some h
  exact ⟨List.mem_reverse.mp h1, by simpa using h2⟩

theorem afterOneOf_question (ancestor : List String) (msg : MessageDescriptor)
    (st : LoopState) (o : OneOfDescriptor)
    (g : String) (h1 : o.fqn = groupKey msg g) (h2 : o.name = g)
    (h3 : o.choices = groupChoices msg g) :
    (afterOneOf ancestor st o).console.selects = st.console.selects ++ [groupQuestion ancestor msg g] := by
  simp [afterOneOf, groupQuestion, h1, h2, h3]

/-- The questions asked are kept, in their places, by a turn of the loop. -/
theorem selects_prefix_step (e : Env)
    (recur : List String → MessageDescriptor → Nat → Console → Walk)
    (hrec : ∀ anc m col c fields c1, recur anc m col c = some (.ok fields, c1) →
      c.selects <+: c1.selects)
    (ancestor : List String) (msg : MessageDescriptor) (f0 : FieldDescriptor)
    (st st2 : LoopState) (h : inputFieldsStep e recur ancestor msg f0 st = .next st2) :
    st.console.selects <+: st2.console.selects := by
  have hres : ∀ f st1, resolveField e ancestor msg f0 st = .go f st1 →
      st.console.selects <+: st1.console.selects := by
    intro f st1 hr
    rcases resolveField_go e ancestor msg f0 f st st1 hr with
      ⟨o, _, _, _, _, _, hst1⟩ | ⟨en, _, _, _, _, _, _, hst1⟩ | ⟨_, _, _, hst1⟩
    · rw [hst1]; exact List.prefix_append _ _
    · rw [hst1]; exact List.prefix_append _ _
    · rw [hst1]
  rcases inputFieldsStep_next e recur ancestor msg f0 st st2 h with
    ⟨_, hst2⟩ | ⟨f, st1, hr, _, hst2⟩ | ⟨f, st1, nested, fields, c, hr, _, _, hrc, hst2⟩
  · rw [hst2]
  · rw [hst2]
    exact hres f st1 hr
  · rw [hst2]
    exact (hres f st1 hr).trans (hrec _ _ _ _ _ _ hrc)

/-- The questions asked before a walk are kept, in their places, by the
walk. -/
theorem inputFields_selects_prefix (e : Env) (fuel : Nat) :
    ∀ (ancestor : List String) (msg : MessageDescriptor) (color : Nat) (c c1 : Console)
      (fields : List fieldable),
      inputFields e fuel ancestor msg color c = some (.ok fields, c1) →
      c.selects <+: c1.selects := by
  induction fuel with
  | zero => intro ancestor msg color c c1 fields h; simp [inputFields] at h
  | succ fuel ih =>
    intro ancestor msg color c c1 fields h
    rw [inputFields] at h
    obtain ⟨stf, hI, _, hc⟩ := inputFieldsLoop_ok_invariant e (inputFields e fuel) ancestor msg
      (fun _ s => c.selects <+: s.console.selects)
      (fun f0 rest s s2 hI hs =>
        hI.trans (selects_prefix_step e (inputFields e fuel)
          (fun anc m col c0 fields0 c2 hw => ih anc m col c0 c2 fields0 hw)
          ancestor msg f0 s s2 hs))
      _ _ fields c1 (List.prefix_refl _) h
    rw [← hc]
    exact hI

theorem getElem?_of_prefix {α : Type} (l1 l2 : List α) (h : l1 <+: l2) (i : Nat) (a : α)
    (hi : l1[i]? = some a) : l2[i]? = some a := by
  obtain ⟨t, rfl⟩ := h
  have hlt : i < l1.length := by
    by_contra hc
    rw [List.getElem?_eq_none (by omega)] at hi
    simp at hi
  rw [List.getElem?_append_left hlt]
  exact hi

/-- What the resolution of the field `f0` means for the oneof `g`, when it
lets the field `f` through. -/
theorem resolveField_go_group (e : Env) (ancestor : List String) (msg : MessageDescriptor) (g : String)
    (f0 f : FieldDescriptor) (st st1 : LoopState) (hf0 : f0 ∈ msg.GetFields)
    (h : resolveField e ancestor msg f0 st = .go f st1) :
    st1.input = st.input ∧ st.console.selects <+: st1.console.selects ∧
    f ∈ msg.GetFields ∧
    ((f.oneOfName = some g ∧ groupKey msg g ∉ st.encounteredOneOf ∧
        groupKey msg g ∈ st1.encounteredOneOf ∧
        st1.console.selects[st.console.selects.length]? = some (groupQuestion ancestor msg g) ∧
        e.AskOne st.console.selects.length = .ok f.GetName) ∨
      (f.oneOfName ≠ some g ∧ f0.oneOfName ≠ some g ∧
        (groupKey msg g ∈ st1.encounteredOneOf ↔ groupKey msg g ∈ st.encounteredOneOf))) := by
  rcases resolveField_go e ancestor msg f0 f st st1 h with
    ⟨o, choice, ho, hc, hask, hlook, hst1⟩ | ⟨en, _, ho, _, _, _, hff, hst1⟩ |
      ⟨ho, _, hff, hst1⟩
  · obtain ⟨g0, hg0, hfqn, hname, hch⟩ := GetOneOf_some msg f0 o ho
    obtain ⟨hmem, hnm⟩ := optMapLookup_some _ _ _ hlook
    rw [hch] at hmem
    simp only [groupChoices, List.mem_filter, beq_iff_eq] at hmem
    have hsel := afterOneOf_question ancestor msg st o g0 hfqn hname hch
    refine ⟨by rw [hst1]; rfl, by rw [hst1, hsel]; exact List.prefix_append _ _, hmem.1, ?_⟩
    have hnot : o.fqn ∉ st.encounteredOneOf := by
      intro hc2
      have h4 : st.encounteredOneOf.contains o.fqn = true := List.elem_iff.mpr hc2
      rw [h4] at hc
      exact absurd hc (by simp)
    by_cases hgg : g0 = g
    · subst hgg
      left
      refine ⟨hmem.2, by rw [← hfqn]; exact hnot, ?_, ?_, by rw [hnm]; exact hask⟩
      · rw [hst1, ← hfqn]
        simp [afterOneOf]
      · rw [hst1, hsel]
        simp
    · right
      refine ⟨?_, ?_, ?_⟩
      · rw [hmem.2]
        simpa using hgg
      · rw [hg0]
        simpa using hgg
      · rw [hst1]
        simp only [afterOneOf, List.mem_cons]
        constructor
        · rintro (h1 | h1)
          · rw [hfqn] at h1
            exact absurd (groupKey_injective msg g g0 h1).symm hgg
          · exact h1
        · exact Or.inr
  · subst hff
    have hnone : f.oneOfName = none := by
      cases hn : f.oneOfName with
      | none => rfl
      | some g1 => simp [GetOneOf, hn] at ho
    refine ⟨by rw [hst1]; rfl, by rw [hst1]; exact List.prefix_append _ _, hf0, Or.inr ?_⟩
    refine ⟨by rw [hnone]; simp, by rw [hnone]; simp, by rw [hst1]; rfl⟩
  · subst hff
    have hnone : f.oneOfName = none := by
      cases hn : f.oneOfName with
      | none => rfl
      | some g1 => simp [GetOneOf, hn] at ho
    refine ⟨by rw [hst1], by rw [hst1], hf0, Or.inr ?_⟩
    exact ⟨by rw [hnone]; simp, by rw [hnone]; simp, by rw [hst1]⟩

/-- The invariant about a oneof after one more Collected Field `y`, of the
field `f`, and more questions. -/
theorem GroupInv_collect (e : Env) (ancestor : List String) (msg : MessageDescriptor)
    (g : String) (base : Nat) (f0 f : FieldDescriptor) (rest : List FieldDescriptor)
    (st st1 st2 : LoopState) (y : fieldable) (hI : GroupInv e ancestor msg g base (f0 :: rest) st)
    (hr : resolveField e ancestor msg f0 st = .go f st1)
    (hy : isScalarOf f y ∨ isCompositeOf f y)
    (hin : st2.input = st1.input ++ [y])
    (henc : st2.encounteredOneOf = st1.encounteredOneOf)
    (hsel : st1.console.selects <+: st2.console.selects) :
    GroupInv e ancestor msg g base rest st2 := by
  have hf0 : f0 ∈ msg.GetFields := hI.ahead f0 (List.mem_cons_self _ _)
  obtain ⟨h1, h2, h3, h4⟩ := resolveField_go_group e ancestor msg g f0 f st st1 hf0 hr
  have hdesc : descOf y = f := by
    rcases hy with ⟨v, rfl⟩ | ⟨v, rfl⟩ <;> rfl
  have hfilter : st2.input.filter (inGroup g) =
      st.input.filter (inGroup g) ++ (if f.oneOfName = some g then [y] else []) := by
    rw [hin, h1, List.filter_append]
    congr 1
    by_cases hg : f.oneOfName = some g
    · simp [List.filter_cons, inGroup, hdesc, hg]
    · simp [List.filter_cons, inGroup, hdesc, hg]
  constructor
  · intro y1 hy1
    rw [hin, h1] at hy1
    rcases List.mem_append.mp hy1 with h5 | h5
    · exact hI.collected y1 h5
    · simp only [List.mem_singleton] at h5
      subst h5
      exact ⟨f, h3, hy⟩
  · intro hk
    rw [henc] at hk
    rcases h4 with ⟨a1, a2, _, a4, a5⟩ | ⟨b1, _, b3⟩
    · refine ⟨y, st.console.selects.length, ?_, hI.grown,
        getElem?_of_prefix _ _ hsel _ _ a4, ?_⟩
      · rw [hfilter, hI.unresolved a2, if_pos a1]
        rfl
      · rw [hdesc]; exact a5
    · obtain ⟨x, i, c1, cb, c2, c3⟩ := hI.resolved (b3.mp hk)
      refine ⟨x, i, ?_, cb, getElem?_of_prefix _ _ (h2.trans hsel) _ _ c2, c3⟩
      rw [hfilter, c1, if_neg b1]
      rfl
  · intro hk
    rw [henc] at hk
    rcases h4 with ⟨_, _, a3, _⟩ | ⟨b1, _, b3⟩
    · exact absurd a3 hk
    · rw [hfilter, hI.unresolved (fun hc => hk (b3.mpr hc)), if_neg b1]
      rfl
  · intro f1 hf1
    exact hI.ahead f1 (List.mem_cons_of_mem _ hf1)
  · intro f1 hf1 hg1
    rw [henc]
    rcases hI.pending f1 hf1 hg1 with h5 | h5
    · rcases List.mem_cons.mp h5 with h6 | h6
      · subst h6
        rcases h4 with ⟨_, _, a3, _⟩ | ⟨_, b2, _⟩
        · exact Or.inr a3
        · exact absurd hg1 b2
      · exact Or.inl h6
    · rcases h4 with ⟨_, _, a3, _⟩ | ⟨_, _, b3⟩
      · exact Or.inr a3
      · exact Or.inr (b3.mpr h5)
  · exact hI.grown.trans (h2.trans hsel).length_le

/-- A turn of the loop keeps the invariant about a oneof. -/
theorem GroupInv_step (e : Env)
    (recur : List String → MessageDescriptor → Nat → Console → Walk)
    (hrec : ∀ anc m col c fields c1, recur anc m col c = some (.ok fields, c1) →
      c.selects <+: c1.selects)
    (ancestor : List String) (msg : MessageDescriptor) (g : String) (base : Nat)
    (f0 : FieldDescriptor) (rest : List FieldDescriptor) (st st2 : LoopState)
    (hI : GroupInv e ancestor msg g base (f0 :: rest) st)
    (h : inputFieldsStep e recur ancestor msg f0 st = .next st2) :
    GroupInv e ancestor msg g base rest st2 := by
  rcases inputFieldsStep_next e recur ancestor msg f0 st st2 h with
    ⟨hr, hst2⟩ | ⟨f, st1, hr, _, hst2⟩ | ⟨f, st1, nested, fields, c, hr, _, _, hrc, hst2⟩
  · subst hst2
    refine ⟨hI.collected, hI.resolved, hI.unresolved,
      fun f1 hf1 => hI.ahead f1 (List.mem_cons_of_mem _ hf1), ?_, hI.grown⟩
    intro f1 hf1 hg1
    rcases hI.pending f1 hf1 hg1 with h5 | h5
    · rcases List.mem_cons.mp h5 with h6 | h6
      · subst h6
        right
        rcases resolveField_skip e ancestor msg f1 st2 hr with ⟨o, ho, hc⟩ | ⟨en, ho, _⟩
        · obtain ⟨g0, hg0, hfqn, _⟩ := GetOneOf_some msg f1 o ho
          rw [hg1] at hg0
          simp only [Option.some.injEq] at hg0
          subst hg0
          rw [← hfqn]
          exact List.elem_iff.mp hc
        · simp [GetOneOf, hg1] at ho
      · exact Or.inl h6
    · exact Or.inr h5
  · exact GroupInv_collect e ancestor msg g base f0 f rest st st1 st2 _ hI hr (Or.inl ⟨_, rfl⟩)
      (by rw [hst2]; rfl) (by rw [hst2]; rfl) (by rw [hst2]; exact List.prefix_refl _)
  · exact GroupInv_collect e ancestor msg g base f0 f rest st st1 st2 _ hI hr (Or.inr ⟨_, rfl⟩)
      (by rw [hst2]; rfl) (by rw [hst2]; rfl) (by rw [hst2]; exact hrec _ _ _ _ _ _ hrc)

/-- The invariant about a oneof at the end of a walk of one level. -/
theorem inputFields_group (e : Env) (fuel : Nat) (ancestor : List String)
    (msg : MessageDescriptor) (color : Nat) (c c1 : Console) (fields : List fieldable)
    (g : String) (hw : inputFields e fuel ancestor msg color c = some (.ok fields, c1))
    (hg : ∃ f ∈ msg.GetFields, f.oneOfName = some g) :
    (∀ y ∈ fields, ∃ f ∈ msg.GetFields, isScalarOf f y ∨ isCompositeOf f y) ∧
    ∃ x i, fields.filter (inGroup g) = [x] ∧ c.selects.length ≤ i ∧
      c1.selects[i]? = some (groupQuestion ancestor msg g) ∧
      e.AskOne i = .ok (descOf x).GetName := by
  cases fuel with
  | zero => simp [inputFields] at hw
  | succ fuel =>
    rw [inputFields] at hw
    obtain ⟨stf, hI, hin, hc⟩ := inputFieldsLoop_ok_invariant e (inputFields e fuel) ancestor
      msg (GroupInv e ancestor msg g c.selects.length)
      (fun f0 rest s s2 hI hs =>
        GroupInv_step e (inputFields e fuel)
          (fun anc m col c0 fields0 c2 h0 =>
            inputFields_selects_prefix e fuel anc m col c0 c2 fields0 h0)
          ancestor msg g c.selects.length f0 rest s s2 hI hs)
      msg.GetFields _ fields c1
      ⟨by simp, by simp, by simp, fun f hf => hf, fun f hf _ => Or.inl hf, Nat.le_refl _⟩ hw
    obtain ⟨f, hf, hfg⟩ := hg
    have hk : groupKey msg g ∈ stf.encounteredOneOf := by
      rcases hI.pending f hf hfg with h1 | h1
      · simp at h1
      · exact h1
    rw [← hin, ← hc]
    exact ⟨hI.collected, hI.resolved hk⟩

theorem setInput_append_ok_split (fl : FloatLib) (xs ys : List fieldable) (req m : Message)
    (h : setInput fl req (xs ++ ys) = (m, .ok ())) :
    ∃ r, setInput fl req xs = (r, .ok ()) ∧ setInput fl r ys = (m, .ok ()) := by
  rw [setInput_append] at h
  rcases hx : setInput fl req xs with ⟨r, o⟩
  rw [hx] at h
  cases o with
  | ok u => cases u; exact ⟨r, rfl, h⟩
  | err e => simp at h
  | panic => simp at h

theorem eq_of_name_eq (fs : List FieldDescriptor)
    (hn : (fs.map FieldDescriptor.GetName).Nodup) (a b : FieldDescriptor) (ha : a ∈ fs)
    (hb : b ∈ fs) (h : a.GetName = b.GetName) : a = b :=
  List.inj_on_of_nodup_map hn ha hb h


/-! ## C1: collection followed by assembly -/

theorem plain_field (f : FieldDescriptor) (h : f.plain = true) :
    f.oneOfName = none ∧ f.GetEnumType = none ∧
    ((isMessageType f.GetType = true ∧ ∃ m, f.GetMessageType = some m ∧ m.plain = true) ∨
      (isMessageType f.GetType = false ∧ f.GetType ∈ plainKinds)) := by
  have hk : ∀ t : FieldType, plainKinds.contains t = true →
      isMessageType t = false ∧ t ∈ plainKinds := by
    intro t ht
    have hm : t ∈ plainKinds := List.elem_iff.mp ht
    refine ⟨?_, hm⟩
    cases t <;> first | rfl | exact absurd hm (by decide)
  cases f with
  | mk n t o en mt =>
    cases mt with
    | none =>
      simp only [FieldDescriptor.plain, Bool.and_eq_true, Option.isNone_iff_eq_none] at h
      exact ⟨h.1.1, h.1.2, Or.inr (hk t h.2)⟩
    | some m =>
      simp only [FieldDescriptor.plain, Bool.and_eq_true, Option.isNone_iff_eq_none,
        Bool.or_eq_true] at h
      refine ⟨h.1.1, h.1.2, ?_⟩
      rcases h.2 with h2 | h2
      · exact Or.inl ⟨h2.1, m, rfl, h2.2⟩
      · exact Or.inr (hk t h2)

theorem leaves_scalar (f : FieldDescriptor) (h : isMessageType f.GetType = false) :
    f.leaves = [([f.GetName], f.GetType)] := by
  cases f with
  | mk n t o en mt =>
    simp only [FieldDescriptor.GetType] at h
    cases mt <;> simp [FieldDescriptor.leaves, h, FieldDescriptor.GetName, FieldDescriptor.GetType]

theorem leaves_message (f : FieldDescriptor) (m : MessageDescriptor)
    (h : isMessageType f.GetType = true) (hm : f.GetMessageType = some m) :
    f.leaves = m.leaves.map (fun p => (f.GetName :: p.1, p.2)) := by
  cases f with
  | mk n t o en mt =>
    simp only [FieldDescriptor.GetType] at h
    simp only [FieldDescriptor.GetMessageType] at hm
    subst hm
    simp [FieldDescriptor.leaves, h, FieldDescriptor.GetName]

theorem mirror_scalar (a : Nat → String) (f : FieldDescriptor) (k : Nat)
    (h : isMessageType f.GetType = false) :
    f.mirror a k = .primitiveField (baseOf f) (a k) := by
  cases f with
  | mk n t o en mt =>
    simp only [FieldDescriptor.GetType] at h
    cases mt <;> simp [FieldDescriptor.mirror, h]

theorem mirror_message (a : Nat → String) (f : FieldDescriptor) (m : MessageDescriptor)
    (k : Nat) (h : isMessageType f.GetType = true) (hm : f.GetMessageType = some m) :
    f.mirror a k = .messageField (baseOf f) (m.mirror a k) := by
  cases f with
  | mk n t o en mt =>
    simp only [FieldDescriptor.GetType] at h
    simp only [FieldDescriptor.GetMessageType] at hm
    subst hm
    simp [FieldDescriptor.mirror, h]

theorem filled_scalar (fl : FloatLib) (a : Nat → String) (f : FieldDescriptor) (k : Nat)
    (h : isMessageType f.GetType = false) :
    f.filled fl a k = coercedValue fl f.GetType (a k) := by
  cases f with
  | mk n t o en mt =>
    simp only [FieldDescriptor.GetType] at h
    cases mt <;> simp [FieldDescriptor.filled, h, FieldDescriptor.GetType]

theorem filled_message (fl : FloatLib) (a : Nat → String) (f : FieldDescriptor)
    (m : MessageDescriptor) (k : Nat) (h : isMessageType f.GetType = true)
    (hm : f.GetMessageType = some m) :
    f.filled fl a k = .message (m.filled fl a k) := by
  cases f with
  | mk n t o en mt =>
    simp only [FieldDescriptor.GetType] at h
    simp only [FieldDescriptor.GetMessageType] at hm
    subst hm
    simp [FieldDescriptor.filled, h]

theorem depth_message (f : FieldDescriptor) (m : MessageDescriptor)
    (hm : f.GetMessageType = some m) : f.depth = m.depth := by
  cases f with
  | mk n t o en mt =>
    simp only [FieldDescriptor.GetMessageType] at hm
    subst hm
    simp [FieldDescriptor.depth]

theorem resolveField_plain (e : Env) (ancestor : List String) (msg : MessageDescriptor)
    (f : FieldDescriptor)
    (st : LoopState) (ho : f.oneOfName = none) (hen : f.GetEnumType = none) :
    resolveField e ancestor msg f st = .go f st := by
  simp [resolveField, GetOneOf_none msg f ho, hen]

theorem inputFieldsStep_scalar (e : Env)
    (recur : List String → MessageDescriptor → Nat → Console → Walk)
    (ancestor : List String) (msg : MessageDescriptor) (f : FieldDescriptor) (st : LoopState)
    (ho : f.oneOfName = none) (hen : f.GetEnumType = none)
    (hm : isMessageType f.GetType = false) :
    inputFieldsStep e recur ancestor msg f st = .next (afterScalar e ancestor st f) := by
  simp [inputFieldsStep, resolveField_plain e ancestor msg f st ho hen, hm]

theorem inputFieldsStep_message (e : Env)
    (recur : List String → MessageDescriptor → Nat → Console → Walk)
    (ancestor : List String) (msg : MessageDescriptor) (f : FieldDescriptor) (st : LoopState)
    (nested : MessageDescriptor) (fields : List fieldable) (c : Console)
    (ho : f.oneOfName = none) (hen : f.GetEnumType = none)
    (hm : isMessageType f.GetType = true) (hn : f.GetMessageType = some nested)
    (hr : recur (ancestor ++ [f.GetName]) nested st.color st.console = some (.ok fields, c)) :
    inputFieldsStep e recur ancestor msg f st = .next (afterMessage st f fields c) := by
  simp [inputFieldsStep, resolveField_plain e ancestor msg f st ho hen, hm, hn, hr]

/-- The loop of the walker over plain fields collects their mirror. -/
theorem inputFieldsLoop_plain (e : Env)
    (recur : List String → MessageDescriptor → Nat → Console → Walk) (n : Nat)
    (hrec : ∀ anc m col c, m.plain = true → m.depth ≤ n →
      ∃ c1, recur anc m col c = some (.ok (m.mirror e.Input c.inputs.length), c1) ∧
        c1.inputs.length = c.inputs.length + m.leaves.length ∧ c1.selects = c.selects)
    (ancestor : List String) (msg : MessageDescriptor) (fs : List FieldDescriptor) :
    ∀ st : LoopState, plainList fs = true → depthList fs ≤ n →
      ∃ c1, inputFieldsLoop e recur ancestor msg fs st =
          some (.ok (st.input ++ mirrorList e.Input fs st.console.inputs.length), c1) ∧
        c1.inputs.length = st.console.inputs.length + (leavesList fs).length ∧
        c1.selects = st.console.selects := by
  induction fs with
  | nil =>
    intro st _ _
    exact ⟨st.console, by simp [inputFieldsLoop_nil, mirrorList], by simp [leavesList], rfl⟩
  | cons f rest ih =>
    intro st hp hd
    simp only [plainList, Bool.and_eq_true] at hp
    simp only [depthList] at hd
    obtain ⟨ho, hen, hkind⟩ := plain_field f hp.1
    rcases hkind with ⟨hm, m, hmt, hmp⟩ | ⟨hm, _⟩
    · have hdm : m.depth ≤ n := by
        have := depth_message f m hmt
        omega
      obtain ⟨c, hr, hlen, hsel⟩ := hrec (ancestor ++ [f.GetName]) m st.color st.console hmp hdm
      have hstep := inputFieldsStep_message e recur ancestor msg f st m _ c ho hen hm hmt hr
      rw [inputFieldsLoop_cons_next e recur ancestor msg f rest st _ hstep]
      obtain ⟨c1, h1, h2, h3⟩ := ih (afterMessage st f _ c) hp.2 (by omega)
      refine ⟨c1, ?_, ?_, ?_⟩
      · rw [h1]
        simp only [afterMessage, mirrorList, mirror_message e.Input f m _ hm hmt,
          leaves_message f m hm hmt, List.length_map, hlen, List.append_assoc,
          List.singleton_append]
      · rw [h2]
        simp only [afterMessage, leavesList, leaves_message f m hm hmt, List.length_append,
          List.length_map, hlen]
        omega
      · rw [h3]
        simp only [afterMessage, hsel]
    · have hstep := inputFieldsStep_scalar e recur ancestor msg f st ho hen hm
      rw [inputFieldsLoop_cons_next e recur ancestor msg f rest st _ hstep]
      obtain ⟨c1, h1, h2, h3⟩ := ih (afterScalar e ancestor st f) hp.2 (by omega)
      refine ⟨c1, ?_, ?_, ?_⟩
      · rw [h1]
        simp only [afterScalar, mirrorList, mirror_scalar e.Input f _ hm, leaves_scalar f hm,
          List.length_append, List.length_singleton, List.append_assoc, List.singleton_append]
      · rw [h2]
        simp only [afterScalar, leavesList, leaves_scalar f hm, List.length_append,
          List.length_singleton]
        omega
      · rw [h3]
        simp only [afterScalar]

/-- The walker over a plain schema, with fuel for its depth, collects the
mirror of the schema and asks one text per leaf. -/
theorem inputFields_plain (e : Env) (fuel : Nat) :
    ∀ (ancestor : List String) (msg : MessageDescriptor) (color : Nat) (c : Console),
      msg.plain = true → msg.depth ≤ fuel →
      ∃ c1, inputFields e fuel ancestor msg color c =
          some (.ok (msg.mirror e.Input c.inputs.length), c1) ∧
        c1.inputs.length = c.inputs.length + msg.leaves.length ∧ c1.selects = c.selects := by
  induction fuel with
  | zero =>
    intro ancestor msg color c _ hd
    cases msg with
    | mk q fs => simp [MessageDescriptor.depth] at hd
  | succ fuel ih =>
    intro ancestor msg color c hp hd
    cases msg with
    | mk q fs =>
      simp only [MessageDescriptor.plain, Bool.and_eq_true] at hp
      simp only [MessageDescriptor.depth] at hd
      rw [inputFields]
      simp only [MessageDescriptor.GetFields]
      obtain ⟨c1, h1, h2, h3⟩ := inputFieldsLoop_plain e (inputFields e fuel) fuel
        (fun anc m col c0 hm hdm => ih anc m col c0 hm hdm) ancestor (.mk q fs) fs
        { input := []
          promptFormat := sprintfPad (maxLen fs e.config.InputPromptFormat)
            e.config.InputPromptFormat
          encounteredOneOf := []
          encounteredEnum := []
          color := color
          console := c } hp.1 (by omega)
      exact ⟨c1, by simpa [MessageDescriptor.mirror] using h1,
        by simpa [MessageDescriptor.leaves] using h2, h3⟩

theorem Coercible_append (fl : FloatLib) (a : Nat → String)
    (l1 l2 : List (List String × FieldType)) (k : Nat) (h : Coercible fl a (l1 ++ l2) k) :
    Coercible fl a l1 k ∧ Coercible fl a l2 (k + l1.length) := by
  constructor
  · intro i p t hi
    apply h i p t
    have hlt : i < l1.length := by
      by_contra hc
      rw [List.getElem?_eq_none (by omega)] at hi
      simp at hi
    rw [List.getElem?_append_left hlt]
    exact hi
  · intro i p t hi
    have := h (l1.length + i) p t (by
      rw [List.getElem?_append_right (by omega)]
      simpa using hi)
    simpa [Nat.add_assoc] using this

theorem Coercible_map (fl : FloatLib) (a : Nat → String) (n : String)
    (l : List (List String × FieldType)) (k : Nat)
    (h : Coercible fl a (l.map (fun p => (n :: p.1, p.2))) k) : Coercible fl a l k := by
  intro i p t hi
  apply h i (n :: p) t
  simp [List.getElem?_map, hi]

theorem valid_of_coerce (fl : FloatLib) (t : FieldType) (pv : String) (v : GoValue)
    (ht : t ∈ plainKinds) (h : coerce fl t pv = .ok (v, none)) :
    validFieldValue t v = true := by
  simp only [plainKinds, integerKinds, List.mem_cons, List.mem_singleton, List.not_mem_nil,
    or_false] at ht
  rcases ht with rfl | rfl | rfl | rfl | rfl | rfl | rfl | rfl | rfl <;>
    simp only [coerce, parseText, narrowValue, GoValue.assertInt64, GoValue.assertUint64,
      Option.map, Res.ok.injEq, Prod.mk.injEq] at h <;>
    (rw [← h.1]; rfl)

theorem storeValue_append (key : String) (v : GoValue) (vals : List (String × GoValue))
    (h : key ∉ vals.map Prod.fst) : storeValue key v vals = vals ++ [(key, v)] := by
  induction vals with
  | nil => rfl
  | cons kw rest ih =>
    obtain ⟨k, w⟩ := kw
    simp only [List.map_cons, List.mem_cons, not_or] at h
    have hne : ¬ k = key := fun hc => h.1 hc.symm
    simp [storeValue, hne, ih h.2]

theorem internalSetField_plain (md : MessageDescriptor) (vals : List (String × GoValue))
    (f : FieldDescriptor) (v : GoValue) (ho : f.oneOfName = none)
    (hk : f.GetName ∉ vals.map Prod.fst) :
    (Message.mk md vals).internalSetField f v = .mk md (vals ++ [(f.GetName, v)]) := by
  simp [Message.internalSetField, Message.md, Message.values, GetOneOf_none md f ho,
    storeValue_append _ _ _ hk]

theorem filled_eq (fl : FloatLib) (a : Nat → String) (m : MessageDescriptor) (k : Nat) :
    m.filled fl a k = .mk m (filledList fl a m.GetFields k) := by
  cases m with
  | mk q fs => simp [MessageDescriptor.filled, MessageDescriptor.GetFields]

theorem mirror_eq (a : Nat → String) (m : MessageDescriptor) (k : Nat) :
    m.mirror a k = mirrorList a m.GetFields k := by
  cases m with
  | mk q fs => simp [MessageDescriptor.mirror, MessageDescriptor.GetFields]

theorem leaves_eq (m : MessageDescriptor) : m.leaves = leavesList m.GetFields := by
  cases m with
  | mk q fs => simp [MessageDescriptor.leaves, MessageDescriptor.GetFields]

/-- The assembly of the mirror of plain fields appends their values. -/
theorem setInput_mirrorList (fl : FloatLib) (a : Nat → String) (n : Nat)
    (hrec : ∀ m k, m.plain = true → m.depth ≤ n → Coercible fl a m.leaves k →
      setInput fl (NewMessage m) (m.mirror a k) = (m.filled fl a k, .ok ()))
    (md : MessageDescriptor) (fs : List FieldDescriptor) :
    ∀ (k : Nat) (vals : List (String × GoValue)), plainList fs = true → depthList fs ≤ n →
      (∀ f ∈ fs, f.GetName ∉ vals.map Prod.fst) →
      (fs.map FieldDescriptor.GetName).Nodup →
      Coercible fl a (leavesList fs) k →
      setInput fl (.mk md vals) (mirrorList a fs k) =
        (.mk md (vals ++ filledList fl a fs k), .ok ()) := by
  induction fs with
  | nil =>
    intro k vals _ _ _ _ _
    simp [mirrorList, filledList, setInput_nil]
  | cons f rest ih =>
    intro k vals hp hd hfresh hnd hco
    simp only [plainList, Bool.and_eq_true] at hp
    simp only [depthList] at hd
    simp only [List.map_cons, List.nodup_cons] at hnd
    simp only [leavesList] at hco
    obtain ⟨hco1, hco2⟩ := Coercible_append fl a _ _ k hco
    obtain ⟨ho, hen, hkind⟩ := plain_field f hp.1
    have hkf : f.GetName ∉ vals.map Prod.fst := hfresh f (List.mem_cons_self _ _)
    have hnext : ∀ v, setInputField fl (.mk md vals) (f.mirror a k) =
          (.mk md (vals ++ [(f.GetName, v)]), .ok ()) →
        f.filled fl a k = v →
        setInput fl (.mk md vals) (mirrorList a (f :: rest) k) =
          (.mk md (vals ++ filledList fl a (f :: rest) k), .ok ()) := by
      intro v hset hval
      rw [mirrorList, setInput_cons_ok fl _ _ _ _ hset, filledList, hval]
      rw [ih (k + f.leaves.length) (vals ++ [(f.GetName, v)]) hp.2 (by omega) ?_ hnd.2 hco2]
      · simp
      · intro g hg
        simp only [List.map_append, List.map_cons, List.map_nil, List.mem_append,
          List.mem_singleton, not_or]
        refine ⟨hfresh g (List.mem_cons_of_mem _ hg), ?_⟩
        intro hc
        exact hnd.1 (by rw [← hc]; exact List.mem_map_of_mem _ hg)
    rcases hkind with ⟨hm, m, hmt, hmp⟩ | ⟨hm, hpk⟩
    · have hdm : m.depth ≤ n := by
        have := depth_message f m hmt
        omega
      rw [leaves_message f m hm hmt] at hco1
      have hnested := hrec m k hmp hdm (Coercible_map fl a _ _ k hco1)
      apply hnext (.message (m.filled fl a k)) _ (filled_message fl a f m k hm hmt)
      rw [mirror_message a f m k hm hmt]
      have htype : f.GetType = .TYPE_MESSAGE := by simpa [isMessageType] using hm
      simp only [setInputField, baseOf, hmt, hnested, Message.SetField, Message.TrySetField,
        htype, validFieldValue, if_true]
      rw [internalSetField_plain md vals f _ ho hkf]
    · rw [leaves_scalar f hm] at hco1
      obtain ⟨v, hv⟩ := hco1 0 [f.GetName] f.GetType (by simp)
      simp only [Nat.add_zero] at hv
      have hfill : f.filled fl a k = v := by
        rw [filled_scalar fl a f k hm]
        simp [coercedValue, hv]
      apply hnext v _ hfill
      rw [mirror_scalar a f k hm]
      simp only [setInputField, baseOf, hv, Message.TrySetField,
        valid_of_coerce fl f.GetType _ v hpk hv, if_true]
      rw [internalSetField_plain md vals f _ ho hkf]

/-- The assembly of the mirror of a plain schema into a fresh message gives
the filled message. -/
theorem setInput_mirror (fl : FloatLib) (a : Nat → String) (n : Nat) :
    ∀ (m : MessageDescriptor) (k : Nat), m.plain = true → m.depth ≤ n →
      Coercible fl a m.leaves k →
      setInput fl (NewMessage m) (m.mirror a k) = (m.filled fl a k, .ok ()) := by
  induction n with
  | zero =>
    intro m k _ hd
    cases m with
    | mk q fs => simp [MessageDescriptor.depth] at hd
  | succ n ih =>
    intro m k hp hd hco
    cases m with
    | mk q fs =>
      simp only [MessageDescriptor.plain, Bool.and_eq_true, decide_eq_true_eq] at hp
      simp only [MessageDescriptor.depth] at hd
      simp only [MessageDescriptor.leaves] at hco
      have := setInput_mirrorList fl a n ih (.mk q fs) fs k [] hp.1 (by omega) (by simp)
        hp.2 hco
      simpa [NewMessage, MessageDescriptor.mirror, MessageDescriptor.filled] using this

theorem lookup_cons (md : MessageDescriptor) (n0 : String) (v0 : GoValue)
    (vals : List (String × GoValue)) (k : String) :
    (Message.mk md ((n0, v0) :: vals)).lookup k =
      if n0 = k then some v0 else (Message.mk md vals).lookup k := by
  by_cases h : n0 = k
  · simp [Message.lookup, Message.values, List.find?_cons, h]
  · have : (n0 == k) = false := by simpa using h
    simp [Message.lookup, Message.values, List.find?_cons, h, this]

theorem leafAt_skip (md : MessageDescriptor) (n0 : String) (v0 : GoValue)
    (vals : List (String × GoValue)) (nm : String) (r : List String) (h : nm ≠ n0) :
    (Message.mk md ((n0, v0) :: vals)).leafAt (nm :: r) =
      (Message.mk md vals).leafAt (nm :: r) := by
  have hne : ¬ n0 = nm := fun hc => h hc.symm
  cases r with
  | nil => simp [Message.leafAt, lookup_cons, hne]
  | cons k2 rest => simp [Message.leafAt, lookup_cons, hne]

theorem leafAt_head (md : MessageDescriptor) (n0 : String) (v0 : GoValue)
    (vals : List (String × GoValue)) :
    (Message.mk md ((n0, v0) :: vals)).leafAt [n0] = some v0 := by
  simp [Message.leafAt, lookup_cons]

theorem leafAt_nested (md : MessageDescriptor) (n0 : String) (m1 : Message)
    (vals : List (String × GoValue)) (k2 : String) (rest : List String) :
    (Message.mk md ((n0, .message m1) :: vals)).leafAt (n0 :: k2 :: rest) =
      m1.leafAt (k2 :: rest) := by
  simp [Message.leafAt, lookup_cons]

/-- In the values of plain fields, every leaf is found at its path and holds
the coerced value of its answer. -/
theorem leafAt_filledList (fl : FloatLib) (a : Nat → String) (n : Nat)
    (hrec : ∀ (m : MessageDescriptor) (k : Nat), m.plain = true → m.depth ≤ n →
      ∀ i p t, m.leaves[i]? = some (p, t) →
        p ≠ [] ∧ (m.filled fl a k).leafAt p = some (coercedValue fl t (a (k + i))))
    (md : MessageDescriptor) (fs : List FieldDescriptor) :
    ∀ (k : Nat), plainList fs = true → depthList fs ≤ n →
      (fs.map FieldDescriptor.GetName).Nodup →
      ∀ i p t, (leavesList fs)[i]? = some (p, t) →
        (∃ nm r, p = nm :: r ∧ nm ∈ fs.map FieldDescriptor.GetName) ∧
        (Message.mk md (filledList fl a fs k)).leafAt p =
          some (coercedValue fl t (a (k + i))) := by
  induction fs with
  | nil =>
    intro k _ _ _ i p t hi
    simp [leavesList] at hi
  | cons f rest ih =>
    intro k hp hd hnd i p t hi
    simp only [plainList, Bool.and_eq_true] at hp
    simp only [depthList] at hd
    simp only [List.map_cons, List.nodup_cons] at hnd
    simp only [leavesList] at hi
    obtain ⟨ho, hen, hkind⟩ := plain_field f hp.1
    rw [filledList]
    by_cases hlt : i < f.leaves.length
    · rw [List.getElem?_append_left hlt] at hi
      rcases hkind with ⟨hm, m, hmt, hmp⟩ | ⟨hm, _⟩
      · have hdm : m.depth ≤ n := by
          have := depth_message f m hmt
          omega
        rw [leaves_message f m hm hmt, List.getElem?_map] at hi
        cases hq : m.leaves[i]? with
        | none => rw [hq] at hi; simp at hi
        | some pt =>
          obtain ⟨p1, t1⟩ := pt
          rw [hq] at hi
          simp only [Option.map_some', Option.some.injEq, Prod.mk.injEq] at hi
          obtain ⟨hp1, ht1⟩ := hi
          subst hp1 ht1
          obtain ⟨hne, hleaf⟩ := hrec m k hmp hdm i p1 t1 hq
          refine ⟨⟨f.GetName, p1, rfl, List.mem_cons_self _ _⟩, ?_⟩
          cases p1 with
          | nil => exact absurd rfl hne
          | cons k2 r =>
            rw [filled_message fl a f m k hm hmt, leafAt_nested]
            exact hleaf
      · rw [leaves_scalar f hm] at hi hlt
        simp only [List.length_singleton, Nat.lt_one_iff] at hlt
        subst hlt
        simp only [List.getElem?_cons_zero, Option.some.injEq, Prod.mk.injEq] at hi
        obtain ⟨hp1, ht1⟩ := hi
        subst hp1 ht1
        refine ⟨⟨f.GetName, [], rfl, List.mem_cons_self _ _⟩, ?_⟩
        rw [leafAt_head, filled_scalar fl a f k hm]
        rfl
    · rw [List.getElem?_append_right (by omega)] at hi
      obtain ⟨⟨nm, r, hpr, hnm⟩, hleaf⟩ :=
        ih (k + f.leaves.length) hp.2 (by omega) hnd.2 (i - f.leaves.length) p t hi
      refine ⟨⟨nm, r, hpr, List.mem_cons_of_mem _ hnm⟩, ?_⟩
      have hne : nm ≠ f.GetName := by
        intro hc
        rw [hc] at hnm
        exact hnd.1 hnm
      rw [hpr, leafAt_skip _ _ _ _ _ _ hne, ← hpr, hleaf]
      congr 3
      omega

/-- In the filled message of a plain schema, every leaf is found at its path
and holds the coerced value of its answer. -/
theorem leafAt_filled (fl : FloatLib) (a : Nat → String) (n : Nat) :
    ∀ (m : MessageDescriptor) (k : Nat), m.plain = true → m.depth ≤ n →
      ∀ i p t, m.leaves[i]? = some (p, t) →
        p ≠ [] ∧ (m.filled fl a k).leafAt p = some (coercedValue fl t (a (k + i))) := by
  induction n with
  | zero =>
    intro m k _ hd
    cases m with
    | mk q fs => simp [MessageDescriptor.depth] at hd
  | succ n ih =>
    intro m k hp hd i p t hi
    cases m with
    | mk q fs =>
      simp only [MessageDescriptor.plain, Bool.and_eq_true, decide_eq_true_eq] at hp
      simp only [MessageDescriptor.depth] at hd
      simp only [MessageDescriptor.leaves] at hi
      obtain ⟨⟨nm, r, hpr, _⟩, hleaf⟩ :=
        leafAt_filledList fl a n ih (.mk q fs) fs k hp.1 (by omega) hp.2 i p t hi
      refine ⟨by rw [hpr]; simp, ?_⟩
      simpa [MessageDescriptor.filled] using hleaf

/-- C1: for every request schema without oneof and enumeration fields whose
scalar leaves are of kind string or of an integer kind, and every sequence of
answers of the Prompt Source that the coercion of their leaves accepts,
`inputFields` (with fuel for the depth of the schema) returns collected
fields, `setInput` of them into a fresh message succeeds, and in the message
every scalar leaf, at its nesting path, holds the coerced value of the text
answered at its prompt, the answers being consumed depth first in declared
order. -/
theorem collect_then_assemble (e : Env) (fuel : Nat) (ancestor : List String)
    (msg : MessageDescriptor) (color : Nat) (c : Console) (hplain : msg.plain = true)
    (hfuel : msg.depth ≤ fuel)
    (hans : Coercible e.floatLib e.Input msg.leaves c.inputs.length) :
    ∃ fields c1 m,
      inputFields e fuel ancestor msg color c = some (.ok fields, c1) ∧
      setInput e.floatLib (NewMessage msg) fields = (m, .ok ()) ∧
      c1.inputs.length = c.inputs.length + msg.leaves.length ∧
      ∀ i path kind, msg.leaves[i]? = some (path, kind) →
        ∃ v, coerce e.floatLib kind (e.Input (c.inputs.length + i)) = .ok (v, none) ∧
          m.leafAt path = some v := by
  obtain ⟨c1, hw, hlen, _⟩ := inputFields_plain e fuel ancestor msg color c hplain hfuel
  have hset := setInput_mirror e.floatLib e.Input fuel msg c.inputs.length hplain hfuel hans
  refine ⟨_, c1, _, hw, hset, hlen, ?_⟩
  intro i path kind hi
  obtain ⟨v, hv⟩ := hans i path kind hi
  obtain ⟨_, hleaf⟩ :=
    leafAt_filled e.floatLib e.Input fuel msg c.inputs.length hplain hfuel i path kind hi
  refine ⟨v, hv, ?_⟩
  rw [hleaf]
  simp [coercedValue, hv]

/-- Witness of C1: the schema `{string s; message m {int32 n}}` with the
answers "hello" and "7" gives `s = "hello"` and `m.n = 7`. -/
theorem collect_then_assemble_witness :
    (exRequest.plain = true ∧ exRequest.depth ≤ 2 ∧
      exRequest.leaves = [(["s"], .TYPE_STRING), (["m", "n"], .TYPE_INT32)] ∧
      exHelloEnv.Input 0 = "hello" ∧ exHelloEnv.Input 1 = "7" ∧
      coerce exHelloEnv.floatLib .TYPE_STRING "hello" = .ok (.string "hello", none) ∧
      coerce exHelloEnv.floatLib .TYPE_INT32 "7" = .ok (.int32 7, none)) ∧
    ∃ fields c1 m,
      inputFields exHelloEnv 2 [] exRequest DarkGreen emptyConsole = some (.ok fields, c1) ∧
      setInput exHelloEnv.floatLib (NewMessage exRequest) fields = (m, .ok ()) ∧
      c1.inputs.length = emptyConsole.inputs.length + exRequest.leaves.length ∧
      ∀ i path kind, exRequest.leaves[i]? = some (path, kind) →
        ∃ v, coerce exHelloEnv.floatLib kind (exHelloEnv.Input (emptyConsole.inputs.length + i))
            = .ok (v, none) ∧
          m.leafAt path = some v :=
  ⟨⟨by decide, by decide, by decide, rfl, rfl, rfl, rfl⟩,
    collect_then_assemble exHelloEnv 2 [] exRequest DarkGreen emptyConsole (by decide)
      (by decide)
      (by
        intro i p t hi
        have hleaves : exRequest.leaves = [(["s"], .TYPE_STRING), (["m", "n"], .TYPE_INT32)] := by
          decide
        rw [hleaves] at hi
        match i, hi with
        | 0, hi =>
          simp only [List.getElem?_cons_zero, Option.some.injEq, Prod.mk.injEq] at hi
          rw [← hi.2]
          exact ⟨_, rfl⟩
        | 1, hi =>
          simp only [List.getElem?_cons_succ, List.getElem?_cons_zero, Option.some.injEq,
            Prod.mk.injEq] at hi
          rw [← hi.2]
          exact ⟨_, rfl⟩
        | i + 2, hi => simp at hi)⟩

/-! ## Walks that return -/

theorem wellTyped_field (f : FieldDescriptor) (h : f.wellTyped = true)
    (hm : isMessageType f.GetType = true) :
    ∃ m, f.GetMessageType = some m ∧ m.wellTyped = true := by
  cases f with
  | mk n t o en mt =>
    simp only [FieldDescriptor.GetType] at hm
    cases mt with
    | none => simp [FieldDescriptor.wellTyped, hm] at h
    | some m =>
      simp only [FieldDescriptor.wellTyped, hm, Bool.not_true, Bool.false_or] at h
      exact ⟨m, rfl, h⟩

theorem wellTypedList_mem (fs : List FieldDescriptor) (h : wellTypedList fs = true) :
    ∀ f ∈ fs, f.wellTyped = true := by
  induction fs with
  | nil => intro f hf; simp at hf
  | cons g gs ih =>
    simp only [wellTypedList, Bool.and_eq_true] at h
    intro f hf
    rcases List.mem_cons.mp hf with h1 | h1
    · rw [h1]; exact h.1
    · exact ih h.2 f h1

theorem depthList_mem (fs : List FieldDescriptor) : ∀ f ∈ fs, f.depth ≤ depthList fs := by
  induction fs with
  | nil => intro f hf; simp at hf
  | cons g gs ih =>
    intro f hf
    simp only [depthList]
    rcases List.mem_cons.mp hf with h1 | h1
    · rw [h1]; exact Nat.le_max_left _ _
    · exact (ih f h1).trans (Nat.le_max_right _ _)

theorem optMapLookup_none (choices : List FieldDescriptor) (choice : String)
    (h : optMapLookup choices choice = none) :
    (choices.map FieldDescriptor.GetName).contains choice = false := by
  unfold optMapLookup at h
  rw [List.find?_eq_none] at h
  cases hc : (choices.map FieldDescriptor.GetName).contains choice with
  | false => rfl
  | true =>
    exfalso
    obtain ⟨f, hf, hn⟩ := List.mem_map.mp (List.elem_iff.mp hc)
    exact h f (List.mem_reverse.mpr hf) (by simpa using hn)

/-- What the resolution of a field that ends with an error or with no chosen
field has asked: one question, which the Choice Source has not answered with
an offered label. -/
theorem resolveField_not_answered (e : Env) (ancestor : List String)
    (msg : MessageDescriptor) (f0 : FieldDescriptor) (st st1 : LoopState)
    (h : (∃ err, resolveField e ancestor msg f0 st = .fail err st1) ∨
      resolveField e ancestor msg f0 st = .nilField st1) :
    st1.console.selects.length = st.console.selects.length + 1 ∧
    answered e st1.console st.console.selects.length = false := by
  unfold resolveField at h
  split at h
  · next o ho =>
    split at h
    · simp at h
    · cases ha : e.AskOne st.console.selects.length with
      | error err =>
        simp only [ha] at h
        have hst : st1 = afterOneOf ancestor st o := by
          rcases h with ⟨_, h⟩ | h
          · simp only [Resolved.fail.injEq] at h; exact h.2.symm
          · simp at h
        rw [hst]
        exact ⟨by simp [afterOneOf], by simp [answered, ha]⟩
      | ok choice =>
        simp only [ha] at h
        cases hl : optMapLookup o.choices choice with
        | some f1 =>
          simp only [hl] at h
          simp at h
        | none =>
          simp only [hl] at h
          have hst : st1 = afterOneOf ancestor st o := by
            rcases h with ⟨_, h⟩ | h
            · simp at h
            · simp only [Resolved.nilField.injEq] at h; exact h.symm
          rw [hst]
          refine ⟨by simp [afterOneOf], ?_⟩
          simp only [answered, ha, afterOneOf, List.getElem?_concat_length]
          exact optMapLookup_none _ _ hl
  · split at h
    · next en hen =>
      split at h
      · simp at h
      · cases ha : e.AskOne st.console.selects.length with
        | error err =>
          simp only [ha] at h
          have hst : st1 = afterEnum ancestor st en := by
            rcases h with ⟨_, h⟩ | h
            · simp only [Resolved.fail.injEq] at h; exact h.2.symm
            · simp at h
          rw [hst]
          exact ⟨by simp [afterEnum], by simp [answered, ha]⟩
        | ok choice =>
          simp only [ha] at h
          simp at h
    · simp at h

/-- The resolution of a field of `msg` lets a field of `msg` through, and
keeps the questions asked, adding at most one. -/
theorem resolveField_go_mem (e : Env) (ancestor : List String) (msg : MessageDescriptor)
    (f0 f : FieldDescriptor) (st st1 : LoopState) (hf0 : f0 ∈ msg.GetFields)
    (h : resolveField e ancestor msg f0 st = .go f st1) :
    f ∈ msg.GetFields ∧ st.console.selects <+: st1.console.selects := by
  rcases resolveField_go e ancestor msg f0 f st st1 h with
    ⟨o, choice, ho, _, _, hlook, hst1⟩ | ⟨en, _, _, _, _, _, hff, hst1⟩ | ⟨_, _, hff, hst1⟩
  · have hmem := (optMapLookup_some _ _ _ hlook).1
    simp only [GetOneOf] at ho
    split at ho
    · simp at ho
    · simp only [Option.some.injEq] at ho
      rw [← ho] at hmem
      simp only [List.mem_filter] at hmem
      exact ⟨hmem.1, by rw [hst1]; exact List.prefix_append _ _⟩
  · rw [hff, hst1]
    exact ⟨hf0, List.prefix_append _ _⟩
  · rw [hff, hst1]
    exact ⟨hf0, List.prefix_refl _⟩

theorem wellAnswered_mono (e : Env) (c c0 c1 : Console)
    (h : c.selects.length ≤ c0.selects.length) (hw : wellAnswered e c c1) :
    wellAnswered e c0 c1 :=
  fun i hi hlt => hw i (h.trans hi) hlt

theorem not_wellAnswered (e : Env) (c c1 : Console) (i : Nat) (hi : c.selects.length ≤ i)
    (hlt : i < c1.selects.length) (ha : answered e c1 i = false) :
    ¬ wellAnswered e c c1 := by
  intro hw
  rw [hw i hi hlt] at ha
  exact absurd ha (by simp)

/-- The loop of one level returns, when the nested walks do; it returns the
collected fields when the Choice Source has answered every question with an
offered label. -/
theorem inputFieldsLoop_total (e : Env)
    (recur : List String → MessageDescriptor → Nat → Console → Walk) (n : Nat)
    (hrec : ∀ anc m col c, m.wellTyped = true → m.depth ≤ n →
      ∃ r c1, recur anc m col c = some (r, c1) ∧ c.selects <+: c1.selects ∧
        (wellAnswered e c c1 → ∃ fields, r = .ok fields))
    (ancestor : List String) (msg : MessageDescriptor)
    (hmsg : ∀ f ∈ msg.GetFields, f.wellTyped = true ∧ f.depth ≤ n)
    (fs : List FieldDescriptor) :
    ∀ st : LoopState, (∀ f ∈ fs, f ∈ msg.GetFields) →
      ∃ r c1, inputFieldsLoop e recur ancestor msg fs st = some (r, c1) ∧
        st.console.selects <+: c1.selects ∧
        (wellAnswered e st.console c1 → ∃ fields, r = .ok fields) := by
  induction fs with
  | nil =>
    intro st _
    exact ⟨.ok st.input, st.console, by rw [inputFieldsLoop_nil], List.prefix_refl _,
      fun _ => ⟨_, rfl⟩⟩
  | cons f0 rest ih =>
    intro st hfs
    have hf0 : f0 ∈ msg.GetFields := hfs f0 (List.mem_cons_self _ _)
    have hrest : ∀ f ∈ rest, f ∈ msg.GetFields := fun f hf => hfs f (List.mem_cons_of_mem _ hf)
    have hnext : ∀ st2, inputFieldsStep e recur ancestor msg f0 st = .next st2 →
        st.console.selects <+: st2.console.selects →
        ∃ r c1, inputFieldsLoop e recur ancestor msg (f0 :: rest) st = some (r, c1) ∧
          st.console.selects <+: c1.selects ∧
          (wellAnswered e st.console c1 → ∃ fields, r = .ok fields) := by
      intro st2 hs hpre
      obtain ⟨r, c1, h1, h2, h3⟩ := ih st2 hrest
      rw [inputFieldsLoop_cons_next e recur ancestor msg f0 rest st st2 hs]
      exact ⟨r, c1, h1, hpre.trans h2,
        fun hw => h3 (wellAnswered_mono e _ _ _ hpre.length_le hw)⟩
    have hstop : ∀ r c1, inputFieldsStep e recur ancestor msg f0 st = .stop (some (r, c1)) →
        st.console.selects <+: c1.selects → ¬ wellAnswered e st.console c1 →
        ∃ r c1, inputFieldsLoop e recur ancestor msg (f0 :: rest) st = some (r, c1) ∧
          st.console.selects <+: c1.selects ∧
          (wellAnswered e st.console c1 → ∃ fields, r = .ok fields) := by
      intro r c1 hs hpre hna
      rw [inputFieldsLoop_cons_stop e recur ancestor msg f0 rest st _ hs]
      exact ⟨r, c1, rfl, hpre, fun hw => absurd hw hna⟩
    have hbad : ∀ st1, (∃ err, resolveField e ancestor msg f0 st = .fail err st1) ∨
        resolveField e ancestor msg f0 st = .nilField st1 →
        st.console.selects <+: st1.console.selects →
        ¬ wellAnswered e st.console st1.console := by
      intro st1 h _
      obtain ⟨hlen, ha⟩ := resolveField_not_answered e ancestor msg f0 st st1 h
      exact not_wellAnswered e _ _ _ (Nat.le_refl _) (by omega) ha
    have hpre1 : ∀ st1 : LoopState,
        st1.console.selects.length = st.console.selects.length + 1 →
        (∃ q, st1.console.selects = st.console.selects ++ [q]) →
        st.console.selects <+: st1.console.selects := by
      intro st1 _ hq
      obtain ⟨q, hq⟩ := hq
      rw [hq]
      exact List.prefix_append _ _
    cases hr : resolveField e ancestor msg f0 st with
    | skip =>
      exact hnext st (by simp only [inputFieldsStep, hr]) (List.prefix_refl _)
    | fail err st1 =>
      have hp : st.console.selects <+: st1.console.selects := by
        unfold resolveField at hr
        split at hr
        · split at hr
          · simp at hr
          · split at hr
            · simp only [Resolved.fail.injEq] at hr
              rw [← hr.2]
              exact List.prefix_append _ _
            · split at hr <;> simp at hr
        · split at hr
          · split at hr
            · simp at hr
            · split at hr
              · simp only [Resolved.fail.injEq] at hr
                rw [← hr.2]
                exact List.prefix_append _ _
              · simp at hr
          · simp at hr
      exact hstop (.err err) st1.console (by simp only [inputFieldsStep, hr]) hp
        (hbad st1 (Or.inl ⟨err, hr⟩) hp)
    | nilField st1 =>
      have hp : st.console.selects <+: st1.console.selects := by
        unfold resolveField at hr
        split at hr
        · split at hr
          · simp at hr
          · split at hr
            · simp at hr
            · split at hr
              · simp only [Resolved.nilField.injEq] at hr
                rw [← hr]
                exact List.prefix_append _ _
              · simp at hr
        · split at hr
          · split at hr
            · simp at hr
            · split at hr <;> simp at hr
          · simp at hr
      exact hstop .panic st1.console (by simp only [inputFieldsStep, hr]) hp
        (hbad st1 (Or.inr hr) hp)
    | go f st1 =>
      obtain ⟨hfm, hp⟩ := resolveField_go_mem e ancestor msg f0 f st st1 hf0 hr
      by_cases hm : isMessageType f.GetType = true
      · obtain ⟨hwt, hd⟩ := hmsg f hfm
        obtain ⟨nested, hmt, hnw⟩ := wellTyped_field f hwt hm
        have hnd : nested.depth ≤ n := by
          rw [← depth_message f nested hmt]; exact hd
        obtain ⟨r, c1, h1, h2, h3⟩ :=
          hrec (ancestor ++ [f.GetName]) nested st1.color st1.console hnw hnd
        have hna : (∀ fields, r ≠ .ok fields) → ¬ wellAnswered e st.console c1 := by
          intro hne hw
          obtain ⟨fields, hf⟩ := h3 (wellAnswered_mono e _ _ _ hp.length_le hw)
          exact hne fields hf
        cases r with
        | ok fields =>
          exact hnext (afterMessage st1 f fields c1)
            (by simp only [inputFieldsStep, hr, hm, hmt, h1]; rfl)
            (by simpa [afterMessage] using hp.trans h2)
        | err err =>
          exact hstop (.err (.Wrap err "failed to read inputs")) c1
            (by simp only [inputFieldsStep, hr, hm, hmt, h1]; rfl) (hp.trans h2)
            (hna (fun _ => by simp))
        | panic =>
          exact hstop .panic c1
            (by simp only [inputFieldsStep, hr, hm, hmt, h1]; rfl) (hp.trans h2)
            (hna (fun _ => by simp))
      · exact hnext (afterScalar e ancestor st1 f)
          (by simp only [inputFieldsStep, hr, hm]; rfl)
          (by simpa [afterScalar] using hp)

/-- The walker returns when the fuel covers the nesting depth of a schema
whose fields of kind message have message types; it returns the collected
fields when the Choice Source has answered every question of the walk with
an offered label. -/
theorem inputFields_total (e : Env) (fuel : Nat) :
    ∀ (ancestor : List String) (msg : MessageDescriptor) (color : Nat) (c : Console),
      msg.wellTyped = true → msg.depth ≤ fuel →
      ∃ r c1, inputFields e fuel ancestor msg color c = some (r, c1) ∧
        c.selects <+: c1.selects ∧ (wellAnswered e c c1 → ∃ fields, r = .ok fields) := by
  induction fuel with
  | zero =>
    intro ancestor msg color c _ hd
    cases msg with
    | mk q fs => simp [MessageDescriptor.depth] at hd
  | succ fuel ih =>
    intro ancestor msg color c hwt hd
    rw [inputFields]
    cases msg with
    | mk q fs =>
      simp only [MessageDescriptor.wellTyped] at hwt
      simp only [MessageDescriptor.depth] at hd
      exact inputFieldsLoop_total e (inputFields e fuel) fuel ih ancestor (.mk q fs)
        (fun f hf => ⟨wellTypedList_mem fs hwt f hf, by
          have := depthList_mem fs f hf
          omega⟩)
        fs _ (fun f hf => hf)

/-! ## C11: errors of the Choice Source -/

theorem resolveField_fail_console (e : Env) (ancestor : List String) (msg : MessageDescriptor)
    (f : FieldDescriptor)
    (st st1 : LoopState) (err : Error) (h : resolveField e ancestor msg f st = .fail err st1) :
    st1.console.selects.length = st.console.selects.length + 1 := by
  unfold resolveField at h
  split at h
  · split at h
    · simp at h
    · split at h
      · simp only [Resolved.fail.injEq] at h
        rw [← h.2]
        simp [afterOneOf]
      · split at h <;> simp at h
  · split at h
    · split at h
      · simp at h
      · split at h
        · simp only [Resolved.fail.injEq] at h
          rw [← h.2]
          simp [afterEnum]
        · simp at h
    · simp at h

/-- An error of the loop of one level is the error of the last question of
the Choice Source, as it is, or the error of a nested walk, wrapped once. -/
theorem inputFieldsLoop_error_shape (e : Env)
    (recur : List String → MessageDescriptor → Nat → Console → Walk)
    (ancestor : List String) (msg : MessageDescriptor) (fs : List FieldDescriptor) :
    ∀ (st : LoopState) (err : Error) (c1 : Console),
      inputFieldsLoop e recur ancestor msg fs st = some (.err err, c1) →
      (∃ i, e.AskOne i = .error err ∧ c1.selects.length = i + 1) ∨
      (∃ (f : FieldDescriptor) (nested : MessageDescriptor) (color : Nat) (c : Console)
          (err0 : Error),
        recur (ancestor ++ [f.GetName]) nested color c = some (.err err0, c1) ∧
        err = .Wrap err0 "failed to read inputs") := by
  induction fs with
  | nil =>
    intro st err c1 h
    rw [inputFieldsLoop_nil] at h
    simp at h
  | cons f0 rest ih =>
    intro st err c1 h
    cases hs : inputFieldsStep e recur ancestor msg f0 st with
    | next st2 =>
      rw [inputFieldsLoop_cons_next e recur ancestor msg f0 rest st st2 hs] at h
      exact ih st2 err c1 h
    | stop w =>
      rw [inputFieldsLoop_cons_stop e recur ancestor msg f0 rest st w hs] at h
      subst h
      rcases inputFieldsStep_stop_err e recur ancestor msg f0 st err c1 hs with
        ⟨st1, hr, hc⟩ | ⟨f, st1, nested, err0, _, hr, herr⟩
      · left
        refine ⟨_, resolveField_fail e ancestor msg f0 st st1 err hr, ?_⟩
        rw [hc]
        exact resolveField_fail_console e ancestor msg f0 st st1 err hr
      · exact Or.inr ⟨f, nested, _, _, err0, hr, herr⟩

/-- C11, counterexample: in the request `{message m {Color c}}` the Choice
Source fails with the error `interrupted` while the enumeration of the nested
level is resolved; `inputFields` returns that error wrapped, not the error
itself. -/
theorem nested_choice_error_is_wrapped :
    (exEnv [] [.error (.other "interrupted")] exNestedC).AskOne 0 =
      .error (.other "interrupted") ∧
    inputFields (exEnv [] [.error (.other "interrupted")] exNestedC) 2 [] exNestedC DarkGreen
        emptyConsole =
      some (.err (.Wrap (.other "interrupted") "failed to read inputs"), (exAskedColor ["m"])) ∧
    Error.Wrap (.other "interrupted") "failed to read inputs" ≠ .other "interrupted" := by
  refine ⟨rfl, rfl, by decide⟩

/-- C11, amended: if the Choice Source fails with an error `e0` while a
oneof or an enumeration is resolved, the `inputFields` call of the level at
which the resolution takes place returns exactly `e0`; every enclosing call
returns what its nested call returned under one more wrapper "failed to read
inputs". So a call returns `e0`, the answer to the last question asked, under
as many wrappers as the level is deep, and the root cause is that of `e0`. -/
theorem choice_error_wrapped_per_level (e : Env) (fuel : Nat) (ancestor : List String)
    (msg : MessageDescriptor) (color : Nat) (c c1 : Console) (err : Error)
    (h : inputFields e fuel ancestor msg color c = some (.err err, c1)) :
    (∃ d i e0, d < fuel ∧ e.AskOne i = .error e0 ∧ c1.selects.length = i + 1 ∧
      err = wrapN d e0 ∧ err.Cause = e0.Cause) ∧
    ((∃ i, e.AskOne i = .error err ∧ c1.selects.length = i + 1) ∨
      (∃ (k : Nat) (f : FieldDescriptor) (nested : MessageDescriptor) (color0 : Nat)
          (c0 : Console) (err0 : Error), fuel = k + 1 ∧
        inputFields e k (ancestor ++ [f.GetName]) nested color0 c0 = some (.err err0, c1) ∧
        err = .Wrap err0 "failed to read inputs")) := by
  induction fuel generalizing ancestor msg color c c1 err with
  | zero => simp [inputFields] at h
  | succ fuel ih =>
    rw [inputFields] at h
    rcases inputFieldsLoop_error_shape e (inputFields e fuel) ancestor msg _ _ err c1 h with
      ⟨i, hi, hlen⟩ | ⟨f, nested, color0, c0, err0, hr, herr⟩
    · exact ⟨⟨0, i, err, Nat.succ_pos _, hi, hlen, rfl, rfl⟩, Or.inl ⟨i, hi, hlen⟩⟩
    · obtain ⟨⟨d, i, e0, hd, hi, hlen, hw, hcause⟩, _⟩ := ih _ _ _ _ _ _ hr
      refine ⟨⟨d + 1, i, e0, Nat.succ_lt_succ hd, hi, hlen, ?_, ?_⟩,
        Or.inr ⟨fuel, f, nested, color0, c0, err0, rfl, hr, herr⟩⟩
      · rw [herr, hw]; rfl
      · rw [herr]; simpa [Error.Cause] using hcause

/-- Witness of the amended C11: the error `interrupted` of the nested level
of `{message m {Color c}}` arrives under one wrapper. -/
theorem choice_error_wrapped_per_level_witness :
    inputFields (exEnv [] [.error (.other "interrupted")] exNestedC) 2 [] exNestedC DarkGreen
        emptyConsole =
      some (.err (.Wrap (.other "interrupted") "failed to read inputs"), (exAskedColor ["m"])) ∧
    wrapN 1 (.other "interrupted") = .Wrap (.other "interrupted") "failed to read inputs" ∧
    (∃ d i e0, d < 2 ∧
      (exEnv [] [.error (.other "interrupted")] exNestedC).AskOne i = .error e0 ∧
      (exAskedColor ["m"]).selects.length = i + 1 ∧
      Error.Wrap (.other "interrupted") "failed to read inputs" = wrapN d e0 ∧
      (Error.Wrap (.other "interrupted") "failed to read inputs").Cause = e0.Cause) :=
  ⟨rfl, rfl,
    (choice_error_wrapped_per_level (exEnv [] [.error (.other "interrupted")] exNestedC) 2 []
      exNestedC DarkGreen emptyConsole (exAskedColor ["m"])
      (.Wrap (.other "interrupted") "failed to read inputs") rfl).1⟩

/-! ## C12: the endpoint path -/

/-- C12: for all current package, current service and procedure names,
`genEndpoint` returns "/", the package, ".", the service, "/" and the
procedure name, the three strings being taken as they are. -/
theorem genEndpoint_path (e : Env) (rpcName : String) :
    genEndpoint e rpcName =
      "/" ++ e.currentPackage ++ "." ++ e.currentService ++ "/" ++ rpcName := by
  apply String.ext
  simp [genEndpoint, Sprintf, sprintfLoop]

/-! ## C20: the padding width -/

theorem maxLen_foldl (format : String) (fields : List FieldDescriptor) :
    ∀ acc : Nat, acc = 0 ∨ acc = format.utf8ByteSize →
      fields.foldl
          (fun max f =>
            if isMessageType f.GetType then max
            else
              let _prompt :=
                stringsReplace (stringsReplace format "{name}" f.GetName) "{type}"
                  f.GetType.String
              let l := format.utf8ByteSize
              if l > max then l else max)
          acc =
        if fields.any (fun f => !isMessageType f.GetType) then format.utf8ByteSize
        else acc := by
  induction fields with
  | nil => intro acc _; simp
  | cons f rest ih =>
    intro acc hacc
    rw [List.foldl_cons, List.any_cons]
    by_cases hm : isMessageType f.GetType = true
    · simp only [hm, if_true, Bool.not_true, Bool.false_or]
      exact ih acc hacc
    · simp only [Bool.not_eq_true] at hm
      simp only [hm, Bool.false_eq_true, if_false, Bool.not_false, Bool.true_or, if_true]
      have hstep : (if format.utf8ByteSize > acc then format.utf8ByteSize else acc) =
          format.utf8ByteSize := by
        rcases hacc with h0 | h0
        · subst h0
          by_cases hz : format.utf8ByteSize > 0
          · simp [hz]
          · simp only [hz, if_false]; omega
        · rw [h0]; simp
      rw [hstep, ih _ (Or.inr rfl)]
      simp

/-- C20: `maxLen` returns the byte length of the format, as it is before any
replacement, when one of the fields is not of kind message, and 0 otherwise;
the names and the kind strings of the fields do not enter the result. -/
theorem maxLen_eq (fields : List FieldDescriptor) (format : String) :
    maxLen fields format =
      if fields.any (fun f => !isMessageType f.GetType) then format.utf8ByteSize else 0 := by
  unfold maxLen
  exact maxLen_foldl format fields 0 (Or.inl rfl)

/-! ## C14: the kind sfixed64 -/

theorem parseUintLoop_nondigit (maxVal : Nat) (cs : List Char) :
    ∀ n, (∃ c ∈ cs, ¬ isDecDigit c) → (parseUintLoop maxVal cs n).2 ≠ none := by
  induction cs with
  | nil => intro n h; simp at h
  | cons c cs ih =>
    intro n h
    rw [parseUintLoop]
    by_cases hc : '0' ≤ c ∧ c ≤ '9'
    · rw [if_pos hc]
      have hrest : ∃ d ∈ cs, ¬ isDecDigit d := by
        obtain ⟨d, hd, hnd⟩ := h
        rcases List.mem_cons.mp hd with h1 | h1
        · subst h1; exact absurd hc hnd
        · exact ⟨d, h1, hnd⟩
      by_cases hcut : n ≥ cutoff10
      · rw [if_pos hcut]
        simp
      · rw [if_neg hcut]
        simp only
        split_ifs
        · simp
        · exact ih _ hrest
    · rw [if_neg hc]
      simp

theorem ParseUint64_ok_iff (pv : String) (n : Nat) :
    ParseUint pv 64 = (n, none) ↔
      pv.data ≠ [] ∧ (∀ c ∈ pv.data, isDecDigit c) ∧ decValue 0 pv.data < 2 ^ 64 ∧
        n = decValue 0 pv.data := by
  unfold ParseUint parseUintCore
  cases hdata : pv.data with
  | nil => simp
  | cons c cs =>
    simp only
    by_cases hall : ∀ d ∈ c :: cs, isDecDigit d
    · have hloop := parseUintLoop_digits (2 ^ 64 - 1) (by norm_num) (c :: cs) hall 0
        (Nat.zero_le _)
      rw [hloop]
      by_cases hle : decValue 0 (c :: cs) ≤ 2 ^ 64 - 1
      · rw [if_pos hle]
        constructor
        · intro h
          simp only [Prod.mk.injEq, and_true] at h
          refine ⟨by simp, hall, by omega, h.symm⟩
        · rintro ⟨_, _, _, h⟩
          rw [h]
      · rw [if_neg hle]
        constructor
        · intro h; simp at h
        · rintro ⟨_, _, h, _⟩
          omega
    · have hex : ∃ d ∈ c :: cs, ¬ isDecDigit d := by
        push_neg at hall
        exact hall
      have herr := parseUintLoop_nondigit (2 ^ 64 - 1) (c :: cs) 0 hex
      constructor
      · intro h
        rcases hl : parseUintLoop (2 ^ 64 - 1) (c :: cs) 0 with ⟨m, o⟩
        rw [hl] at h herr
        cases o with
        | none => exact absurd rfl herr
        | some k => simp at h
      · rintro ⟨_, h, _, _⟩
        exact absurd h hall

/-- C14: for a Scalar of kind sfixed64 the coercion of `setInput` succeeds
exactly when the raw text is a non-empty string of decimal digits whose value
is below `2^64`, and then yields that value as a `uint64`, not narrowed; a
text with a minus sign is a parse failure. The coercion never panics. -/
theorem coerce_sfixed64 (fl : FloatLib) (pv : String) :
    (∀ v, coerce fl .TYPE_SFIXED64 pv = .ok (v, none) ↔
      (pv.data ≠ [] ∧ (∀ c ∈ pv.data, isDecDigit c) ∧ decValue 0 pv.data < 2 ^ 64 ∧
        v = .uint64 (decValue 0 pv.data))) ∧
    ('-' ∈ pv.data → ∃ v cause,
      coerce fl .TYPE_SFIXED64 pv = .ok (v, some (.NumError "ParseUint" pv cause))) ∧
    (∃ v oe, coerce fl .TYPE_SFIXED64 pv = .ok (v, oe)) := by
  have hco : coerce fl .TYPE_SFIXED64 pv =
      .ok (.uint64 (ParseUint pv 64).1, (ParseUint pv 64).2) := by
    simp [coerce, parseText, narrowValue]
  refine ⟨?_, ?_, ⟨_, _, hco⟩⟩
  · intro v
    rw [hco]
    constructor
    · intro h
      simp only [Res.ok.injEq, Prod.mk.injEq] at h
      have hp : ParseUint pv 64 = ((ParseUint pv 64).1, none) := by
        rw [← h.2]
      obtain ⟨h1, h2, h3, h4⟩ := (ParseUint64_ok_iff pv _).mp hp
      exact ⟨h1, h2, h3, by rw [← h.1, h4]⟩
    · rintro ⟨h1, h2, h3, h4⟩
      have hp := (ParseUint64_ok_iff pv (decValue 0 pv.data)).mpr ⟨h1, h2, h3, rfl⟩
      rw [hp, h4]
  · intro hminus
    rw [hco]
    cases ho : (ParseUint pv 64).2 with
    | some err =>
      obtain ⟨cause, hc⟩ := ParseUint_error pv 64 err ho
      exact ⟨_, cause, by rw [hc]⟩
    | none =>
      exfalso
      have hp : ParseUint pv 64 = ((ParseUint pv 64).1, none) := by
        rw [← ho]
      obtain ⟨_, h2, _, _⟩ := (ParseUint64_ok_iff pv _).mp hp
      exact absurd (h2 '-' hminus) (by decide)

/-- Witness of C14: "18446744073709551615" is accepted as the `uint64` of
that value, "-1" is a parse failure. -/
theorem coerce_sfixed64_witness :
    ("18446744073709551615".data ≠ [] ∧
      (∀ c ∈ "18446744073709551615".data, isDecDigit c) ∧
      decValue 0 "18446744073709551615".data < 2 ^ 64 ∧ '-' ∈ "-1".data) ∧
    coerce exFloatLib .TYPE_SFIXED64 "18446744073709551615" =
      .ok (.uint64 (decValue 0 "18446744073709551615".data), none) ∧
    decValue 0 "18446744073709551615".data = 18446744073709551615 ∧
    ∃ v cause, coerce exFloatLib .TYPE_SFIXED64 "-1" =
      .ok (v, some (.NumError "ParseUint" "-1" cause)) :=
  ⟨⟨by decide, by decide, by decide, by decide⟩,
    ((coerce_sfixed64 exFloatLib "18446744073709551615").1 _).mpr
      ⟨by decide, by decide, by decide, rfl⟩,
    by decide,
    (coerce_sfixed64 exFloatLib "-1").2.1 (by decide)⟩

/-! ## C15: the kinds string and bytes -/

theorem goBytes_toUTF8 (t : String) :
    goBytes t = t.toUTF8.data.toList.map UInt8.toNat := by
  simp only [goBytes, String.toUTF8, List.map_flatMap]

theorem goBytes_length (t : String) : (goBytes t).length = t.utf8ByteSize := by
  rw [goBytes_toUTF8, List.length_map, ← String.size_toUTF8]
  rfl

/-- C15: for every raw text `t` the coercion of a Scalar of kind string does
not fail and yields `t` itself, and the coercion of a Scalar of kind bytes
does not fail and yields the bytes of the UTF-8 encoding of `t`, as many as
the byte length of `t`; `setInput` stores these values in the field. -/
theorem coerce_string_bytes (fl : FloatLib) (t : String) :
    coerce fl .TYPE_STRING t = .ok (.string t, none) ∧
    coerce fl .TYPE_BYTES t = .ok (.bytes (t.toUTF8.data.toList.map UInt8.toNat), none) ∧
    (t.toUTF8.data.toList.map UInt8.toNat).length = t.utf8ByteSize ∧
    (∀ (req : Message) (n : String) (o : Option String) (en : Option EnumDescriptor)
        (mt : Option MessageDescriptor),
      setInput fl req [.primitiveField (baseOf (.mk n .TYPE_STRING o en mt)) t] =
        (req.internalSetField (.mk n .TYPE_STRING o en mt) (.string t), .ok ()) ∧
      setInput fl req [.primitiveField (baseOf (.mk n .TYPE_BYTES o en mt)) t] =
        (req.internalSetField (.mk n .TYPE_BYTES o en mt)
          (.bytes (t.toUTF8.data.toList.map UInt8.toNat)), .ok ())) := by
  have hs : coerce fl .TYPE_STRING t = .ok (.string t, none) := by
    simp [coerce, parseText, narrowValue]
  have hb : coerce fl .TYPE_BYTES t =
      .ok (.bytes (t.toUTF8.data.toList.map UInt8.toNat), none) := by
    simp [coerce, parseText, narrowValue, goBytes_toUTF8]
  refine ⟨hs, hb, ?_, ?_⟩
  · rw [← goBytes_toUTF8]
    exact goBytes_length t
  · intro req n o en mt
    constructor
    · rw [setInput_primitive]
      simp [baseOf, FieldDescriptor.GetType, hs, Message.TrySetField, validFieldValue]
    · rw [setInput_primitive]
      simp [baseOf, FieldDescriptor.GetType, hb, Message.TrySetField, validFieldValue]

/-! ## C16: fields of an enumeration -/

/-- C16: in the request `{Color c; Color d}` the first field constrained by
the enumeration `Color` is, after the question to the Choice Source, asked as
a text and collected as a Scalar of kind enum, which `setInput` can only
reject (`Call` returns `invalid type: 14`); the second field `d` is passed
over. In general a field that is in no oneof, not of kind message, and whose
enumeration is not yet resolved, is prompted and collected after the
question about its enumeration. -/
theorem first_enum_field_is_prompted :
    inputFields (exEnv ["0"] [.ok "RED"] exColorPair) 1 [] exColorPair DarkGreen emptyConsole =
      some (.ok [.primitiveField (baseOf exFieldC) "0"],
        { inputs := [("c (TYPE_ENUM) => ", 3)], selects := (exAskedColor []).selects }) ∧
    (Call (exEnv ["0"] [.ok "RED"] exColorPair) 1 "Rpc").ret =
      .values "" (some (.invalidType .TYPE_ENUM)) ∧
    (∀ (e : Env) (recur : List String → MessageDescriptor → Nat → Console → Walk)
        (ancestor : List String) (msg : MessageDescriptor) (f : FieldDescriptor)
        (st : LoopState) (en : EnumDescriptor) (choice : String),
      f.oneOfName = none → f.GetEnumType = some en →
      st.encounteredEnum.contains en.fqn = false →
      e.AskOne st.console.selects.length = .ok choice →
      isMessageType f.GetType = false →
      inputFieldsStep e recur ancestor msg f st =
        .next (afterScalar e ancestor (afterEnum ancestor st en) f)) := by
  refine ⟨rfl, rfl, ?_⟩
  intro e recur ancestor msg f st en choice ho hen hc hask hm
  have hr : resolveField e ancestor msg f st = .go f (afterEnum ancestor st en) := by
    simp only [resolveField, GetOneOf_none msg f ho, hen, hc, hask]
    rfl
  simp only [inputFieldsStep, hr, hm]
  rfl

/-! ## C17: the label of a prompt -/

/-- C17: in the request `{string s; int64 a}` with the template
`{ancestor}{name} ({type}) => `, the first field is asked with its own label
`s (TYPE_STRING) => `, and the second field `a` is asked with the label of
the first field again instead of its own label `a (TYPE_INT64) => `: the
template has been overwritten by the label of the first field. -/
theorem second_label_repeats_first :
    inputFields (exEnv ["x", "5"] [] exTwoScalars) 1 [] exTwoScalars DarkGreen emptyConsole =
      some (.ok [.primitiveField (baseOf exFieldS) "x", .primitiveField (baseOf exFieldA) "5"],
        { inputs := [("s (TYPE_STRING) => ", 3), ("s (TYPE_STRING) => ", 3)]
          selects := [] }) ∧
    ownLabel (exEnv ["x", "5"] [] exTwoScalars) [] exTwoScalars exFieldS =
      "s (TYPE_STRING) => " ∧
    ownLabel (exEnv ["x", "5"] [] exTwoScalars) [] exTwoScalars exFieldA =
      "a (TYPE_INT64) => " := by
  refine ⟨rfl, by decide, by decide⟩

/-! ## C18: one Collected Field per schema field -/

theorem simple_field (f : FieldDescriptor) (h : f.simple = true) :
    f.oneOfName = none ∧ f.GetEnumType = none ∧
    ((isMessageType f.GetType = true ∧ ∃ m, f.GetMessageType = some m ∧ m.simple = true) ∨
      isMessageType f.GetType = false) := by
  cases f with
  | mk n t o en mt =>
    cases mt with
    | none =>
      simp only [FieldDescriptor.simple, Bool.and_eq_true, Option.isNone_iff_eq_none,
        Bool.not_eq_true'] at h
      exact ⟨h.1.1, h.1.2, Or.inr h.2⟩
    | some m =>
      simp only [FieldDescriptor.simple, Bool.and_eq_true, Option.isNone_iff_eq_none,
        Bool.or_eq_true, Bool.not_eq_true'] at h
      refine ⟨h.1.1, h.1.2, ?_⟩
      by_cases hm : isMessageType t = true
      · rcases h.2 with h2 | h2
        · rw [hm] at h2; simp at h2
        · exact Or.inl ⟨hm, m, rfl, h2⟩
      · exact Or.inr (by simpa using hm)

theorem descOf_mirror (a : Nat → String) (f : FieldDescriptor) (k : Nat) :
    descOf (f.mirror a k) = f := by
  cases f with
  | mk n t o en mt =>
    cases mt with
    | none => simp [FieldDescriptor.mirror, descOf, baseOf]
    | some m =>
      by_cases hm : isMessageType t = true
      · simp [FieldDescriptor.mirror, descOf, baseOf, hm]
      · simp [FieldDescriptor.mirror, descOf, baseOf, hm]

theorem descOf_mirrorList (a : Nat → String) (fs : List FieldDescriptor) :
    ∀ k, (mirrorList a fs k).map descOf = fs := by
  induction fs with
  | nil => intro k; simp [mirrorList]
  | cons f rest ih =>
    intro k
    simp [mirrorList, descOf_mirror, ih]

/-- The loop of the walker over fields without oneof and enumeration
collects their mirror and asks no question. -/
theorem inputFieldsLoop_simple (e : Env)
    (recur : List String → MessageDescriptor → Nat → Console → Walk) (n : Nat)
    (hrec : ∀ anc m col c, m.simple = true → m.depth ≤ n →
      ∃ c1, recur anc m col c = some (.ok (m.mirror e.Input c.inputs.length), c1) ∧
        c1.inputs.length = c.inputs.length + m.leaves.length ∧ c1.selects = c.selects)
    (ancestor : List String) (msg : MessageDescriptor) (fs : List FieldDescriptor) :
    ∀ st : LoopState, simpleList fs = true → depthList fs ≤ n →
      ∃ c1, inputFieldsLoop e recur ancestor msg fs st =
          some (.ok (st.input ++ mirrorList e.Input fs st.console.inputs.length), c1) ∧
        c1.inputs.length = st.console.inputs.length + (leavesList fs).length ∧
        c1.selects = st.console.selects := by
  induction fs with
  | nil =>
    intro st _ _
    exact ⟨st.console, by simp [inputFieldsLoop_nil, mirrorList], by simp [leavesList], rfl⟩
  | cons f rest ih =>
    intro st hp hd
    simp only [simpleList, Bool.and_eq_true] at hp
    simp only [depthList] at hd
    obtain ⟨ho, hen, hkind⟩ := simple_field f hp.1
    rcases hkind with ⟨hm, m, hmt, hmp⟩ | hm
    · have hdm : m.depth ≤ n := by
        have := depth_message f m hmt
        omega
      obtain ⟨c, hr, hlen, hsel⟩ := hrec (ancestor ++ [f.GetName]) m st.color st.console hmp hdm
      have hstep := inputFieldsStep_message e recur ancestor msg f st m _ c ho hen hm hmt hr
      rw [inputFieldsLoop_cons_next e recur ancestor msg f rest st _ hstep]
      obtain ⟨c1, h1, h2, h3⟩ := ih (afterMessage st f _ c) hp.2 (by omega)
      refine ⟨c1, ?_, ?_, ?_⟩
      · rw [h1]
        simp only [afterMessage, mirrorList, mirror_message e.Input f m _ hm hmt,
          leaves_message f m hm hmt, List.length_map, hlen, List.append_assoc,
          List.singleton_append]
      · rw [h2]
        simp only [afterMessage, leavesList, leaves_message f m hm hmt, List.length_append,
          List.length_map, hlen]
        omega
      · rw [h3]
        simp only [afterMessage, hsel]
    · have hstep := inputFieldsStep_scalar e recur ancestor msg f st ho hen hm
      rw [inputFieldsLoop_cons_next e recur ancestor msg f rest st _ hstep]
      obtain ⟨c1, h1, h2, h3⟩ := ih (afterScalar e ancestor st f) hp.2 (by omega)
      refine ⟨c1, ?_, ?_, ?_⟩
      · rw [h1]
        simp only [afterScalar, mirrorList, mirror_scalar e.Input f _ hm, leaves_scalar f hm,
          List.length_append, List.length_singleton, List.append_assoc, List.singleton_append]
      · rw [h2]
        simp only [afterScalar, leavesList, leaves_scalar f hm, List.length_append,
          List.length_singleton]
        omega
      · rw [h3]
        simp only [afterScalar]

/-- C18: for every schema with no oneof and no enumeration field, the walker
(with fuel for the depth of the schema) returns the mirror of the schema: one
Collected Field per field, in declared order, a Composite holding the mirror
of the nested schema for a field of kind message and a Scalar for every other
field; the texts of the Scalars are the answers of the Prompt Source taken
depth first, the descendants of a message field before its next sibling. One
text is requested per leaf and no question is put to the Choice Source. -/
theorem inputFields_mirrors_schema (e : Env) (fuel : Nat) (ancestor : List String)
    (msg : MessageDescriptor) (color : Nat) (c : Console) (hs : msg.simple = true)
    (hfuel : msg.depth ≤ fuel) :
    ∃ c1, inputFields e fuel ancestor msg color c =
        some (.ok (msg.mirror e.Input c.inputs.length), c1) ∧
      (msg.mirror e.Input c.inputs.length).map descOf = msg.GetFields ∧
      c1.inputs.length = c.inputs.length + msg.leaves.length ∧ c1.selects = c.selects := by
  induction fuel generalizing ancestor msg color c with
  | zero =>
    cases msg with
    | mk q fs => simp [MessageDescriptor.depth] at hfuel
  | succ fuel ih =>
    cases msg with
    | mk q fs =>
      simp only [MessageDescriptor.simple] at hs
      simp only [MessageDescriptor.depth] at hfuel
      rw [inputFields]
      simp only [MessageDescriptor.GetFields]
      obtain ⟨c1, h1, h2, h3⟩ := inputFieldsLoop_simple e (inputFields e fuel) fuel
        (fun anc m col c0 hm hdm => by
          obtain ⟨c2, h4, _, h5, h6⟩ := ih anc m col c0 hm hdm
          exact ⟨c2, h4, h5, h6⟩)
        ancestor (.mk q fs) fs
        { input := []
          promptFormat := sprintfPad (maxLen fs e.config.InputPromptFormat)
            e.config.InputPromptFormat
          encounteredOneOf := []
          encounteredEnum := []
          color := color
          console := c } hs (by omega)
      refine ⟨c1, by simpa [MessageDescriptor.mirror] using h1, ?_,
        by simpa [MessageDescriptor.leaves] using h2, h3⟩
      simp [MessageDescriptor.mirror, descOf_mirrorList]

/-- Witness of C18: the request `{string s; message m {int32 n}}` with the
answers "hello" and "7". -/
theorem inputFields_mirrors_schema_witness :
    (exRequest.simple = true ∧ exRequest.depth ≤ 2 ∧
      exRequest.mirror exHelloEnv.Input 0 =
        [.primitiveField (baseOf exFieldS) "hello",
         .messageField (baseOf (.mk "m" .TYPE_MESSAGE none none (some exInner)))
           [.primitiveField (baseOf exFieldN) "7"]]) ∧
    ∃ c1, inputFields exHelloEnv 2 [] exRequest DarkGreen emptyConsole =
        some (.ok (exRequest.mirror exHelloEnv.Input emptyConsole.inputs.length), c1) ∧
      (exRequest.mirror exHelloEnv.Input emptyConsole.inputs.length).map descOf =
        exRequest.GetFields ∧
      c1.inputs.length = emptyConsole.inputs.length + exRequest.leaves.length ∧
      c1.selects = emptyConsole.selects :=
  ⟨⟨by decide, by decide, rfl⟩,
    inputFields_mirrors_schema exHelloEnv 2 [] exRequest DarkGreen emptyConsole (by decide)
      (by decide)⟩

/-! ## C19: the questions of one schema level -/

theorem mem_firstOccurrences (l : List Subject) : ∀ x, x ∈ firstOccurrences l ↔ x ∈ l := by
  induction l with
  | nil => intro x; simp [firstOccurrences]
  | cons s l ih =>
    intro x
    simp only [firstOccurrences, List.mem_cons, List.mem_filter, ih, bne_iff_ne, ne_eq]
    by_cases h : x = s
    · simp [h]
    · simp [h]

theorem nodup_firstOccurrences (l : List Subject) : (firstOccurrences l).Nodup := by
  induction l with
  | nil => simp [firstOccurrences]
  | cons s l ih =>
    simp only [firstOccurrences, List.nodup_cons, List.mem_filter, bne_self_eq_false,
      Bool.false_eq_true, and_false, not_false_eq_true, true_and]
    exact ih.filter _

theorem pendingSubjects_nil (l : List Subject) : pendingSubjects [] l = firstOccurrences l := by
  simp [pendingSubjects]

theorem pendingSubjects_cons_seen (seen l : List Subject) (s : Subject) (h : s ∈ seen) :
    pendingSubjects seen (s :: l) = pendingSubjects seen l := by
  have hs : seen.contains s = true := List.elem_iff.mpr h
  simp only [pendingSubjects, firstOccurrences, List.filter_cons, hs, Bool.not_true,
    Bool.false_eq_true, if_false, List.filter_filter]
  apply List.filter_congr
  intro x _
  by_cases hx : x ∈ seen
  · simp [hx]
  · have hne : x ≠ s := by
      intro hc
      rw [hc] at hx
      exact hx h
    simp [hx, hne]

theorem pendingSubjects_cons_new (seen seen1 l : List Subject) (s : Subject) (h : s ∉ seen)
    (h1 : ∀ x, x ∈ seen1 ↔ x = s ∨ x ∈ seen) :
    pendingSubjects seen (s :: l) = s :: pendingSubjects seen1 l := by
  have hs : seen.contains s = false := by
    cases hc : seen.contains s with
    | false => rfl
    | true => exact absurd (List.elem_iff.mp hc) h
  simp only [pendingSubjects, firstOccurrences, List.filter_cons, hs, Bool.not_false, if_true,
    List.filter_filter]
  congr 1
  apply List.filter_congr
  intro x _
  by_cases hxs : x = s
  · have hm : s ∈ seen1 := (h1 s).mpr (Or.inl rfl)
    simp [hm, hxs]
  · by_cases hx : x ∈ seen
    · have hm : x ∈ seen1 := (h1 x).mpr (Or.inr hx)
      simp [hm, hx]
    · have hn1 : x ∉ seen1 := by
        intro hc
        rcases (h1 x).mp hc with h2 | h2
        · exact hxs h2
        · exact hx h2
      simp [hx, hn1, hxs]

theorem mem_seenSubjects (st : LoopState) (x : Subject) :
    x ∈ seenSubjects st ↔
      (∃ k ∈ st.encounteredOneOf, x = .oneOf k) ∨ (∃ q ∈ st.encounteredEnum, x = .enum q) := by
  simp only [seenSubjects, List.mem_append, List.mem_map]
  constructor
  · rintro (⟨k, hk, rfl⟩ | ⟨q, hq, rfl⟩)
    · exact Or.inl ⟨k, hk, rfl⟩
    · exact Or.inr ⟨q, hq, rfl⟩
  · rintro (⟨k, hk, rfl⟩ | ⟨q, hq, rfl⟩)
    · exact Or.inl ⟨k, hk, rfl⟩
    · exact Or.inr ⟨q, hq, rfl⟩

/-- A skipped field is a field whose oneof or enumeration has been
encountered. -/
theorem resolveField_skip_subject (e : Env) (ancestor : List String) (msg : MessageDescriptor)
    (f0 : FieldDescriptor)
    (st : LoopState) (h : resolveField e ancestor msg f0 st = .skip) :
    ∃ s, subjectOf msg f0 = some s ∧ s ∈ seenSubjects st := by
  rcases resolveField_skip e ancestor msg f0 st h with ⟨o, ho, hc⟩ | ⟨en, ho, hen, hc⟩
  · refine ⟨.oneOf o.fqn, by simp [subjectOf, ho], ?_⟩
    rw [mem_seenSubjects]
    exact Or.inl ⟨o.fqn, List.elem_iff.mp hc, rfl⟩
  · refine ⟨.enum en.fqn, by simp [subjectOf, ho, hen], ?_⟩
    rw [mem_seenSubjects]
    exact Or.inr ⟨en.fqn, List.elem_iff.mp hc, rfl⟩

theorem not_mem_of_contains_false (l : List String) (k : String) (h : l.contains k = false) :
    k ∉ l := by
  intro hc
  have h4 : l.contains k = true := List.elem_iff.mpr hc
  rw [h4] at h
  exact absurd h (by simp)

/-- What the resolution of the field `f0` asks, when it lets the field `f`
through. -/
theorem resolveField_go_subject (e : Env) (ancestor : List String) (msg : MessageDescriptor)
    (f0 f : FieldDescriptor) (st st1 : LoopState) (hf0 : f0 ∈ msg.GetFields)
    (h : resolveField e ancestor msg f0 st = .go f st1) :
    f ∈ msg.GetFields ∧
    ((∃ s, subjectOf msg f0 = some s ∧ s ∉ seenSubjects st ∧
        (∃ q : Select, q.subject = s ∧ q.level = ancestor ∧
          st1.console.selects = st.console.selects ++ [q]) ∧
        ∀ x, x ∈ seenSubjects st1 ↔ x = s ∨ x ∈ seenSubjects st) ∨
      (subjectOf msg f0 = none ∧ st1 = st)) := by
  rcases resolveField_go e ancestor msg f0 f st st1 h with
    ⟨o, choice, ho, hc, _, hlook, hst1⟩ | ⟨en, _, ho, hen, hc, _, hff, hst1⟩ |
      ⟨ho, hen, hff, hst1⟩
  · obtain ⟨g0, _, _, _, hch⟩ := GetOneOf_some msg f0 o ho
    obtain ⟨hmem, _⟩ := optMapLookup_some _ _ _ hlook
    rw [hch] at hmem
    simp only [groupChoices, List.mem_filter] at hmem
    refine ⟨hmem.1, Or.inl ⟨.oneOf o.fqn, by simp [subjectOf, ho], ?_, ?_, ?_⟩⟩
    · rw [mem_seenSubjects]
      rintro (⟨k, hk, hx⟩ | ⟨q, _, hx⟩)
      · simp only [Subject.oneOf.injEq] at hx
        rw [← hx] at hk
        exact not_mem_of_contains_false _ _ hc hk
      · simp at hx
    · rw [hst1]
      exact ⟨{ subject := .oneOf o.fqn, level := ancestor, Message := o.name
               Options := o.choices.map FieldDescriptor.GetName }, rfl, rfl, rfl⟩
    · intro x
      rw [hst1, mem_seenSubjects, mem_seenSubjects]
      simp only [afterOneOf, List.mem_cons]
      constructor
      · rintro (⟨k, hk | hk, hx⟩ | ⟨q, hq, hx⟩)
        · left; rw [hx, hk]
        · exact Or.inr (Or.inl ⟨k, hk, hx⟩)
        · exact Or.inr (Or.inr ⟨q, hq, hx⟩)
      · rintro (hx | ⟨k, hk, hx⟩ | ⟨q, hq, hx⟩)
        · exact Or.inl ⟨o.fqn, Or.inl rfl, hx⟩
        · exact Or.inl ⟨k, Or.inr hk, hx⟩
        · exact Or.inr ⟨q, hq, hx⟩
  · subst hff
    refine ⟨hf0, Or.inl ⟨.enum en.fqn, by simp [subjectOf, ho, hen], ?_, ?_, ?_⟩⟩
    · rw [mem_seenSubjects]
      rintro (⟨k, _, hx⟩ | ⟨q, hq, hx⟩)
      · simp at hx
      · simp only [Subject.enum.injEq] at hx
        rw [← hx] at hq
        exact not_mem_of_contains_false _ _ hc hq
    · rw [hst1]
      exact ⟨{ subject := .enum en.fqn, level := ancestor, Message := en.name
               Options := en.values.map EnumValueDescriptor.name }, rfl, rfl, rfl⟩
    · intro x
      rw [hst1, mem_seenSubjects, mem_seenSubjects]
      simp only [afterEnum, List.mem_cons]
      constructor
      · rintro (⟨k, hk, hx⟩ | ⟨q, hq | hq, hx⟩)
        · exact Or.inr (Or.inl ⟨k, hk, hx⟩)
        · left; rw [hx, hq]
        · exact Or.inr (Or.inr ⟨q, hq, hx⟩)
      · rintro (hx | ⟨k, hk, hx⟩ | ⟨q, hq, hx⟩)
        · exact Or.inr ⟨en.fqn, Or.inl rfl, hx⟩
        · exact Or.inl ⟨k, hk, hx⟩
        · exact Or.inr ⟨q, Or.inr hq, hx⟩
  · subst hff
    exact ⟨hf0, Or.inr ⟨by simp [subjectOf, ho, hen], hst1⟩⟩

/-- The questions of a turn of the loop are put at the level of the
invocation or, by the nested walk, at a deeper level. -/
theorem levels_step (e : Env)
    (recur : List String → MessageDescriptor → Nat → Console → Walk)
    (hrec : ∀ anc m col c fields c1, recur anc m col c = some (.ok fields, c1) →
      ∃ ext, c1.selects = c.selects ++ ext ∧ ∀ q ∈ ext, anc.length ≤ q.level.length)
    (ancestor : List String) (msg : MessageDescriptor) (f0 : FieldDescriptor)
    (st st2 : LoopState) (h : inputFieldsStep e recur ancestor msg f0 st = .next st2) :
    ∃ ext, st2.console.selects = st.console.selects ++ ext ∧
      ∀ q ∈ ext, ancestor.length ≤ q.level.length := by
  have hres : ∀ f st1, resolveField e ancestor msg f0 st = .go f st1 →
      ∃ ext, st1.console.selects = st.console.selects ++ ext ∧
        ∀ q ∈ ext, ancestor.length ≤ q.level.length := by
    intro f st1 hr
    rcases resolveField_go e ancestor msg f0 f st st1 hr with
      ⟨o, _, _, _, _, _, hst1⟩ | ⟨en, _, _, _, _, _, _, hst1⟩ | ⟨_, _, _, hst1⟩
    · rw [hst1]
      exact ⟨_, rfl, by simp⟩
    · rw [hst1]
      exact ⟨_, rfl, by simp⟩
    · rw [hst1]
      exact ⟨[], by simp, by simp⟩
  rcases inputFieldsStep_next e recur ancestor msg f0 st st2 h with
    ⟨_, hst2⟩ | ⟨f, st1, hr, _, hst2⟩ | ⟨f, st1, nested, fields, c, hr, _, _, hrc, hst2⟩
  · rw [hst2]
    exact ⟨[], by simp, by simp⟩
  · rw [hst2]
    simpa [afterScalar] using hres f st1 hr
  · obtain ⟨ext1, h1, h2⟩ := hres f st1 hr
    obtain ⟨ext2, h3, h4⟩ := hrec _ _ _ _ _ _ hrc
    rw [hst2]
    refine ⟨ext1 ++ ext2, by simp [afterMessage, h3, h1], ?_⟩
    intro q hq
    rcases List.mem_append.mp hq with h5 | h5
    · exact h2 q h5
    · have := h4 q h5
      simp only [List.length_append, List.length_singleton] at this
      omega

/-- The questions of a walk that returns its collected fields are put at the
level of the invocation or at a deeper level. -/
theorem inputFields_levels (e : Env) (fuel : Nat) :
    ∀ (ancestor : List String) (msg : MessageDescriptor) (color : Nat) (c : Console)
      (fields : List fieldable) (c1 : Console),
      inputFields e fuel ancestor msg color c = some (.ok fields, c1) →
      ∃ ext, c1.selects = c.selects ++ ext ∧
        ∀ q ∈ ext, ancestor.length ≤ q.level.length := by
  induction fuel with
  | zero => intro ancestor msg color c fields c1 h; simp [inputFields] at h
  | succ fuel ih =>
    intro ancestor msg color c fields c1 h
    rw [inputFields] at h
    obtain ⟨stf, hI, _, hc⟩ := inputFieldsLoop_ok_invariant e (inputFields e fuel) ancestor msg
      (fun _ s => ∃ ext, s.console.selects = c.selects ++ ext ∧
        ∀ q ∈ ext, ancestor.length ≤ q.level.length)
      (fun f0 rest s s2 hI hs => by
        obtain ⟨ext, h1, h2⟩ := hI
        obtain ⟨ext2, h3, h4⟩ := levels_step e (inputFields e fuel) ih ancestor msg f0 s s2 hs
        refine ⟨ext ++ ext2, by rw [h3, h1, List.append_assoc], ?_⟩
        intro q hq
        rcases List.mem_append.mp hq with h5 | h5
        · exact h2 q h5
        · exact h4 q h5)
      _ _ fields c1 ⟨[], by simp, by simp⟩ h
    rw [← hc]
    exact hI

theorem ownQuestions_append (ancestor : List String) (c c1 : Console) (ext : List Select)
    (h : c1.selects = c.selects ++ ext) :
    ownQuestions ancestor c c1 = ext.filter (fun q => q.level == ancestor) := by
  simp [ownQuestions, h]

theorem filter_deeper (ancestor : List String) (name : String) (ext : List Select)
    (h : ∀ q ∈ ext, (ancestor ++ [name]).length ≤ q.level.length) :
    ext.filter (fun q => q.level == ancestor) = [] := by
  rw [List.filter_eq_nil_iff]
  intro q hq hl
  have h1 := h q hq
  have h2 : q.level = ancestor := by simpa using hl
  rw [h2] at h1
  simp at h1

/-- The loop of one schema level itself asks about the pending oneofs and
enumerations of the remaining fields, in the order of their first
occurrence. -/
theorem inputFieldsLoop_subjects (e : Env)
    (recur : List String → MessageDescriptor → Nat → Console → Walk)
    (hrec : ∀ anc m col c fields c1, recur anc m col c = some (.ok fields, c1) →
      ∃ ext, c1.selects = c.selects ++ ext ∧ ∀ q ∈ ext, anc.length ≤ q.level.length)
    (ancestor : List String) (msg : MessageDescriptor)
    (fs : List FieldDescriptor) (hfs : ∀ f ∈ fs, f ∈ msg.GetFields)
    (st : LoopState) (fields : List fieldable) (c : Console)
    (h : inputFieldsLoop e recur ancestor msg fs st = some (.ok fields, c)) :
    (ownQuestions ancestor st.console c).map Select.subject =
      pendingSubjects (seenSubjects st) (fs.filterMap (subjectOf msg)) := by
  obtain ⟨stf, hI, _, hc⟩ := inputFieldsLoop_ok_invariant e recur ancestor msg
    (fun gs s => (∀ f ∈ gs, f ∈ msg.GetFields) ∧
      ∃ ext, s.console.selects = st.console.selects ++ ext ∧
        (ext.filter (fun q => q.level == ancestor)).map Select.subject ++
            pendingSubjects (seenSubjects s) (gs.filterMap (subjectOf msg)) =
          pendingSubjects (seenSubjects st) (fs.filterMap (subjectOf msg)))
    (fun f0 rest s s2 hI hstep => by
      obtain ⟨hmem, ext, hext, htot⟩ := hI
      have hf0 : f0 ∈ msg.GetFields := hmem f0 (List.mem_cons_self _ _)
      refine ⟨fun f hf => hmem f (List.mem_cons_of_mem _ hf), ?_⟩
      rw [← htot]
      have hgo : ∀ f s1 ext2, resolveField e ancestor msg f0 s = .go f s1 →
          s2.console.selects = s1.console.selects ++ ext2 →
          ext2.filter (fun q => q.level == ancestor) = [] →
          seenSubjects s2 = seenSubjects s1 →
          ∃ ext3, s2.console.selects = st.console.selects ++ ext3 ∧
            (ext3.filter (fun q => q.level == ancestor)).map Select.subject ++
                pendingSubjects (seenSubjects s2) (rest.filterMap (subjectOf msg)) =
              (ext.filter (fun q => q.level == ancestor)).map Select.subject ++
                pendingSubjects (seenSubjects s) ((f0 :: rest).filterMap (subjectOf msg)) := by
        intro f s1 ext2 hr hsel hdeep hseen
        rw [hseen]
        rcases (resolveField_go_subject e ancestor msg f0 f s s1 hf0 hr).2 with
          ⟨sub, hsub, hnew, ⟨q, hq1, hq2, hq3⟩, hseen1⟩ | ⟨hsub, hs1⟩
        · refine ⟨ext ++ [q] ++ ext2, by rw [hsel, hq3, hext]; simp, ?_⟩
          rw [List.filterMap_cons_some hsub,
            pendingSubjects_cons_new _ (seenSubjects s1) _ sub hnew hseen1]
          simp [List.filter_append, hdeep, hq1, hq2]
        · refine ⟨ext ++ ext2, by rw [hsel, hs1, hext]; simp, ?_⟩
          rw [List.filterMap_cons_none hsub, hs1]
          simp [List.filter_append, hdeep]
      rcases inputFieldsStep_next e recur ancestor msg f0 s s2 hstep with
        ⟨hr, h2⟩ | ⟨f, s1, hr, _, h2⟩ | ⟨f, s1, nested, fl, c2, hr, hm, hmt, hrc, h2⟩
      · obtain ⟨sub, hsub, hseen⟩ := resolveField_skip_subject e ancestor msg f0 s hr
        rw [h2, List.filterMap_cons_some hsub, pendingSubjects_cons_seen _ _ sub hseen]
        exact ⟨ext, hext, rfl⟩
      · exact hgo f s1 [] hr (by rw [h2]; simp [afterScalar]) rfl
          (by rw [h2]; simp [afterScalar, seenSubjects])
      · obtain ⟨ext2, h3, h4⟩ := hrec _ _ _ _ _ _ hrc
        exact hgo f s1 ext2 hr (by rw [h2]; simp [afterMessage, h3])
          (filter_deeper ancestor f.GetName ext2 h4)
          (by rw [h2]; simp [afterMessage, seenSubjects]))
    fs st fields c ⟨hfs, [], by simp, by simp⟩ h
  obtain ⟨_, ext, hext, htot⟩ := hI
  simp only [List.filterMap_nil, pendingSubjects, firstOccurrences, List.filter_nil,
    List.append_nil] at htot
  rw [hc] at hext
  rw [ownQuestions_append ancestor st.console c ext hext]
  exact htot

/-- The invocation of the walker itself asks once about every distinct oneof
and enumeration of the fields of its level, in the order of their first
occurrence, when it returns its collected fields. -/
theorem inputFields_own_subjects (e : Env) (fuel : Nat) (ancestor : List String)
    (msg : MessageDescriptor) (color : Nat) (c c1 : Console) (fields : List fieldable)
    (hw : inputFields e fuel ancestor msg color c = some (.ok fields, c1)) :
    (ownQuestions ancestor c c1).map Select.subject = levelSubjects msg := by
  cases fuel with
  | zero => simp [inputFields] at hw
  | succ fuel =>
    rw [inputFields] at hw
    have := inputFieldsLoop_subjects e (inputFields e fuel) (inputFields_levels e fuel)
      ancestor msg msg.GetFields (fun _ hf => hf) _ fields c1 hw
    rw [this]
    simp [seenSubjects, pendingSubjects, levelSubjects]

/-- A field whose oneof or enumeration is marked as encountered leaves the
state of the loop as it is. -/
theorem inputFieldsStep_encountered (e : Env)
    (recur : List String → MessageDescriptor → Nat → Console → Walk)
    (ancestor : List String) (msg : MessageDescriptor) (f : FieldDescriptor) (st : LoopState)
    (h : (∃ o, GetOneOf msg f = some o ∧ st.encounteredOneOf.contains o.fqn = true) ∨
      (GetOneOf msg f = none ∧
        ∃ en, f.GetEnumType = some en ∧ st.encounteredEnum.contains en.fqn = true)) :
    inputFieldsStep e recur ancestor msg f st = .next st := by
  have hr : resolveField e ancestor msg f st = .skip := by
    rcases h with ⟨o, ho, hc⟩ | ⟨ho, en, hen, hc⟩
    · simp only [resolveField, ho, hc]
      rfl
    · simp only [resolveField, ho, hen, hc]
      rfl
  simp only [inputFieldsStep, hr]

/-- C19: the invocation of the walker for a schema level returns when the
fuel covers the nesting depth (the fields of kind message having message
types), and it returns its collected fields when the Choice Source answers
every question with an offered label. When it returns its collected fields,
the questions that it has itself put to the Choice Source, those of the
nested invocations left out, are exactly one per distinct oneof and per
distinct enumeration of the fields of the level outside a oneof, in the order
of their first occurrence: the list of these subjects has no repetition and
holds exactly the oneofs and enumerations of the fields. A field whose oneof
or enumeration has been encountered leaves the state of the loop as it is: no
question, no prompt, no Collected Field. -/
theorem level_asks_once (e : Env) (fuel : Nat) (ancestor : List String)
    (msg : MessageDescriptor) (color : Nat) (c : Console)
    (hwt : msg.wellTyped = true) (hfuel : msg.depth ≤ fuel) :
    (∃ r c1, inputFields e fuel ancestor msg color c = some (r, c1) ∧
      (wellAnswered e c c1 → ∃ fields, r = .ok fields)) ∧
    (∀ fields c1, inputFields e fuel ancestor msg color c = some (.ok fields, c1) →
      (ownQuestions ancestor c c1).map Select.subject = levelSubjects msg) ∧
    (levelSubjects msg).Nodup ∧
    (∀ s, s ∈ levelSubjects msg ↔ ∃ f ∈ msg.GetFields, subjectOf msg f = some s) ∧
    ∀ recur anc f (st : LoopState),
      ((∃ o, GetOneOf msg f = some o ∧ st.encounteredOneOf.contains o.fqn = true) ∨
        (GetOneOf msg f = none ∧
          ∃ en, f.GetEnumType = some en ∧ st.encounteredEnum.contains en.fqn = true)) →
      inputFieldsStep e recur anc msg f st = .next st := by
  refine ⟨?_, ?_, nodup_firstOccurrences _, ?_, ?_⟩
  · obtain ⟨r, c1, h1, _, h3⟩ := inputFields_total e fuel ancestor msg color c hwt hfuel
    exact ⟨r, c1, h1, h3⟩
  · intro fields c1 hw
    exact inputFields_own_subjects e fuel ancestor msg color c c1 fields hw
  · intro s
    rw [levelSubjects, mem_firstOccurrences]
    simp only [List.mem_filterMap]
  · intro recur anc f st h
    exact inputFieldsStep_encountered e recur anc msg f st h

/-- Witness of C19: the request `{oneof id {email; phone}; Color c; message m
{Color c}; Color d}` with the choices "phone", "RED" and "BLUE": the level
itself asks one question about `id` and one about `Color`; the nested level
`m` asks about `Color` again, which is not counted. -/
theorem level_asks_once_witness :
    (exSurveyNested.wellTyped = true ∧ exSurveyNested.depth ≤ 2 ∧
      inputFields (exEnv ["5551234", "0", "1"] [.ok "phone", .ok "RED", .ok "BLUE"]
          exSurveyNested) 2 [] exSurveyNested DarkGreen emptyConsole =
        some (.ok [.primitiveField (baseOf (.mk "phone" .TYPE_INT64 (some "id") none none))
                    "5551234",
                   .primitiveField (baseOf exFieldC) "0",
                   .messageField (baseOf (.mk "m" .TYPE_MESSAGE none none (some exOnlyC)))
                     [.primitiveField (baseOf exFieldC) "1"]],
              { inputs := [("phone (TYPE_INT64) => ", 3), ("phone (TYPE_INT64) => ", 3),
                  ("@mc (TYPE_ENUM) => ", 3)]
                selects := [groupQuestion [] exSurveyNested "id",
                  { subject := .enum "pkg.Color", level := [], Message := "Color",
                    Options := ["RED", "BLUE"] },
                  { subject := .enum "pkg.Color", level := ["m"], Message := "Color",
                    Options := ["RED", "BLUE"] }] }) ∧
      levelSubjects exSurveyNested =
        [.oneOf (groupKey exSurveyNested "id"), .enum "pkg.Color"]) ∧
    (ownQuestions [] emptyConsole
        { inputs := [("phone (TYPE_INT64) => ", 3), ("phone (TYPE_INT64) => ", 3),
            ("@mc (TYPE_ENUM) => ", 3)]
          selects := [groupQuestion [] exSurveyNested "id",
            { subject := .enum "pkg.Color", level := [], Message := "Color",
              Options := ["RED", "BLUE"] },
            { subject := .enum "pkg.Color", level := ["m"], Message := "Color",
              Options := ["RED", "BLUE"] }] }).map Select.subject =
      levelSubjects exSurveyNested :=
  ⟨⟨by decide, by decide, rfl, rfl⟩,
    (level_asks_once (exEnv ["5551234", "0", "1"] [.ok "phone", .ok "RED", .ok "BLUE"]
      exSurveyNested) 2 [] exSurveyNested DarkGreen emptyConsole (by decide)
      (by decide)).2.1 _ _ rfl⟩

/-! ## C13: the order of the Collected Fields -/

theorem sameFields_refl (m : Message) : m.sameFields m := ⟨rfl, fun _ => rfl⟩

theorem sameFields_trans (m1 m2 m3 : Message) (h1 : m1.sameFields m2)
    (h2 : m2.sameFields m3) : m1.sameFields m3 :=
  ⟨h1.1.trans h2.1, fun k => (h1.2 k).trans (h2.2 k)⟩

theorem storeIf_md (m : Message) (fd : FieldDescriptor) (ov : Option GoValue) :
    (m.storeIf fd ov).md = m.md := by
  cases ov with
  | none => rfl
  | some v => exact internalSetField_md m fd v

/-- Two stores into the same message leave the same message. -/
theorem storeIf_congr (m m1 : Message) (fd : FieldDescriptor) (ov : Option GoValue)
    (h : m.sameFields m1) : (m.storeIf fd ov).sameFields (m1.storeIf fd ov) := by
  cases ov with
  | none => exact h
  | some v =>
    refine ⟨by simp only [Message.storeIf, internalSetField_md, h.1], fun k => ?_⟩
    simp only [Message.storeIf]
    by_cases hk : k = fd.GetName
    · rw [hk, lookup_internalSetField, lookup_internalSetField]
    · rw [lookup_internalSetField_other m fd v k hk, lookup_internalSetField_other m1 fd v k hk,
        h.1, h.2 k]

/-- The stores of two independent fields commute. -/
theorem storeIf_comm (m : Message) (a b : FieldDescriptor) (oa ob : Option GoValue)
    (hne : a.GetName ≠ b.GetName) (h1 : (clearedBy m.md a).contains b.GetName = false)
    (h2 : (clearedBy m.md b).contains a.GetName = false) :
    ((m.storeIf a oa).storeIf b ob).sameFields ((m.storeIf b ob).storeIf a oa) := by
  cases oa with
  | none => exact sameFields_refl _
  | some va =>
    cases ob with
    | none => exact sameFields_refl _
    | some vb =>
      refine ⟨by simp only [Message.storeIf, internalSetField_md], fun k => ?_⟩
      simp only [Message.storeIf]
      by_cases hka : k = a.GetName
      · rw [hka, lookup_internalSetField_other _ b vb _ hne, internalSetField_md, h2,
          lookup_internalSetField, lookup_internalSetField]
        rfl
      · by_cases hkb : k = b.GetName
        · rw [hkb, lookup_internalSetField, lookup_internalSetField_other _ a va _ (Ne.symm hne),
            internalSetField_md, h1, lookup_internalSetField]
          rfl
        · rw [lookup_internalSetField_other _ b vb k hkb,
            lookup_internalSetField_other _ a va k hka,
            lookup_internalSetField_other _ a va k hka,
            lookup_internalSetField_other _ b vb k hkb, internalSetField_md,
            internalSetField_md]
          split_ifs <;> rfl

/-- The assembly of one Collected Field either fails with an outcome that
does not depend on the message, or is a store that does not depend on it. -/
theorem setInputField_effect (fl : FloatLib) (y : fieldable) :
    (∃ r, r ≠ .ok () ∧ ∀ req, (setInputField fl req y).2 = r) ∨ Stores fl y := by
  cases y with
  | primitiveField b pv =>
    cases hc : coerce fl b.descType pv with
    | panic => exact Or.inl ⟨.panic, by simp, fun req => by simp [setInputField, hc]⟩
    | err e => exact Or.inl ⟨.err e, by simp, fun req => by simp [setInputField, hc]⟩
    | ok p =>
      obtain ⟨v, oe⟩ := p
      cases oe with
      | some e => exact Or.inl ⟨.err e, by simp, fun req => by simp [setInputField, hc]⟩
      | none =>
        by_cases hv : validFieldValue b.desc.GetType v = true
        · exact Or.inr ⟨some v, fun req => by
            simp [setInputField, hc, Message.TrySetField, hv, Message.storeIf, descOf]⟩
        · exact Or.inl ⟨.err (.typeError b.desc.GetName b.desc.GetType), by simp, fun req => by
            simp [setInputField, hc, Message.TrySetField, hv]⟩
  | messageField b val =>
    cases hmt : b.desc.GetMessageType with
    | none => exact Or.inl ⟨.panic, by simp, fun req => by simp [setInputField, hmt]⟩
    | some md =>
      rcases hs : setInput fl (NewMessage md) val with ⟨msg, r⟩
      cases r with
      | panic => exact Or.inl ⟨.panic, by simp, fun req => by simp [setInputField, hmt, hs]⟩
      | err e => exact Or.inl ⟨.err e, by simp, fun req => by simp [setInputField, hmt, hs]⟩
      | ok u =>
        cases u
        by_cases hv : validFieldValue b.desc.GetType (.message msg) = true
        · exact Or.inr ⟨some (.message msg), fun req => by
            simp [setInputField, hmt, hs, Message.SetField, Message.TrySetField, hv,
              Message.storeIf, descOf]⟩
        · exact Or.inl ⟨.panic, by simp, fun req => by
            simp [setInputField, hmt, hs, Message.SetField, Message.TrySetField, hv]⟩
  | oneOfField b =>
    exact Or.inr ⟨none, fun req => by simp [setInputField, Message.storeIf]⟩

/-- The assembly of a list succeeds exactly when the assembly of each of its
Collected Fields does. -/
theorem setInput_ok_iff_stores (fl : FloatLib) (ys : List fieldable) :
    ∀ req, (setInput fl req ys).2 = .ok () ↔ ∀ y ∈ ys, Stores fl y := by
  induction ys with
  | nil => intro req; simp [setInput_nil]
  | cons y ys ih =>
    intro req
    rcases setInputField_effect fl y with ⟨r, hr, hall⟩ | hst
    · have hl : (setInput fl req (y :: ys)).2 ≠ .ok () := by
        rcases setInputField_cases fl req y with ⟨q, hq⟩ | ⟨q, e, hq⟩ | ⟨q, hq⟩
        · have := hall req
          rw [hq] at this
          exact absurd this.symm hr
        · rw [setInput_cons_err fl req q y ys e hq]; simp
        · rw [setInput_cons_panic fl req q y ys hq]; simp
      constructor
      · intro h; exact absurd h hl
      · intro h
        obtain ⟨ov, hov⟩ := h y (List.mem_cons_self _ _)
        have := hall req
        rw [hov req] at this
        exact absurd this.symm hr
    · obtain ⟨ov, hov⟩ := hst
      rw [setInput_cons_ok fl req _ y ys (hov req), ih, List.forall_mem_cons]
      exact ⟨fun h => ⟨⟨ov, hov⟩, h⟩, fun h => h.2⟩

theorem independent_symm (md : MessageDescriptor) (y1 y2 : fieldable)
    (h : independent md y1 y2) : independent md y2 y1 :=
  ⟨Ne.symm h.1, h.2.2, h.2.1⟩

/-- The assembly of the same Collected Fields into the same message leaves
the same message. -/
theorem setInput_congr (fl : FloatLib) (ys : List fieldable) :
    ∀ m m1 : Message, (∀ y ∈ ys, Stores fl y) → m.sameFields m1 →
      (setInput fl m ys).1.sameFields (setInput fl m1 ys).1 := by
  induction ys with
  | nil => intro m m1 _ h; simpa [setInput_nil] using h
  | cons y ys ih =>
    intro m m1 hst h
    obtain ⟨ov, hov⟩ := hst y (List.mem_cons_self _ _)
    rw [setInput_cons_ok fl m _ y ys (hov m), setInput_cons_ok fl m1 _ y ys (hov m1)]
    exact ih _ _ (fun z hz => hst z (List.mem_cons_of_mem _ hz)) (storeIf_congr m m1 _ ov h)

/-- The assembly of pairwise independent Collected Fields, each of which
succeeds, leaves the same message for every order of the fields. -/
theorem setInput_perm_sameFields (fl : FloatLib) (ys zs : List fieldable)
    (hp : ys.Perm zs) :
    ∀ m m1 : Message, (∀ y ∈ ys, Stores fl y) → ys.Pairwise (independent m.md) →
      m.sameFields m1 → (setInput fl m ys).1.sameFields (setInput fl m1 zs).1 := by
  induction hp with
  | nil => intro m m1 _ _ h; simpa [setInput_nil] using h
  | cons x _ ih =>
    intro m m1 hst hpw h
    obtain ⟨ov, hov⟩ := hst x (List.mem_cons_self _ _)
    rw [setInput_cons_ok fl m _ x _ (hov m), setInput_cons_ok fl m1 _ x _ (hov m1)]
    refine ih _ _ (fun z hz => hst z (List.mem_cons_of_mem _ hz)) ?_ (storeIf_congr m m1 _ ov h)
    rw [storeIf_md]
    exact (List.pairwise_cons.mp hpw).2
  | swap x y l =>
    intro m m1 hst hpw h
    obtain ⟨ox, hox⟩ := hst x (by simp)
    obtain ⟨oy, hoy⟩ := hst y (by simp)
    rw [setInput_cons_ok fl m _ y _ (hoy m), setInput_cons_ok fl _ _ x _ (hox _),
      setInput_cons_ok fl m1 _ x _ (hox m1), setInput_cons_ok fl _ _ y _ (hoy _)]
    have hind : independent m.md y x := (List.pairwise_cons.mp hpw).1 x (by simp)
    refine setInput_congr fl l _ _ (fun z hz => hst z (by simp [hz])) ?_
    exact sameFields_trans _ _ _
      (storeIf_comm m (descOf y) (descOf x) oy ox hind.1 hind.2.1 hind.2.2)
      (storeIf_congr _ _ _ oy (storeIf_congr m m1 _ ox h))
  | trans h1 _ ih1 ih2 =>
    intro m m1 hst hpw h
    refine sameFields_trans _ _ _ (ih1 m m1 hst hpw h)
      (ih2 m1 m1 (fun z hz => hst z (h1.mem_iff.mpr hz)) ?_ (sameFields_refl m1))
    rw [← h.1]
    exact h1.pairwise hpw (fun hxy => independent_symm _ _ _ hxy)

/-- Collected Fields of a message type with unique field names that have
distinct field identities and are not in the same oneof are independent. -/
theorem independent_of_identity (md : MessageDescriptor)
    (hmd : (md.GetFields.map FieldDescriptor.GetName).Nodup) (y1 y2 : fieldable)
    (h1 : descOf y1 ∈ md.GetFields) (h2 : descOf y2 ∈ md.GetFields)
    (hne : (descOf y1).GetName ≠ (descOf y2).GetName) (hso : sameOneOf y1 y2 = false) :
    independent md y1 y2 := by
  have key : ∀ a b : FieldDescriptor, a ∈ md.GetFields → b ∈ md.GetFields →
      (∀ g, a.oneOfName = some g → b.oneOfName ≠ some g) →
      (clearedBy md a).contains b.GetName = false := by
    intro a b _ hb hab
    cases hc : (clearedBy md a).contains b.GetName with
    | false => rfl
    | true =>
      exfalso
      have hmem := List.elem_iff.mp hc
      unfold clearedBy at hmem
      cases ho : GetOneOf md a with
      | none => rw [ho] at hmem; simp at hmem
      | some o =>
        rw [ho] at hmem
        obtain ⟨g, hg, _, _, hch⟩ := GetOneOf_some md a o ho
        simp only [List.mem_filter, List.mem_map, hch, groupChoices] at hmem
        obtain ⟨⟨f, ⟨hf, hfg⟩, hfn⟩, _⟩ := hmem
        have hfb : f = b := eq_of_name_eq md.GetFields hmd f b hf hb hfn
        rw [hfb] at hfg
        exact hab g hg (by simpa using hfg)
  have hso1 : ∀ g, (descOf y1).oneOfName = some g → (descOf y2).oneOfName ≠ some g := by
    intro g hg hg2
    simp [sameOneOf, hg, hg2] at hso
  refine ⟨hne, key _ _ h1 h2 hso1, key _ _ h2 h1 ?_⟩
  intro g hg hg1
  exact hso1 g hg1 hg

/-- C13: for Collected Fields of a message type with unique field names,
pairwise of distinct field identity and no two in the same oneof, and for
every permutation of them, `setInput` into a fresh message succeeds on the
permutation if and only if it succeeds on the original list, and when it
succeeds the two assembled messages are the same: the same type and the same
value for every field. -/
theorem setInput_order_irrelevant (fl : FloatLib) (md : MessageDescriptor)
    (ys zs : List fieldable) (hperm : ys.Perm zs)
    (hmd : (md.GetFields.map FieldDescriptor.GetName).Nodup)
    (hmem : ∀ y ∈ ys, descOf y ∈ md.GetFields)
    (hid : ys.Pairwise (fun y1 y2 =>
      (descOf y1).GetName ≠ (descOf y2).GetName ∧ sameOneOf y1 y2 = false)) :
    ((setInput fl (NewMessage md) zs).2 = .ok () ↔ (setInput fl (NewMessage md) ys).2 = .ok ()) ∧
    ((setInput fl (NewMessage md) ys).2 = .ok () →
      (setInput fl (NewMessage md) zs).1.sameFields (setInput fl (NewMessage md) ys).1) := by
  have hiff : (setInput fl (NewMessage md) zs).2 = .ok () ↔
      (setInput fl (NewMessage md) ys).2 = .ok () := by
    rw [setInput_ok_iff_stores, setInput_ok_iff_stores]
    exact ⟨fun h y hy => h y (hperm.mem_iff.mp hy), fun h y hy => h y (hperm.mem_iff.mpr hy)⟩
  refine ⟨hiff, fun hok => ?_⟩
  have hst := (setInput_ok_iff_stores fl ys (NewMessage md)).mp hok
  have hind : ys.Pairwise (independent (NewMessage md).md) :=
    List.Pairwise.imp_of_mem
      (fun {a b} ha hb hab =>
        independent_of_identity md hmd a b (hmem a ha) (hmem b hb) hab.1 hab.2) hid
  have h := setInput_perm_sameFields fl ys zs hperm (NewMessage md) (NewMessage md) hst hind
    (sameFields_refl _)
  exact ⟨h.1.symm, fun k => (h.2 k).symm⟩

/-- Witness of C13: `s = "hi"` and `a = 5` assembled into a fresh
`{string s; int64 a; sint64 b; Color c}` in both orders. -/
theorem setInput_order_irrelevant_witness :
    ([fieldable.primitiveField (baseOf exFieldS) "hi",
        .primitiveField (baseOf exFieldA) "5"].Perm
        [.primitiveField (baseOf exFieldA) "5", .primitiveField (baseOf exFieldS) "hi"] ∧
      (exFlat.GetFields.map FieldDescriptor.GetName).Nodup ∧
      setInput exFloatLib (NewMessage exFlat)
          [.primitiveField (baseOf exFieldS) "hi", .primitiveField (baseOf exFieldA) "5"] =
        (.mk exFlat [("s", .string "hi"), ("a", .int64 5)], .ok ()) ∧
      setInput exFloatLib (NewMessage exFlat)
          [.primitiveField (baseOf exFieldA) "5", .primitiveField (baseOf exFieldS) "hi"] =
        (.mk exFlat [("a", .int64 5), ("s", .string "hi")], .ok ())) ∧
    ((setInput exFloatLib (NewMessage exFlat)
          [.primitiveField (baseOf exFieldA) "5", .primitiveField (baseOf exFieldS) "hi"]).2 =
        .ok () ↔
      (setInput exFloatLib (NewMessage exFlat)
          [.primitiveField (baseOf exFieldS) "hi", .primitiveField (baseOf exFieldA) "5"]).2 =
        .ok ()) ∧
    ((setInput exFloatLib (NewMessage exFlat)
          [.primitiveField (baseOf exFieldS) "hi", .primitiveField (baseOf exFieldA) "5"]).2 =
        .ok () →
      (setInput exFloatLib (NewMessage exFlat)
          [.primitiveField (baseOf exFieldA) "5",
            .primitiveField (baseOf exFieldS) "hi"]).1.sameFields
        (setInput exFloatLib (NewMessage exFlat)
          [.primitiveField (baseOf exFieldS) "hi", .primitiveField (baseOf exFieldA) "5"]).1) :=
  ⟨⟨List.Perm.swap _ _ _, by decide, rfl, rfl⟩,
    setInput_order_irrelevant exFloatLib exFlat
      [.primitiveField (baseOf exFieldS) "hi", .primitiveField (baseOf exFieldA) "5"]
      [.primitiveField (baseOf exFieldA) "5", .primitiveField (baseOf exFieldS) "hi"]
      (List.Perm.swap _ _ _) (by decide)
      (by
        intro y hy
        simp only [List.mem_cons, List.mem_singleton, List.not_mem_nil, or_false] at hy
        rcases hy with hy | hy
        · rw [hy]; simp [descOf, baseOf, exFlat, MessageDescriptor.GetFields]
        · rw [hy]; simp [descOf, baseOf, exFlat, MessageDescriptor.GetFields])
      (by decide)⟩

/-! ## C4: end of input during the collection -/

theorem Cause_wrapAll (ms : List String) (r : Error) (hr : r.isWrap = false) :
    (wrapAll ms r).Cause = r := by
  induction ms with
  | nil => cases r <;> simp [wrapAll, Error.Cause, Error.isWrap] at hr ⊢
  | cons m ms ih => simpa [wrapAll, Error.Cause] using ih

theorem exists_wrapAll (err : Error) :
    ∃ ms r, r.isWrap = false ∧ err = wrapAll ms r := by
  induction err with
  | Wrap inner msg ih =>
    obtain ⟨ms, r, hr, h⟩ := ih
    exact ⟨msg :: ms, r, hr, by rw [h]; rfl⟩
  | EOF => exact ⟨[], .EOF, rfl, rfl⟩
  | NumError f n c => exact ⟨[], .NumError f n c, rfl, rfl⟩
  | invalidType t => exact ⟨[], .invalidType t, rfl, rfl⟩
  | typeError f t => exact ⟨[], .typeError f t, rfl, rfl⟩
  | other m => exact ⟨[], .other m, rfl, rfl⟩

/-- An error of the walker is an error answered by the Choice Source, under
one wrapper "failed to read inputs" per enclosing level. -/
theorem inputFields_error_wrapN (e : Env) (fuel : Nat) :
    ∀ (ancestor : List String) (msg : MessageDescriptor) (color : Nat) (c : Console)
      (err : Error) (c1 : Console),
      inputFields e fuel ancestor msg color c = some (.err err, c1) →
      ∃ d i e0, e.AskOne i = .error e0 ∧ err = wrapN d e0 := by
  induction fuel with
  | zero => intro ancestor msg color c err c1 h; simp [inputFields] at h
  | succ fuel ih =>
    intro ancestor msg color c err c1 h
    rw [inputFields] at h
    rcases inputFieldsLoop_error_shape e (inputFields e fuel) ancestor msg _ _ err c1 h with
      ⟨i, hi, _⟩ | ⟨f, nested, color0, c0, err0, hr, herr⟩
    · exact ⟨0, i, err, hi, rfl⟩
    · obtain ⟨d, i, e0, hi, hw⟩ := ih _ _ _ _ _ _ hr
      exact ⟨d + 1, i, e0, hi, by rw [herr, hw]; rfl⟩

/-- C4: when the collection pass of `Call` ends with an error, that error is
one answered by the Choice Source at some choice point, under one wrapper per
enclosing level (the Prompt Source returns no error); it is some error `r`
that is no wrapper, under wrappers. If `r` is the end of input, `Call`
returns the empty string and no error, whatever the wrappers; if `r` is any
other error, `Call` returns the error of the collection. In both cases no
request is assembled and the transport is not used. -/
theorem Call_collection_error (e : Env) (fuel : Nat) (name : String) (rpc : RPC)
    (err : Error) (c : Console) (hrpc : e.GetRPC name = .ok rpc)
    (hw : inputFields e fuel [] rpc.RequestType DarkGreen { inputs := [], selects := [] } =
      some (.err err, c)) :
    (∃ d i e0, e.AskOne i = .error e0 ∧ err = wrapN d e0) ∧
    (∃ ms r, r.isWrap = false ∧ err = wrapAll ms r) ∧
    (∀ ms r, r.isWrap = false → err = wrapAll ms r →
      (r = .EOF → (Call e fuel name).ret = .values "" none) ∧
      (r ≠ .EOF → (Call e fuel name).ret = .values "" (some err))) ∧
    (Call e fuel name).request = none ∧ (Call e fuel name).net = [] := by
  refine ⟨inputFields_error_wrapN e fuel _ _ _ _ err c hw, exists_wrapAll err, ?_, ?_, ?_⟩
  · intro ms r hr herr
    have hc : err.Cause = r := by rw [herr]; exact Cause_wrapAll ms r hr
    constructor
    · intro h
      simp [Call, hrpc, hw, hc, h]
    · intro h
      simp [Call, hrpc, hw, hc, h]
  · by_cases hc : err.Cause = .EOF <;> simp [Call, hrpc, hw, hc]
  · by_cases hc : err.Cause = .EOF <;> simp [Call, hrpc, hw, hc]

/-- Witness of C4: the request `{message m {Color c}}` with a Choice Source
at its end of input, and with a Choice Source that answers the error
`interrupted`: the error of the nested level arrives under one wrapper; for
the end of input `Call` returns the empty string and no error, for
`interrupted` it returns the wrapped error. -/
theorem Call_collection_error_witness :
    ((exEnv [] [] exNestedC).GetRPC "Rpc" =
        .ok { RequestType := exNestedC, ResponseType := exInner } ∧
      inputFields (exEnv [] [] exNestedC) 2 [] exNestedC DarkGreen
          { inputs := [], selects := [] } =
        some (.err (.Wrap .EOF "failed to read inputs"), exAskedColor ["m"]) ∧
      inputFields (exEnv [] [.error (.other "interrupted")] exNestedC) 2 [] exNestedC DarkGreen
          { inputs := [], selects := [] } =
        some (.err (.Wrap (.other "interrupted") "failed to read inputs"),
          exAskedColor ["m"]) ∧
      Error.Wrap .EOF "failed to read inputs" = wrapAll ["failed to read inputs"] .EOF ∧
      Error.Wrap (.other "interrupted") "failed to read inputs" =
        wrapAll ["failed to read inputs"] (.other "interrupted")) ∧
    (Call (exEnv [] [] exNestedC) 2 "Rpc").ret = .values "" none ∧
    (Call (exEnv [] [.error (.other "interrupted")] exNestedC) 2 "Rpc").ret =
      .values "" (some (.Wrap (.other "interrupted") "failed to read inputs")) ∧
    (Call (exEnv [] [] exNestedC) 2 "Rpc").request = none ∧
    (Call (exEnv [] [] exNestedC) 2 "Rpc").net = [] :=
  ⟨⟨rfl, rfl, rfl, rfl, rfl⟩,
    ((Call_collection_error (exEnv [] [] exNestedC) 2 "Rpc"
      { RequestType := exNestedC, ResponseType := exInner }
      (.Wrap .EOF "failed to read inputs") (exAskedColor ["m"]) rfl rfl).2.2.1
        ["failed to read inputs"] .EOF rfl rfl).1 rfl,
    ((Call_collection_error (exEnv [] [.error (.other "interrupted")] exNestedC) 2 "Rpc"
      { RequestType := exNestedC, ResponseType := exInner }
      (.Wrap (.other "interrupted") "failed to read inputs") (exAskedColor ["m"]) rfl
        rfl).2.2.1
        ["failed to read inputs"] (.other "interrupted") rfl rfl).2 (by decide),
    (Call_collection_error (exEnv [] [] exNestedC) 2 "Rpc"
      { RequestType := exNestedC, ResponseType := exInner }
      (.Wrap .EOF "failed to read inputs") (exAskedColor ["m"]) rfl rfl).2.2.2.1,
    (Call_collection_error (exEnv [] [] exNestedC) 2 "Rpc"
      { RequestType := exNestedC, ResponseType := exInner }
      (.Wrap .EOF "failed to read inputs") (exAskedColor ["m"]) rfl rfl).2.2.2.2⟩

/-! ## C3: exactly one member of a oneof -/

theorem getElem?_unique_of_nodup (p : Select → Bool) (l : List Select) :
    ((l.filter p).map Select.subject).Nodup →
    ∀ (q : Select) (i j : Nat), p q = true → l[i]? = some q → l[j]? = some q → i = j := by
  induction l with
  | nil => intro _ q i j _ hi _; simp at hi
  | cons a t ih =>
    intro hnd q i j hq hi hj
    have htail : ((t.filter p).map Select.subject).Nodup := by
      by_cases ha : p a = true
      · rw [List.filter_cons_of_pos ha, List.map_cons] at hnd
        exact (List.nodup_cons.mp hnd).2
      · rw [List.filter_cons_of_neg ha] at hnd
        exact hnd
    have hclash : ∀ k : Nat, a = q → t[k]? = some q → False := by
      intro k haq hk
      rw [haq, List.filter_cons_of_pos hq, List.map_cons] at hnd
      have hmem : q ∈ t := List.getElem?_mem hk
      exact (List.nodup_cons.mp hnd).1
        (List.mem_map.mpr ⟨q, List.mem_filter.mpr ⟨hmem, hq⟩, rfl⟩)
    cases i with
    | zero =>
      cases j with
      | zero => rfl
      | succ j =>
        simp only [List.getElem?_cons_zero, Option.some.injEq] at hi
        simp only [List.getElem?_cons_succ] at hj
        exact (hclash j hi hj).elim
    | succ i =>
      cases j with
      | zero =>
        simp only [List.getElem?_cons_zero, Option.some.injEq] at hj
        simp only [List.getElem?_cons_succ] at hi
        exact (hclash i hj hi).elim
      | succ j =>
        simp only [List.getElem?_cons_succ] at hi hj
        rw [ih htail q i j hq hi hj]

/-- A question that the invocation itself has asked stands at one index only
among the questions of the walk. -/
theorem own_question_unique (e : Env) (fuel : Nat) (ancestor : List String)
    (msg : MessageDescriptor) (color : Nat) (c c1 : Console) (fields : List fieldable)
    (q : Select) (hw : inputFields e fuel ancestor msg color c = some (.ok fields, c1))
    (hq : q.level = ancestor) (i j : Nat) (hi : c.selects.length ≤ i)
    (hj : c.selects.length ≤ j) (hqi : c1.selects[i]? = some q)
    (hqj : c1.selects[j]? = some q) : i = j := by
  have hown := inputFields_own_subjects e fuel ancestor msg color c c1 fields hw
  have hnd : (((c1.selects.drop c.selects.length).filter
      (fun q => q.level == ancestor)).map Select.subject).Nodup := by
    have h := nodup_firstOccurrences (msg.GetFields.filterMap (subjectOf msg))
    rw [← levelSubjects, ← hown] at h
    exact h
  have hi2 : (c1.selects.drop c.selects.length)[i - c.selects.length]? = some q := by
    rw [List.getElem?_drop, ← hqi]
    congr 1
    omega
  have hj2 : (c1.selects.drop c.selects.length)[j - c.selects.length]? = some q := by
    rw [List.getElem?_drop, ← hqj]
    congr 1
    omega
  have := getElem?_unique_of_nodup _ _ hnd q _ _ (by simp [hq]) hi2 hj2
  omega

/-- What a walk that has returned its collected fields says about the oneof
`g` of the level. -/
theorem inputFields_group_member (e : Env) (fuel : Nat) (ancestor : List String)
    (msg : MessageDescriptor) (color : Nat) (c c1 : Console) (fields : List fieldable)
    (g : String) (hw : inputFields e fuel ancestor msg color c = some (.ok fields, c1))
    (hg : ∃ f ∈ msg.GetFields, f.oneOfName = some g)
    (hnames : (msg.GetFields.map FieldDescriptor.GetName).Nodup) :
    ∃ x i, fields.filter (inGroup g) = [x] ∧
      descOf x ∈ groupChoices msg g ∧
      c.selects.length ≤ i ∧
      c1.selects[i]? = some (groupQuestion ancestor msg g) ∧
      (∀ j, c.selects.length ≤ j → c1.selects[j]? = some (groupQuestion ancestor msg g) →
        j = i) ∧
      e.AskOne i = .ok (descOf x).GetName ∧
      (descOf x).GetName ∈ (groupQuestion ancestor msg g).Options ∧
      ∀ m, setInput e.floatLib (NewMessage msg) fields = (m, .ok ()) →
        m.populated (descOf x).GetName = true ∧
        ∀ cand ∈ groupChoices msg g, cand ≠ descOf x → m.populated cand.GetName = false := by
  obtain ⟨hcol, x, i, hfil, hbase, hsel, hask⟩ :=
    inputFields_group e fuel ancestor msg color c c1 fields g hw hg
  have hdesc : ∀ y ∈ fields, descOf y ∈ msg.GetFields ∧ ¬ ∃ b, y = .oneOfField b := by
    intro y hy
    obtain ⟨f, hf, h1 | h1⟩ := hcol y hy
    · obtain ⟨v, rfl⟩ := h1
      exact ⟨hf, by simp⟩
    · obtain ⟨v, rfl⟩ := h1
      exact ⟨hf, by simp⟩
  have hxmem : x ∈ fields.filter (inGroup g) := by rw [hfil]; simp
  have hx : x ∈ fields ∧ inGroup g x = true := List.mem_filter.mp hxmem
  have honly : ∀ y ∈ fields, inGroup g y = true → y = x := by
    intro y hy hgy
    have : y ∈ fields.filter (inGroup g) := List.mem_filter.mpr ⟨hy, hgy⟩
    rw [hfil] at this
    simpa using this
  have hxg : (descOf x).oneOfName = some g := by simpa [inGroup] using hx.2
  have hxc : descOf x ∈ groupChoices msg g := by
    simp only [groupChoices, List.mem_filter, beq_iff_eq]
    exact ⟨(hdesc x hx.1).1, hxg⟩
  refine ⟨x, i, hfil, hxc, hbase, hsel, ?_, hask, ?_, ?_⟩
  · intro j hj hqj
    exact (own_question_unique e fuel ancestor msg color c c1 fields
      (groupQuestion ancestor msg g) hw rfl i j hbase hj hsel hqj).symm
  · simp only [groupQuestion, List.mem_map]
    exact ⟨descOf x, hxc, rfl⟩
  intro m hm
  constructor
  · -- the chosen candidate is populated
    obtain ⟨pre, post, hsplit⟩ := List.append_of_mem hx.1
    rw [hsplit] at hm
    obtain ⟨r1, hpre, hrest⟩ := setInput_append_ok_split e.floatLib pre (x :: post) _ m hm
    have hmd1 : r1.md = msg := (setInput_ok_keys e.floatLib pre _ r1 hpre).1
    rcases setInputField_cases e.floatLib r1 x with ⟨r2, hx2⟩ | ⟨r2, err, hx2⟩ | ⟨r2, hx2⟩
    · rw [setInput_cons_ok e.floatLib r1 r2 x post hx2] at hrest
      rcases setInputField_ok_store e.floatLib r1 r2 x hx2 with ⟨v, hr2⟩ | ⟨hone, _⟩
      · have hmd2 : r2.md = msg := by rw [hr2, internalSetField_md, hmd1]
        apply setInput_ok_keeps e.floatLib _ post r2 m hrest
        · rw [hr2]
          simp [Message.populated, lookup_internalSetField]
        · intro y hy
          have hyf : y ∈ fields := by
            rw [hsplit]
            exact List.mem_append_right _ (List.mem_cons_of_mem _ hy)
          by_contra hcl
          simp only [Bool.not_eq_false] at hcl
          rw [hmd2] at hcl
          unfold clearedBy at hcl
          cases ho : GetOneOf msg (descOf y) with
          | none => rw [ho] at hcl; simp at hcl
          | some o =>
            rw [ho] at hcl
            obtain ⟨g1, hg1, _, _, hch⟩ := GetOneOf_some msg (descOf y) o ho
            have hmem := List.elem_iff.mp hcl
            simp only [List.mem_filter, List.mem_map, bne_iff_ne, ne_eq] at hmem
            obtain ⟨⟨cand, hcand, hcn⟩, hne⟩ := hmem
            rw [hch] at hcand
            simp only [groupChoices, List.mem_filter, beq_iff_eq] at hcand
            have heq : cand = descOf x :=
              eq_of_name_eq _ hnames cand (descOf x) hcand.1 (hdesc x hx.1).1 hcn
            rw [heq, hxg] at hcand
            have hgg : g = g1 := by simpa using hcand.2
            have hyg : inGroup g y = true := by
              simp only [inGroup, hg1, hgg, beq_self_eq_true]
            exact hne (by rw [honly y hyf hyg])
      · exact absurd hone (hdesc x hx.1).2
    · rw [setInput_cons_err e.floatLib r1 r2 x post err hx2] at hrest
      simp at hrest
    · rw [setInput_cons_panic e.floatLib r1 r2 x post hx2] at hrest
      simp at hrest
  · -- the other candidates are absent
    intro cand hcand hne
    by_contra hp
    simp only [Bool.not_eq_false] at hp
    rcases (setInput_ok_keys e.floatLib fields _ m hm).2 _ hp with h1 | ⟨y, hy, hyn⟩
    · simp [NewMessage, Message.populated, Message.lookup, Message.values] at h1
    · simp only [groupChoices, List.mem_filter, beq_iff_eq] at hcand
      have heq : descOf y = cand :=
        eq_of_name_eq _ hnames (descOf y) cand (hdesc y hy).1 hcand.1 hyn
      have hyg : inGroup g y = true := by
        simp only [inGroup, heq, hcand.2, beq_self_eq_true]
      exact hne (by rw [← heq, honly y hy hyg])

/-- C3: for a schema level (its fields of kind message having message types,
its field names unique) one of whose fields is a member of the oneof `g`, the
walk of the level returns when the fuel covers the nesting depth, and it
returns the collected fields when the Choice Source answers every question
with an offered label. In the collected fields exactly one belongs to a
member of the oneof; it is the candidate whose name the Choice Source
answered to the one question that this invocation has asked about the oneof,
one of the offered labels; and a successful `setInput` of the fields into a
fresh message populates that candidate and none of the other candidates. -/
theorem oneof_exactly_one_candidate (e : Env) (fuel : Nat) (ancestor : List String)
    (msg : MessageDescriptor) (color : Nat) (c : Console) (g : String)
    (hwt : msg.wellTyped = true) (hfuel : msg.depth ≤ fuel)
    (hg : ∃ f ∈ msg.GetFields, f.oneOfName = some g)
    (hnames : (msg.GetFields.map FieldDescriptor.GetName).Nodup) :
    ∃ r c1, inputFields e fuel ancestor msg color c = some (r, c1) ∧
      (wellAnswered e c c1 → ∃ fields, r = .ok fields) ∧
      ∀ fields, r = .ok fields →
        ∃ x i, fields.filter (inGroup g) = [x] ∧
          descOf x ∈ groupChoices msg g ∧
          c.selects.length ≤ i ∧
          c1.selects[i]? = some (groupQuestion ancestor msg g) ∧
          (∀ j, c.selects.length ≤ j →
            c1.selects[j]? = some (groupQuestion ancestor msg g) → j = i) ∧
          e.AskOne i = .ok (descOf x).GetName ∧
          (descOf x).GetName ∈ (groupQuestion ancestor msg g).Options ∧
          ∀ m, setInput e.floatLib (NewMessage msg) fields = (m, .ok ()) →
            m.populated (descOf x).GetName = true ∧
            ∀ cand ∈ groupChoices msg g, cand ≠ descOf x →
              m.populated cand.GetName = false := by
  obtain ⟨r, c1, h1, _, h3⟩ := inputFields_total e fuel ancestor msg color c hwt hfuel
  refine ⟨r, c1, h1, h3, ?_⟩
  intro fields hr
  rw [hr] at h1
  exact inputFields_group_member e fuel ancestor msg color c c1 fields g h1 hg hnames

/-- Witness of C3: the request `{oneof id {string email; int64 phone};
string note}` with the answer "phone" of the Choice Source and the answers
"5551234" and "hi" of the Prompt Source: `phone` is the one collected member
of `id`, and in the assembled message `phone` is populated and `email` is
not. -/
theorem oneof_exactly_one_candidate_witness :
    (exContact.wellTyped = true ∧ exContact.depth ≤ 1 ∧
      (∃ f ∈ exContact.GetFields, f.oneOfName = some "id") ∧
      (exContact.GetFields.map FieldDescriptor.GetName).Nodup ∧
      inputFields (exEnv ["5551234", "hi"] [.ok "phone"] exContact) 1 [] exContact DarkGreen
          emptyConsole =
        some (.ok [.primitiveField (baseOf (.mk "phone" .TYPE_INT64 (some "id") none none))
                    "5551234",
                   .primitiveField (baseOf (.mk "note" .TYPE_STRING none none none)) "hi"],
              { inputs := [("phone (TYPE_INT64) => ", 3), ("phone (TYPE_INT64) => ", 3)]
                selects := [groupQuestion [] exContact "id"] }) ∧
      answered (exEnv ["5551234", "hi"] [.ok "phone"] exContact)
          { inputs := [("phone (TYPE_INT64) => ", 3), ("phone (TYPE_INT64) => ", 3)]
            selects := [groupQuestion [] exContact "id"] } 0 = true ∧
      setInput exFloatLib (NewMessage exContact)
          [.primitiveField (baseOf (.mk "phone" .TYPE_INT64 (some "id") none none)) "5551234",
           .primitiveField (baseOf (.mk "note" .TYPE_STRING none none none)) "hi"] =
        (.mk exContact [("phone", .int64 5551234), ("note", .string "hi")], .ok ())) ∧
    ∃ r c1, inputFields (exEnv ["5551234", "hi"] [.ok "phone"] exContact) 1 [] exContact
        DarkGreen emptyConsole = some (r, c1) ∧
      (wellAnswered (exEnv ["5551234", "hi"] [.ok "phone"] exContact) emptyConsole c1 →
        ∃ fields, r = .ok fields) ∧
      ∀ fields, r = .ok fields →
        ∃ x i, fields.filter (inGroup "id") = [x] ∧
          descOf x ∈ groupChoices exContact "id" ∧
          emptyConsole.selects.length ≤ i ∧
          c1.selects[i]? = some (groupQuestion [] exContact "id") ∧
          (∀ j, emptyConsole.selects.length ≤ j →
            c1.selects[j]? = some (groupQuestion [] exContact "id") → j = i) ∧
          (exEnv ["5551234", "hi"] [.ok "phone"] exContact).AskOne i =
            .ok (descOf x).GetName ∧
          (descOf x).GetName ∈ (groupQuestion [] exContact "id").Options ∧
          ∀ m, setInput (exEnv ["5551234", "hi"] [.ok "phone"] exContact).floatLib
              (NewMessage exContact) fields = (m, .ok ()) →
            m.populated (descOf x).GetName = true ∧
            ∀ cand ∈ groupChoices exContact "id", cand ≠ descOf x →
              m.populated cand.GetName = false :=
  ⟨⟨by decide, by decide, ⟨_, List.mem_cons_self _ _, rfl⟩, by decide, rfl, by decide, rfl⟩,
    oneof_exactly_one_candidate (exEnv ["5551234", "hi"] [.ok "phone"] exContact) 1 []
      exContact DarkGreen emptyConsole "id" (by decide) (by decide)
      ⟨_, List.mem_cons_self _ _, rfl⟩ (by decide)⟩

/-! ## C10: questions about an enumeration -/

theorem enumQuestions_afterEnum (q : String) (ancestor : List String) (st : LoopState)
    (en : EnumDescriptor) :
    enumQuestions q (afterEnum ancestor st en).console =
      enumQuestions q st.console + (if en.fqn = q then 1 else 0) := by
  simp only [enumQuestions, afterEnum, List.countP_append, List.countP_cons, List.countP_nil,
    Subject.enum.injEq]
  by_cases h : en.fqn = q <;> simp [h]

theorem enumQuestions_afterOneOf (q : String) (ancestor : List String) (st : LoopState)
    (o : OneOfDescriptor) :
    enumQuestions q (afterOneOf ancestor st o).console = enumQuestions q st.console := by
  simp [enumQuestions, afterOneOf]

theorem pendingQuestion_def (q : String) (st : LoopState) (fs : List FieldDescriptor) :
    pendingQuestion q st fs =
      if q ∈ st.encounteredEnum then 0
      else if fs.any (FieldDescriptor.asksEnum q) then 1 else 0 := by
  simp only [pendingQuestion, List.elem_iff]

theorem enumLevelsOf_append (q : String) (xs ys : List fieldable) :
    enumLevelsOf q (xs ++ ys) = enumLevelsOf q xs + enumLevelsOf q ys := by
  induction xs with
  | nil => simp [enumLevelsOf]
  | cons x xs ih => simp [enumLevelsOf, ih, Nat.add_assoc]

theorem asksEnum_of_oneOf (q : String) (msg : MessageDescriptor) (f : FieldDescriptor)
    (o : OneOfDescriptor) (h : GetOneOf msg f = some o) : f.asksEnum q = false := by
  obtain ⟨g, hg, _⟩ := GetOneOf_some msg f o h
  simp [FieldDescriptor.asksEnum, hg]

theorem oneOfName_of_GetOneOf_none (msg : MessageDescriptor) (f : FieldDescriptor)
    (h : GetOneOf msg f = none) : f.oneOfName = none := by
  cases hn : f.oneOfName with
  | none => rfl
  | some g => simp [GetOneOf, hn] at h

/-- The resolution of a field that is skipped asks nothing and leaves the
questions still to come as they are. -/
theorem pendingQuestion_skip (q : String) (e : Env) (ancestor : List String)
    (msg : MessageDescriptor) (f0 : FieldDescriptor) (rest : List FieldDescriptor)
    (st : LoopState) (hr : resolveField e ancestor msg f0 st = .skip) :
    pendingQuestion q st rest = pendingQuestion q st (f0 :: rest) := by
  rw [pendingQuestion_def, pendingQuestion_def]
  rcases resolveField_skip e ancestor msg f0 st hr with ⟨o, h1, _⟩ | ⟨en, h1, h2, h3⟩
  · simp [List.any_cons, asksEnum_of_oneOf q msg f0 o h1]
  · have h3m : en.fqn ∈ st.encounteredEnum := List.elem_iff.mp h3
    by_cases hq : q ∈ st.encounteredEnum
    · simp [hq]
    · have hne : (en.fqn == q) = false := by
        simp only [beq_eq_false_iff_ne, ne_eq]
        intro hc
        rw [hc] at h3m
        exact hq h3m
      simp [hq, List.any_cons, FieldDescriptor.asksEnum, FieldDescriptor.refersToEnum, h2, hne]

/-- The resolution of a field that lets a field through has asked the
question about the enumeration `q` exactly when it was still to come for this
field. -/
theorem enumQuestions_resolve (q : String) (e : Env) (ancestor : List String)
    (msg : MessageDescriptor) (f0 f : FieldDescriptor) (rest : List FieldDescriptor)
    (st st1 : LoopState) (hr : resolveField e ancestor msg f0 st = .go f st1) :
    st1.input = st.input ∧
    enumQuestions q st1.console + pendingQuestion q st1 rest =
      enumQuestions q st.console + pendingQuestion q st (f0 :: rest) := by
  rw [pendingQuestion_def, pendingQuestion_def]
  rcases resolveField_go e ancestor msg f0 f st st1 hr with
    ⟨o, _, h1, _, _, _, hst1⟩ | ⟨en, _, h1, h2, h3, _, _, hst1⟩ | ⟨h1, h2, _, hst1⟩
  · rw [hst1, enumQuestions_afterOneOf]
    refine ⟨rfl, ?_⟩
    simp [afterOneOf, List.any_cons, asksEnum_of_oneOf q msg f0 o h1]
  · have ho := oneOfName_of_GetOneOf_none msg f0 h1
    have h3m : en.fqn ∉ st.encounteredEnum := by
      intro hc
      have h4 : st.encounteredEnum.contains en.fqn = true := List.elem_iff.mpr hc
      rw [h4] at h3
      exact absurd h3 (by simp)
    rw [hst1, enumQuestions_afterEnum]
    refine ⟨rfl, ?_⟩
    simp only [List.any_cons, FieldDescriptor.asksEnum, FieldDescriptor.refersToEnum, h2, ho,
      afterEnum, List.mem_cons, Option.isNone_none, Bool.true_and]
    by_cases hq : q ∈ st.encounteredEnum
    · have hne : ¬ en.fqn = q := by
        intro hc
        rw [hc] at h3m
        exact h3m hq
      simp [hq, hne]
    · by_cases hfq : en.fqn = q
      · subst hfq
        simp [hq]
      · have hne2 : ¬ q = en.fqn := fun hc => hfq hc.symm
        have hne3 : (en.fqn == q) = false := by simpa using hfq
        simp [hq, hfq, hne2, hne3]
  · have ho := oneOfName_of_GetOneOf_none msg f0 h1
    rw [hst1]
    refine ⟨rfl, ?_⟩
    simp [List.any_cons, FieldDescriptor.asksEnum, FieldDescriptor.refersToEnum, h2]

/-- One turn of the loop keeps the balance of the questions asked, of those
still to come at the level and of the levels visited below the collected
fields. -/
theorem enumQuestions_step (q : String) (e : Env)
    (recur : List String → MessageDescriptor → Nat → Console → Walk)
    (hrec : ∀ anc m col c fields c1, recur anc m col c = some (.ok fields, c1) →
      enumQuestions q c1 = enumQuestions q c + visitedEnumLevels q m fields)
    (ancestor : List String) (msg : MessageDescriptor) (f0 : FieldDescriptor)
    (rest : List FieldDescriptor) (st st2 : LoopState)
    (h : inputFieldsStep e recur ancestor msg f0 st = .next st2) :
    enumQuestions q st2.console + pendingQuestion q st2 rest + enumLevelsOf q st.input =
      enumQuestions q st.console + pendingQuestion q st (f0 :: rest) +
        enumLevelsOf q st2.input := by
  rcases inputFieldsStep_next e recur ancestor msg f0 st st2 h with
    ⟨hr, hst2⟩ | ⟨f, st1, hr, hm, hst2⟩ | ⟨f, st1, nested, fields, c, hr, hm, hn, hrc, hst2⟩
  · rw [hst2, pendingQuestion_skip q e ancestor msg f0 rest st hr]
  · obtain ⟨hin, hcnt⟩ := enumQuestions_resolve q e ancestor msg f0 f rest st st1 hr
    have h1 : enumQuestions q st2.console = enumQuestions q st1.console := by
      rw [hst2]; simp [enumQuestions, afterScalar]
    have h2 : pendingQuestion q st2 rest = pendingQuestion q st1 rest := by
      rw [hst2]; simp [pendingQuestion, afterScalar]
    have h3 : enumLevelsOf q st2.input = enumLevelsOf q st.input := by
      rw [hst2]
      simp [afterScalar, hin, enumLevelsOf_append, enumLevelsOf, fieldable.enumLevels]
    rw [h1, h2, h3, hcnt]
  · obtain ⟨hin, hcnt⟩ := enumQuestions_resolve q e ancestor msg f0 f rest st st1 hr
    have hnest := hrec _ _ _ _ _ _ hrc
    have h1 : enumQuestions q st2.console =
        enumQuestions q st1.console + visitedEnumLevels q nested fields := by
      rw [hst2]; simpa [afterMessage] using hnest
    have h2 : pendingQuestion q st2 rest = pendingQuestion q st1 rest := by
      rw [hst2]; simp [pendingQuestion, afterMessage]
    have h3 : enumLevelsOf q st2.input =
        enumLevelsOf q st.input + visitedEnumLevels q nested fields := by
      rw [hst2]
      simp [afterMessage, hin, enumLevelsOf_append, enumLevelsOf, fieldable.enumLevels, baseOf,
        hn, visitedEnumLevels]
    rw [h1, h2, h3]
    omega

/-- The questions about an enumeration asked by a walk that returns its
collected fields: one per visited level that has a field outside a oneof
constrained by it. -/
theorem enumQuestions_walk (q : String) (e : Env) (fuel : Nat) :
    ∀ (ancestor : List String) (msg : MessageDescriptor) (color : Nat) (c : Console)
      (fields : List fieldable) (c1 : Console),
      inputFields e fuel ancestor msg color c = some (.ok fields, c1) →
      enumQuestions q c1 = enumQuestions q c + visitedEnumLevels q msg fields := by
  induction fuel with
  | zero => intro ancestor msg color c fields c1 h; simp [inputFields] at h
  | succ fuel ih =>
    intro ancestor msg color c fields c1 h
    rw [inputFields] at h
    obtain ⟨stf, hI, hin, hc⟩ := inputFieldsLoop_ok_invariant e (inputFields e fuel) ancestor
      msg
      (fun gs s => enumQuestions q s.console + pendingQuestion q s gs =
        enumQuestions q c + levelAsks q msg + enumLevelsOf q s.input)
      (fun f0 rest s s2 hI hs => by
        have := enumQuestions_step q e (inputFields e fuel) ih ancestor msg f0 rest s s2 hs
        omega)
      msg.GetFields _ fields c1
      (by simp [pendingQuestion, levelAsks, enumLevelsOf]) h
    rw [← hc, ← hin, visitedEnumLevels]
    simp only [pendingQuestion, List.any_nil] at hI
    simp only [Bool.false_eq_true, if_false, ite_self, Nat.add_zero] at hI
    omega

/-- C10, counterexample: in the request `{Color c; message m {Color c}}` the
enumeration `pkg.Color` is referenced by a field of the top level and by a
field of the nested message; in one pass the Choice Source is asked about it
twice, not once. And in the request `{oneof id {Color x; string y}}` the
enumeration is referenced by one field, a member of a oneof, and the Choice
Source is not asked about it at all. -/
theorem enum_asked_again_in_nested_level :
    (∃ fields c,
      inputFields (exEnv ["0", "1"] [.ok "RED", .ok "BLUE"] exColorTwice) 2 [] exColorTwice
        DarkGreen emptyConsole = some (.ok fields, c) ∧
      enumQuestions "pkg.Color" c = 2) ∧
    ∃ fields c,
      inputFields (exEnv ["0"] [.ok "x"] exOneofColor) 1 [] exOneofColor DarkGreen
        emptyConsole = some (.ok fields, c) ∧
      enumQuestions "pkg.Color" c = 0 :=
  ⟨⟨_, _, rfl, by decide⟩, _, _, rfl, by decide⟩

/-- C10, amended: a pass over a schema returns when the fuel covers the
nesting depth (the fields of kind message having message types), and it
returns its collected fields when the Choice Source answers every question
with an offered label. In a pass that returns its collected fields the
Choice Source is consulted for an enumeration exactly once in each visited
schema level (the top level and the message type of every Composite
collected, at any depth) that has a field outside a oneof constrained by it:
the levels keep separate records, and a member of a oneof gets no question
about its enumeration, so the number of questions about it is the number of
such levels. -/
theorem enumQuestions_once_per_level (q : String) (e : Env) (fuel : Nat)
    (ancestor : List String) (msg : MessageDescriptor) (color : Nat) (c : Console)
    (hwt : msg.wellTyped = true) (hfuel : msg.depth ≤ fuel) :
    ∃ r c1, inputFields e fuel ancestor msg color c = some (r, c1) ∧
      (wellAnswered e c c1 → ∃ fields, r = .ok fields) ∧
      ∀ fields, r = .ok fields →
        enumQuestions q c1 = enumQuestions q c + visitedEnumLevels q msg fields := by
  obtain ⟨r, c1, h1, _, h3⟩ := inputFields_total e fuel ancestor msg color c hwt hfuel
  refine ⟨r, c1, h1, h3, ?_⟩
  intro fields hr
  rw [hr] at h1
  exact enumQuestions_walk q e fuel ancestor msg color c fields c1 h1

/-- Witness of the amended C10: the request `{Color c; message m {Color c}}`
has two visited levels with a field of the enumeration `pkg.Color`. -/
theorem enumQuestions_once_per_level_witness :
    (exColorTwice.wellTyped = true ∧ exColorTwice.depth ≤ 2 ∧
      inputFields (exEnv ["0", "1"] [.ok "RED", .ok "BLUE"] exColorTwice) 2 [] exColorTwice
          DarkGreen emptyConsole =
        some (.ok [.primitiveField (baseOf exFieldC) "0",
                   .messageField (baseOf (.mk "m" .TYPE_MESSAGE none none (some exOnlyC)))
                     [.primitiveField (baseOf exFieldC) "1"]],
              { inputs := [("c (TYPE_ENUM) => ", 3), ("@mc (TYPE_ENUM) => ", 3)]
                selects := (exAskedColor []).selects ++ (exAskedColor ["m"]).selects }) ∧
      visitedEnumLevels "pkg.Color" exColorTwice
          [.primitiveField (baseOf exFieldC) "0",
           .messageField (baseOf (.mk "m" .TYPE_MESSAGE none none (some exOnlyC)))
             [.primitiveField (baseOf exFieldC) "1"]] = 2) ∧
    ∃ r c1,
      inputFields (exEnv ["0", "1"] [.ok "RED", .ok "BLUE"] exColorTwice) 2 [] exColorTwice
        DarkGreen emptyConsole = some (r, c1) ∧
      (wellAnswered (exEnv ["0", "1"] [.ok "RED", .ok "BLUE"] exColorTwice) emptyConsole c1 →
        ∃ fields, r = .ok fields) ∧
      ∀ fields, r = .ok fields →
        enumQuestions "pkg.Color" c1 =
          enumQuestions "pkg.Color" emptyConsole +
            visitedEnumLevels "pkg.Color" exColorTwice fields :=
  ⟨⟨by decide, by decide, rfl, by decide⟩,
    enumQuestions_once_per_level "pkg.Color"
      (exEnv ["0", "1"] [.ok "RED", .ok "BLUE"] exColorTwice) 2 [] exColorTwice DarkGreen
      emptyConsole (by decide) (by decide)⟩

end Evans
